import Mathlib

/-!
# xcmdline: a shallow embedding of `xcmdline::parser`

The development follows `source/xcmdline_parser.h`.

Modelling conventions.

* `std::string`, `std::string_view` and the C strings of `argv` are lists of
  characters (`Str`).
* `argc` is the number of entries of `argv`; it is assumed to fit in an `int`,
  as is the number of registered options.
* `std::hash<std::string_view>` is an arbitrary function `hash : Str → Nat`,
  a parameter of every definition that uses it.
* A function whose C++ body can step outside its contract returns an
  `Option`: `none` stands for a read outside a string (`front()` / `back()` of
  an empty string), a read outside a vector, or a loop that was cut off by its
  iteration bound.  Every loop that is not a plain traversal of a list carries
  such a bound (`fuel`); the entry points pass a bound that the loop cannot
  reach.
* A member function that mutates the registry returns the new registry.
* The two overloads of `Parse` are `Parse` (argument vector) and `ParseString`
  (command-line string); `Opt` is the record `parser::Option`.
* `printHelp` and the lambda `printOption` return the text that the C++ writes
  to `std::cout`.
* Library functions (`find_first_of`, `substr`, `c_str`, `operator>>` on an
  `std::istringstream`, ...) are modelled from the C++ standard, `"C"` locale.
-/

namespace xcmdline

/-- Character strings. -/
abbrev Str := List Char

/-- The type `parser::error`, a string; the empty string means success. -/
abbrev error := Str

/-- The type `parser::handle`. -/
structure handle where
  m_Value : Int := -1
deriving DecidableEq, Repr

/-- The type `parser::group_handle`. -/
structure group_handle where
  m_Value : Int := -1
deriving DecidableEq, Repr

/-- The record `parser::Option`. -/
structure Opt where
  m_Key : Nat
  m_Name : Str
  m_Description : Str
  m_isRequired : Bool
  m_minArgs : Nat
  m_Args : List Str
deriving DecidableEq, Repr

/-- The record `parser::groups`. -/
structure groups where
  m_Name : Str
  m_Description : Str
  m_Options : List handle
deriving DecidableEq, Repr

/-- The data members of `class parser`. -/
structure parser where
  m_Options : List Opt
  m_Groups : List groups
  m_programName : Str
deriving DecidableEq, Repr

namespace parser

/-- A default-constructed `parser`. -/
def empty : parser := ⟨[], [], []⟩

/-- The conversion `static_cast<size_t>(int)` on a 64-bit target. -/
def toSizeT (n : Int) : Nat := (n % 2 ^ 64).toNat

/-- The member `addGroup`. -/
def addGroup (p : parser) (name description : Str) : parser × group_handle :=
  let a : groups := { m_Name := name, m_Description := description, m_Options := [] }
  let m_Groups := p.m_Groups ++ [a]
  ({ p with m_Groups := m_Groups }, ⟨(m_Groups.length : Int) - 1⟩)

/-- The member `addOption`. -/
def addOption (hash : Str → Nat) (p : parser) (flag description : Str)
    (required : Bool) (minArgs : Int) (group : group_handle) : parser × handle :=
  let opt : Opt :=
    { m_Key := hash flag
      m_Name := flag
      m_Description := description
      m_isRequired := required
      m_minArgs := toSizeT minArgs
      m_Args := [] }
  let m_Options := p.m_Options ++ [opt]
  let OptHandle : handle := ⟨(m_Options.length : Int) - 1⟩
  if 0 ≤ group.m_Value ∧ group.m_Value < (p.m_Groups.length : Int) then
    ({ p with
        m_Options := m_Options
        m_Groups := p.m_Groups.modify
          (fun g => { g with m_Options := g.m_Options ++ [OptHandle] }) group.m_Value.toNat },
      OptHandle)
  else
    ({ p with m_Options := m_Options }, OptHandle)

/-- The helper `isFlag`. -/
def isFlag (arg : Str) : Bool :=
  !arg.isEmpty && (arg.head? == some '-' || arg.take 2 == ['-', '-'])

/-- The flag name of a flag token: the token without its leading `--`, or else
without its first character (`Parse`, lines 78-86). -/
def flagName (arg : Str) : Str :=
  if arg.take 2 = ['-', '-'] then arg.drop 2 else arg.drop 1

/-- The loop of `findOption`: the options still to visit and the running index. -/
def findOptionLoop (Key : Nat) (flag : Str) : List Opt → Int → Option handle
  | [], _ => none
  | opt :: rest, index =>
    if opt.m_Key = Key ∧ opt.m_Name = flag then some ⟨index⟩
    else findOptionLoop Key flag rest (index + 1)

/-- The member `findOption`, a `std::variant<handle, error>`. -/
def findOption (hash : Str → Nat) (p : parser) (flag : Str) : handle ⊕ error :=
  let Key := hash flag
  match findOptionLoop Key flag p.m_Options 0 with
  | some h => Sum.inl h
  | none => Sum.inr ("Unknown option - ".toList ++ flag)

/-- The `while` loop of `parseArgument`: `oss` is the stream's content and `i`
the caller's index, which the loop advances. -/
def parseArgumentLoop (argv : List Str) : Nat → Str → Nat → Option (Str × Nat)
  | 0, _, _ => none
  | fuel + 1, oss, i =>
    if i + 1 < argv.length then
      match argv[i + 1]? with
      | none => none
      | some nextArg =>
        match nextArg.getLast? with
        | none => none
        | some c =>
          if c = '"' then some (oss ++ [' '] ++ nextArg.dropLast, i + 1)
          else parseArgumentLoop argv fuel (oss ++ [' '] ++ nextArg) (i + 1)
    else some (oss, i)

/-- The member `parseArgument`; the result is the argument and the new value of
the index `i`, which the C++ takes by reference. -/
def parseArgument (arg : Str) (i : Nat) (argv : List Str) : Option (Str × Nat) :=
  match arg.head? with
  | none => none
  | some f =>
    if f = '"' then
      match arg.getLast? with
      | none => none
      | some b =>
        if b ≠ '"' then parseArgumentLoop argv argv.length (arg.drop 1) i
        else some (arg, i)
    else some (arg, i)

/-- The `while` loop of `Parse` that collects the arguments of one option
(lines 97-100): `args` is the option's list and `i` the scan index. -/
def collectArgs (argv : List Str) : Nat → List Str → Nat → Option (List Str × Nat)
  | 0, _, _ => none
  | fuel + 1, args, i =>
    if i + 1 < argv.length then
      match argv[i + 1]? with
      | none => none
      | some next =>
        if !isFlag next then
          match parseArgument next (i + 1) argv with
          | none => none
          | some (a, i') => collectArgs argv fuel (args ++ [a]) i'
        else some (args, i)
    else some (args, i)

/-- The text of the insufficient-arguments error (line 104). -/
def minArgsError (flag : Str) (minArgs : Nat) : error :=
  "Option - ".toList ++ flag ++ " requires at least ".toList ++ (Nat.repr minArgs).toList
    ++ " arguments".toList

/-- The text of the missing-option error (line 114). -/
def requiredError (name : Str) : error :=
  "Required option - ".toList ++ name ++ " is missing".toList

/-- Replace the argument list of the option at `idx`; `args` in the C++ is a
reference to that list, so every `push_back` lands in the registry. -/
def setArgs (p : parser) (idx : Nat) (opt : Opt) (args : List Str) : parser :=
  { p with m_Options := p.m_Options.set idx { opt with m_Args := args } }

/-- The `for` loop of `Parse` over the tokens (lines 72-108).  The result is
the registry and the error of an early `return`, if there was one. -/
def ParseLoop (hash : Str → Nat) (argv : List Str) :
    Nat → parser → Nat → Option (parser × Option error)
  | 0, _, _ => none
  | fuel + 1, p, i =>
    if i < argv.length then
      match argv[i]? with
      | none => none
      | some arg =>
        if isFlag arg then
          let flag := flagName arg
          match findOption hash p flag with
          | Sum.inr E => some (p, some E)
          | Sum.inl h =>
            match p.m_Options[h.m_Value.toNat]? with
            | none => none
            | some opt =>
              match collectArgs argv argv.length opt.m_Args i with
              | none => none
              | some (args, i') =>
                let p' := setArgs p h.m_Value.toNat opt args
                if args.length < opt.m_minArgs then
                  some (p', some (minArgsError flag opt.m_minArgs))
                else ParseLoop hash argv fuel p' (i' + 1)
        else ParseLoop hash argv fuel p (i + 1)
    else some (p, none)

/-- The `for` loop of `Parse` over the options (lines 110-118). -/
def requiredLoop : List Opt → error
  | [] => []
  | opt :: rest =>
    if opt.m_isRequired && opt.m_Args.isEmpty then requiredError opt.m_Name
    else requiredLoop rest

/-- The registry after the first statement of `Parse` (lines 67-70). -/
def setProgramName (p : parser) (argv : List Str) : parser :=
  match argv with
  | [] => p
  | a :: _ => { p with m_programName := a }

/-- The token scan of `Parse(int, const char* const[])`: lines 67-108. -/
def scan (hash : Str → Nat) (p : parser) (argv : List Str) : Option (parser × Option error) :=
  ParseLoop hash argv (argv.length + 1) (setProgramName p argv) 1

/-- The member `Parse(int argc, const char* const argv[])`. -/
def Parse (hash : Str → Nat) (p : parser) (argv : List Str) : Option (parser × error) :=
  match scan hash p argv with
  | none => none
  | some (p', some E) => some (p', E)
  | some (p', none) => some (p', requiredLoop p'.m_Options)

/-- The member `clear`. -/
def clear (_p : parser) : parser := ⟨[], [], []⟩

/-- The member `clearArgs`. -/
def clearArgs (p : parser) : parser :=
  { p with m_Options := p.m_Options.map (fun E => { E with m_Args := [] }) }

/-- The member `hasOption`; `none` when the handle is out of range. -/
def hasOption (p : parser) (hOption : handle) : Option Bool :=
  if hOption.m_Value < 0 then none
  else
    match p.m_Options[hOption.m_Value.toNat]? with
    | none => none
    | some opt => some (!opt.m_Args.isEmpty)

/-- The member `getOptionArgCount`; `none` when the handle is out of range. -/
def getOptionArgCount (p : parser) (hOption : handle) : Option Nat :=
  if hOption.m_Value < 0 then none
  else
    match p.m_Options[hOption.m_Value.toNat]? with
    | none => none
    | some opt => some opt.m_Args.length

/-! ### The string entry point -/

/-- The constant `delimiters` of `Parse(std::string_view)`: space and tab. -/
def delimiters : Str := " \t".toList

/-- Modelled from the C++ standard: `s.find_first_not_of(set, pos)`, the least
index at or after `pos` whose character is not in `set`; `none` is `npos`. -/
def find_first_not_of (s set : Str) (pos : Nat) : Option Nat :=
  ((s.drop pos).findIdx? (fun c => !set.contains c)).map (fun k => pos + k)

/-- Modelled from the C++ standard: `s.find_first_of(set, pos)`, the least index
at or after `pos` whose character is in `set`; `none` is `npos`. -/
def find_first_of (s set : Str) (pos : Nat) : Option Nat :=
  ((s.drop pos).findIdx? (fun c => set.contains c)).map (fun k => pos + k)

/-- Modelled from the C++ standard: `s.substr(pos, n)`, which throws when `pos`
is beyond the end of `s`. -/
def substr (s : Str) (pos n : Nat) : Option Str :=
  if pos ≤ s.length then some ((s.drop pos).take n) else none

/-- Modelled from the C++ standard: the C string that `c_str()` hands to a reader
of `const char*`, which ends at the first NUL character. -/
def c_str (s : Str) : Str := s.takeWhile (fun c => c != Char.ofNat 0)

/-- The `while` loop of `Parse(std::string_view)` (lines 141-150). -/
def tokenizeLoop (commandLine : Str) : Nat → Option Nat → List Str → Option (List Str)
  | 0, _, _ => none
  | fuel + 1, start, args =>
    match start with
    | none => some args
    | some start =>
      let end_ :=
        match find_first_of commandLine delimiters start with
        | none => commandLine.length
        | some e => e
      match substr commandLine start (end_ - start) with
      | none => none
      | some tok =>
        tokenizeLoop commandLine fuel (find_first_not_of commandLine delimiters end_)
          (args ++ [tok])

/-- The vector `args` that `Parse(std::string_view)` builds (lines 136-150). -/
def tokenize (commandLine : Str) : Option (List Str) :=
  tokenizeLoop commandLine (commandLine.length + 1)
    (find_first_not_of commandLine delimiters 0) []

/-- The member `Parse(std::string_view commandLine)`. -/
def ParseString (hash : Str → Nat) (p : parser) (commandLine : Str) : Option (parser × error) :=
  match tokenize commandLine with
  | none => none
  | some args => Parse hash p (args.map c_str)

/-! ### Typed extraction -/

/-- The text of the missing-argument error (line 182). -/
def noArgumentError (name : Str) (index : Nat) : error :=
  "Option - ".toList ++ name ++ " does not have argument ".toList ++ (Nat.repr index).toList

/-- The member template `getOptionArgAs<T>`, with the specialization of
`convertValue<T>` as a parameter.  The result is `none` when the handle is out
of range; otherwise it holds the registry as the call leaves it (the member is
`const`, and `m_Args` is `mutable`) and the returned `std::variant<T, error>`. -/
def getOptionArgAs {T : Type} (convertValue : Str → Str → Nat → T ⊕ error)
    (p : parser) (hOption : handle) (index : Nat) : Option (parser × (T ⊕ error)) :=
  if hOption.m_Value < 0 then none
  else
    match p.m_Options[hOption.m_Value.toNat]? with
    | none => none
    | some opt =>
      if index ≥ opt.m_Args.length then some (p, Sum.inr (noArgumentError opt.m_Name index))
      else
        match opt.m_Args[index]? with
        | none => none
        | some value => some (p, convertValue value opt.m_Name index)

/-- The specialization `convertValue<std::string>`: the value itself, which
`getOptionArgAs` wraps into the `std::string` alternative of the variant. -/
def convertValue_string (value : Str) (_flag : Str) (_argIndex : Nat) : Str ⊕ error :=
  Sum.inl value

/-- The instance `getOptionArgAs<std::string>`. -/
def getOptionArgAs_string (p : parser) (hOption : handle) (index : Nat) :
    Option (parser × (Str ⊕ error)) :=
  getOptionArgAs convertValue_string p hOption index

/-! ### Help -/

/-- The constant `leftColumnWidth` of `printHelp`. -/
def leftColumnWidth : Nat := 30

/-- The constant `leftPadding` of `printHelp`. -/
def leftPadding : Str := List.replicate leftColumnWidth ' '

/-- Modelled from the C++ standard: `s.find(c, pos)`, the least index at or after
`pos` that holds `c`; `none` is `npos`. -/
def find (s : Str) (c : Char) (pos : Nat) : Option Nat :=
  ((s.drop pos).findIdx? (fun x => x == c)).map (fun k => pos + k)

/-- The left column of an entry, `optText` in `printOption` (lines 200-218);
`pfx` is the lambda's parameter `prefix`. -/
def optText (opt : Opt) (pfx : Str) : Str :=
  let s := pfx ++ "-".toList ++ opt.m_Name
    ++ (if opt.m_Name.length > 1 then ", --".toList ++ opt.m_Name else [])
    ++ (if opt.m_minArgs > 0 then " <args>".toList else [])
  if s.length < leftColumnWidth then s ++ List.replicate (leftColumnWidth - s.length) ' '
  else if s.length > leftColumnWidth then s.take leftColumnWidth
  else s

/-- The text `desc` that `printOption` splits into lines (lines 220-228). -/
def descText (opt : Opt) : Str :=
  opt.m_Description
    ++ (if opt.m_isRequired then " (required)".toList else [])
    ++ (if opt.m_minArgs > 0
        then " (min ".toList ++ (Nat.repr opt.m_minArgs).toList ++ " args)".toList else [])

/-- The `while (true)` loop of `printOption` (lines 230-247); the result is the
text written to `std::cout`. -/
def printLines (optText desc : Str) : Nat → Nat → Bool → Option Str
  | 0, _, _ => none
  | fuel + 1, start, firstLine =>
    let pos := find desc '\n' start
    let line :=
      match pos with
      | none => substr desc start (desc.length - start)
      | some q => substr desc start (q - start)
    match line with
    | none => none
    | some line =>
      let out :=
        if firstLine then optText ++ line ++ ['\n']
        else if !line.isEmpty then leftPadding ++ line ++ ['\n']
        else []
      match pos with
      | none => some out
      | some q =>
        match printLines optText desc fuel (q + 1) false with
        | none => none
        | some rest => some (out ++ rest)

/-- The lambda `printOption` of `printHelp`; the result is the text written to
`std::cout`. -/
def printOption (opt : Opt) (pfx : Str) : Option Str :=
  printLines (optText opt pfx) (descText opt) ((descText opt).length + 1) 0 true

/-- The inner loop of the group section (lines 255-258). -/
def printGroupOptions (p : parser) : List handle → Option Str
  | [] => some []
  | optHandle :: rest =>
    if optHandle.m_Value < 0 then none
    else
      match p.m_Options[optHandle.m_Value.toNat]? with
      | none => none
      | some opt =>
        match printOption opt "    ".toList, printGroupOptions p rest with
        | some a, some b => some (a ++ b)
        | _, _ => none

/-- The heading of a group (lines 253-254). -/
def groupHeading (group : groups) : Str :=
  "\n".toList ++ group.m_Name ++ ":\n".toList ++ "  ".toList ++ group.m_Description
    ++ "\n".toList

/-- The loop over the groups (lines 251-259). -/
def printGroups (p : parser) : List groups → Option Str
  | [] => some []
  | group :: rest =>
    match printGroupOptions p group.m_Options, printGroups p rest with
    | some a, some b => some (groupHeading group ++ a ++ b)
    | _, _ => none

/-- The test `isGrouped` of the ungrouped section (lines 265-273). -/
def isGrouped (p : parser) (i : Nat) : Bool :=
  p.m_Groups.any (fun group => group.m_Options.contains ⟨(i : Int)⟩)

/-- The heading of the ungrouped section (line 278). -/
def ungroupedHeading : Str := "\nUngrouped Options:\n".toList

/-- The loop of the ungrouped section (lines 262-283): the options from index
`i` on, and the flag `hasUngroupedOptions`. -/
def printUngrouped (p : parser) : List Opt → Nat → Bool → Option Str
  | [], _, _ => some []
  | opt :: rest, i, hasUngroupedOptions =>
    if !isGrouped p i then
      match printOption opt "  ".toList, printUngrouped p rest (i + 1) true with
      | some a, some b =>
        some ((if !hasUngroupedOptions then ungroupedHeading else []) ++ a ++ b)
      | _, _ => none
    else printUngrouped p rest (i + 1) hasUngroupedOptions

/-- The first two lines that `printHelp` writes (lines 191-192). -/
def usageText (p : parser) : Str :=
  "Usage: ".toList ++ p.m_programName ++ " [options] [positional arguments]\n".toList
    ++ "Options:\n".toList

/-- The member `printHelp`; the result is the text written to `std::cout`, and
`none` when a handle in a group is out of range. -/
def printHelp (p : parser) : Option Str :=
  match printGroups p p.m_Groups, printUngrouped p p.m_Options 0 false with
  | some a, some b => some (usageText p ++ a ++ b)
  | _, _ => none

/-! ### Conversion to `int64_t` -/

/-- Modelled from the C++ standard: `std::isspace` in the `"C"` locale. -/
def isSpace (c : Char) : Bool :=
  c == ' ' || c == '\t' || c == '\n' || c == Char.ofNat 11 || c == Char.ofNat 12 || c == '\r'

/-- The value of a run of decimal digits. -/
def decValue (digits : Str) : Nat :=
  digits.foldl (fun acc c => acc * 10 + (c.toNat - 48)) 0

/-- What `iss >> result` leaves behind: the value stored and the state bits
that `fail()` and `eof()` report. -/
structure StreamState where
  value : Int
  fail : Bool
  eof : Bool
deriving DecidableEq, Repr

/-- Modelled from the C++ standard: `iss >> result` for an `int64_t` on a fresh
`std::istringstream` over `s` (`"C"` locale, `dec`, `skipws`).  The sentry skips
leading white space and sets `failbit` and `eofbit` when nothing is left.
Otherwise `num_get` accumulates an optional sign and the decimal digits that
follow, sets `eofbit` when it stops at the end of the text, and converts the
field as `strtoll` does: `failbit` with the value 0 when the field has no digit,
`failbit` with the nearest bound when the value is out of range. -/
def extractInt64 (s : Str) : StreamState :=
  match s.dropWhile isSpace with
  | [] => { value := 0, fail := true, eof := true }
  | c :: cs =>
    let body := if c == '+' || c == '-' then cs else c :: cs
    let digits := body.takeWhile Char.isDigit
    let eof := (body.dropWhile Char.isDigit).isEmpty
    if digits.isEmpty then { value := 0, fail := true, eof := eof }
    else
      let n : Int := if c == '-' then -(decValue digits : Int) else (decValue digits : Int)
      if n < -(2 : Int) ^ 63 then { value := -(2 : Int) ^ 63, fail := true, eof := eof }
      else if n ≥ (2 : Int) ^ 63 then { value := (2 : Int) ^ 63 - 1, fail := true, eof := eof }
      else { value := n, fail := false, eof := eof }

/-- The text of the conversion error of `convertValue<int64_t>` (line 389). -/
def intConversionError (value flag : Str) (argIndex : Nat) : error :=
  "Failed to convert '".toList ++ value ++ "' to integer at argument ".toList
    ++ (Nat.repr argIndex).toList ++ " of -".toList ++ flag

/-- The specialization `convertValue<int64_t>`. -/
def convertValue_int64 (value flag : Str) (argIndex : Nat) : Int ⊕ error :=
  let iss := extractInt64 value
  if iss.fail || !iss.eof then Sum.inr (intConversionError value flag argIndex)
  else Sum.inl iss.value

/-- The instance `getOptionArgAs<int64_t>`. -/
def getOptionArgAs_int64 (p : parser) (hOption : handle) (index : Nat) :
    Option (parser × (Int ⊕ error)) :=
  getOptionArgAs convertValue_int64 p hOption index

/-! ## The token scan as a relation

`Step` is one iteration of the `for` loop of `Parse` that ends by `++i`;
`Halt` is an iteration that leaves the loop; `Run` chains them.  `Run` is
proved below to describe `ParseLoop` exactly. -/

/-- One iteration of the token loop that goes on to the next iteration: from
registry `p` and index `i` to registry `q` and index `j`. -/
inductive Step (hash : Str → Nat) (argv : List Str) : parser → Nat → parser → Nat → Prop
  | skip {p : parser} {i : Nat} {arg : Str} :
      argv[i]? = some arg → isFlag arg = false → Step hash argv p i p (i + 1)
  | flag {p : parser} {i : Nat} {arg : Str} {h : handle} {opt : Opt} {args : List Str}
      {i' : Nat} :
      argv[i]? = some arg → isFlag arg = true →
      findOption hash p (flagName arg) = Sum.inl h →
      p.m_Options[h.m_Value.toNat]? = some opt →
      collectArgs argv argv.length opt.m_Args i = some (args, i') →
      opt.m_minArgs ≤ args.length →
      Step hash argv p i (setArgs p h.m_Value.toNat opt args) (i' + 1)

/-- An iteration of the token loop that leaves it: the loop condition fails, or
one of the two `return` statements is taken. -/
inductive Halt (hash : Str → Nat) (argv : List Str) :
    parser → Nat → parser → Option error → Prop
  | done {p : parser} {i : Nat} : argv.length ≤ i → Halt hash argv p i p none
  | unknown {p : parser} {i : Nat} {arg : Str} {E : error} :
      argv[i]? = some arg → isFlag arg = true →
      findOption hash p (flagName arg) = Sum.inr E →
      Halt hash argv p i p (some E)
  | minArgs {p : parser} {i : Nat} {arg : Str} {h : handle} {opt : Opt} {args : List Str}
      {i' : Nat} :
      argv[i]? = some arg → isFlag arg = true →
      findOption hash p (flagName arg) = Sum.inl h →
      p.m_Options[h.m_Value.toNat]? = some opt →
      collectArgs argv argv.length opt.m_Args i = some (args, i') →
      args.length < opt.m_minArgs →
      Halt hash argv p i (setArgs p h.m_Value.toNat opt args)
        (some (minArgsError (flagName arg) opt.m_minArgs))

/-- The token loop from registry `p` and index `i` to its exit. -/
inductive Run (hash : Str → Nat) (argv : List Str) :
    parser → Nat → parser → Option error → Prop
  | halt {p : parser} {i : Nat} {p' : parser} {r : Option error} :
      Halt hash argv p i p' r → Run hash argv p i p' r
  | step {p : parser} {i : Nat} {q : parser} {j : Nat} {p' : parser} {r : Option error} :
      Step hash argv p i q j → Run hash argv q j p' r → Run hash argv p i p' r

/-- The loop states that the scan of `argv` passes through, starting from
registry `p0`: the registry and the index at the head of an iteration. -/
inductive Reach (hash : Str → Nat) (argv : List Str) (p0 : parser) : parser → Nat → Prop
  | start : Reach hash argv p0 (setProgramName p0 argv) 1
  | step {p : parser} {i : Nat} {q : parser} {j : Nat} :
      Reach hash argv p0 p i → Step hash argv p i q j → Reach hash argv p0 q j

/-! ## Specification-side definitions -/

/-- The declaration part of an option: the option without collected arguments. -/
def decl (o : Opt) : Opt := { o with m_Args := [] }

/-- Every stored key is the hash of the stored name, as `addOption` sets it. -/
def KeysOk (hash : Str → Nat) (p : parser) : Prop :=
  ∀ o ∈ p.m_Options, o.m_Key = hash o.m_Name

/-- A token that is not a flag. -/
def notFlag (t : Str) : Bool := !isFlag t

/-- From the specification: the concatenation, in stream order, of the maximal
runs of non-flag tokens that immediately follow each flag token chosen by
`resolves`. -/
def runsFor (resolves : Str → Bool) : List Str → List Str
  | [] => []
  | t :: rest =>
    if isFlag t && resolves t then rest.takeWhile notFlag ++ runsFor resolves rest
    else runsFor resolves rest

/-- The flag token `t` resolves to the option at index `k` of registry `p`. -/
def resolvesTo (hash : Str → Nat) (p : parser) (k : Nat) (t : Str) : Bool :=
  decide (findOption hash p (flagName t) = Sum.inl ⟨(k : Int)⟩)

/-- From the specification: lookup by name alone, first match in registration
order. -/
def findByName (p : parser) (flag : Str) : Option Nat :=
  p.m_Options.findIdx? (fun o => decide (o.m_Name = flag))

/-- Registry `q` declares what `p` declares, and every argument list of `q`
extends the list of `p` at the end. -/
def Ext (p q : parser) : Prop :=
  q.m_Groups = p.m_Groups ∧ q.m_programName = p.m_programName ∧
  q.m_Options.length = p.m_Options.length ∧
  ∀ (k : Nat) (o : Opt), p.m_Options[k]? = some o →
    ∃ ex, q.m_Options[k]? = some { o with m_Args := o.m_Args ++ ex }

/-- A non-empty argument list has at least `minArgs` entries. -/
def MinArgsOk (p : parser) : Prop :=
  ∀ o ∈ p.m_Options, o.m_Args ≠ [] → o.m_minArgs ≤ o.m_Args.length

/-- No token after the program name is empty or begins with a double quote. -/
def PlainFrom1 (argv : List Str) : Prop :=
  ∀ (j : Nat) (t : Str), 1 ≤ j → argv[j]? = some t → t ≠ [] ∧ t.head? ≠ some '"'

/-- From the specification: the tokens joined, each preceded by a single
space. -/
def spaced : List Str → Str
  | [] => []
  | t :: ts => ' ' :: t ++ spaced ts

/-- A space or a tab. -/
def isDelimiter (c : Char) : Bool := c == ' ' || c == '\t'

/-- From the specification: the maximal non-empty substrings of `s` that
contain no space and no tab, in left-to-right order. -/
def tokensSpec (s : Str) : List Str :=
  (s.splitOnP isDelimiter).filter (fun t => !t.isEmpty)

/-- Registry `p` is registry `pc` with the list `A k` put in front of the
argument list of each option `k`. -/
def Shifted (A : Nat → List Str) (pc p : parser) : Prop :=
  p.m_Groups = pc.m_Groups ∧ p.m_programName = pc.m_programName ∧
  p.m_Options.length = pc.m_Options.length ∧
  ∀ (k : Nat) (n : Opt), pc.m_Options[k]? = some n →
    p.m_Options[k]? = some { n with m_Args := A k ++ n.m_Args }

/-- No token begins with a double quote. -/
def NoQuote (argv : List Str) : Prop := ∀ t ∈ argv, t.head? ≠ some '"'

/-- The registries that a program can hold: built from a default-constructed
`parser` by calls of the public member functions. -/
inductive Built (hash : Str → Nat) : parser → Prop
  | empty : Built hash parser.empty
  | addGroup {p : parser} (name description : Str) :
      Built hash p → Built hash (addGroup p name description).1
  | addOption {p : parser} (flag description : Str) (required : Bool) (minArgs : Int)
      (group : group_handle) :
      Built hash p → Built hash (addOption hash p flag description required minArgs group).1
  | parse {p : parser} {argv : List Str} {p' : parser} {e : error} :
      Built hash p → Parse hash p argv = some (p', e) → Built hash p'
  | clearArgs {p : parser} : Built hash p → Built hash (clearArgs p)
  | clear {p : parser} : Built hash p → Built hash (clear p)

/-- From the specification: the vector without the flag tokens, at index 1 or
later, that resolve to the option at index `k`. -/
def withoutFlagsOf (hash : Str → Nat) (p : parser) (k : Nat) : List Str → List Str
  | [] => []
  | a :: rest => a :: rest.filter (fun t => !(isFlag t && resolvesTo hash p k t))

/-- The token at index `j` is the last one or is followed by a flag token. -/
def BareAt (argv : List Str) (j : Nat) : Prop :=
  argv.length ≤ j + 1 ∨ ∃ u, argv[j + 1]? = some u ∧ isFlag u = true

/-- Every flag token at index `i` or later that resolves to the option at index
`k` is followed by a flag token or by the end of the vector. -/
def BareFlagsOf (hash : Str → Nat) (p : parser) (k : Nat) (argv : List Str) (i : Nat) : Prop :=
  ∀ (j : Nat) (t : Str), i ≤ j → argv[j]? = some t → isFlag t = true →
    resolvesTo hash p k t = true → BareAt argv j

/-- No token after the program name is empty. -/
def NonEmptyFrom1 (argv : List Str) : Prop :=
  ∀ (i : Nat) (u : Str), 1 ≤ i → argv[i]? = some u → u ≠ []

/-- From the specification: the lines of a description, split at the newline
characters. -/
def linesOf (desc : Str) : List Str := desc.splitOnP (fun c => c == '\n')

/-- From the specification: the suffixes of an option, ` (required)` when it is
required and then ` (min N args)` when `minArgs = N > 0`. -/
def suffixText (opt : Opt) : Str :=
  (if opt.m_isRequired then " (required)".toList else [])
    ++ (if opt.m_minArgs > 0
        then " (min ".toList ++ (Nat.repr opt.m_minArgs).toList ++ " args)".toList else [])

/-- From the specification: the lines of an entry written out, the first one
after the left column, every later one that is not empty after the padding. -/
def renderLines (left : Str) : Bool → List Str → Str
  | _, [] => []
  | firstLine, line :: rest =>
    (if firstLine then left ++ line ++ ['\n']
     else if line ≠ [] then leftPadding ++ line ++ ['\n']
     else [])
      ++ renderLines left false rest

/-- From the specification: the help entry of an option. -/
def entrySpec (opt : Opt) (pfx : Str) : Str :=
  renderLines (optText opt pfx) true (linesOf (descText opt))

/-- The registries that a program can hold, each with the record of its
registrations: entry `k` of the list is `some g` when option `k` was registered
with the valid group handle `g`, and `none` when it was registered with a group
handle that was not valid. -/
inductive BuiltWith (hash : Str → Nat) : parser → List (Option Nat) → Prop
  | empty : BuiltWith hash parser.empty []
  | addGroup {p : parser} {a : List (Option Nat)} (name description : Str) :
      BuiltWith hash p a → BuiltWith hash (addGroup p name description).1 a
  | addOption {p : parser} {a : List (Option Nat)} (flag description : Str) (required : Bool)
      (minArgs : Int) (group : group_handle) :
      BuiltWith hash p a →
      BuiltWith hash (addOption hash p flag description required minArgs group).1
        (a ++ [if 0 ≤ group.m_Value ∧ group.m_Value < (p.m_Groups.length : Int)
               then some group.m_Value.toNat else none])
  | parse {p : parser} {a : List (Option Nat)} {argv : List Str} {p' : parser} {e : error} :
      BuiltWith hash p a → Parse hash p argv = some (p', e) → BuiltWith hash p' a
  | clearArgs {p : parser} {a : List (Option Nat)} :
      BuiltWith hash p a → BuiltWith hash (clearArgs p) a

/-- From the specification: the indices, counted from `i` and in registration
order, of the options whose registration record is `x`. -/
def idxFrom (x : Option Nat) : List (Option Nat) → Nat → List Nat
  | [], _ => []
  | y :: rest, i => if y = x then i :: idxFrom x rest (i + 1) else idxFrom x rest (i + 1)

/-- From the specification: the entries of the options at the given indices,
one after the other. -/
def entriesAt (p : parser) (pfx : Str) : List Nat → Str
  | [] => []
  | k :: ks =>
    (match p.m_Options[k]? with
     | some opt => entrySpec opt pfx
     | none => [])
      ++ entriesAt p pfx ks

/-- From the specification: the heading of a group, a blank line, the name
followed by a colon, and the description indented by two spaces. -/
def headingSpec (name description : Str) : Str :=
  '\n' :: name ++ ':' :: '\n' :: ' ' :: ' ' :: description ++ ['\n']

/-- From the specification: for each group in registration order, its heading
and the entries of the options registered with it, in registration order. -/
def groupsSpec (p : parser) (a : List (Option Nat)) : List groups → Nat → Str
  | [], _ => []
  | group :: rest, gi =>
    headingSpec group.m_Name group.m_Description
      ++ entriesAt p "    ".toList (idxFrom (some gi) a 0)
      ++ groupsSpec p a rest (gi + 1)

/-- From the specification: the options registered with no valid group, under
the heading `Ungrouped Options`, which is left out when there is none. -/
def ungroupedSpec (p : parser) (a : List (Option Nat)) : Str :=
  if idxFrom none a 0 = [] then []
  else "\nUngrouped Options:\n".toList ++ entriesAt p "  ".toList (idxFrom none a 0)

/-- From the specification: the help text, the usage line that names the
program, the line `Options:`, the groups and the ungrouped options. -/
def helpSpec (p : parser) (a : List (Option Nat)) : Str :=
  "Usage: ".toList ++ p.m_programName ++ " [options] [positional arguments]\nOptions:\n".toList
    ++ groupsSpec p a p.m_Groups 0 ++ ungroupedSpec p a

/-- The group lists of registry `p` agree with the registration record `a`. -/
def GroupsOk (p : parser) (a : List (Option Nat)) : Prop :=
  a.length = p.m_Options.length ∧
  (∀ gi : Nat, some gi ∈ a → gi < p.m_Groups.length) ∧
  ∀ (gi : Nat) (group : groups), p.m_Groups[gi]? = some group →
    group.m_Options = (idxFrom (some gi) a 0).map (fun (k : Nat) => (⟨(k : Int)⟩ : handle))

/-- From the specification: apart from optional leading white space, the whole
of `s` is an optionally signed run of one or more decimal digits that denotes
`n`, and `n` is an `int64_t` value. -/
def IsInt64Text (s : Str) (n : Int) : Prop :=
  ∃ ws sign digits : Str, s = ws ++ sign ++ digits ∧
    (∀ c ∈ ws, isSpace c = true) ∧
    (sign = [] ∨ sign = ['+'] ∨ sign = ['-']) ∧
    digits ≠ [] ∧ (∀ c ∈ digits, c.isDigit = true) ∧
    n = (if sign = ['-'] then -(decValue digits : Int) else (decValue digits : Int)) ∧
    -(2 : Int) ^ 63 ≤ n ∧ n < (2 : Int) ^ 63

/-- From the specification: the decimal rendering of an integer. -/
def renderInt (n : Int) : Str :=
  if n < 0 then '-' :: (Nat.repr n.natAbs).toList else (Nat.repr n.toNat).toList

end parser

/-! ## The example program -/

/-- A hash function for the examples: the sum of the character codes. -/
def sumHash (s : Str) : Nat := (s.map Char.toNat).sum

open parser in
/-- The registry that `Example` declares (`xcmdline_examples.h`, lines 24-35). -/
def exampleRegistry : parser :=
  let s0 := addGroup parser.empty "Input Options".toList "Options for input handling".toList
  let s1 := addGroup s0.1 "Output Options".toList "Options for output configuration".toList
  let gInput := s0.2
  let gOutput := s1.2
  let s2 := addOption sumHash s1.1 "h".toList
    "Show this help message\nUse -h or --h to display".toList false 0 gInput
  let s3 := addOption sumHash s2.1 "input".toList
    "Input file path\nSpecify a valid file or use - for stdin\nDefault is stdin if omitted".toList
    true 1 gInput
  let s4 := addOption sumHash s3.1 "output".toList
    "Output file path\nLong description split\ninto multiple lines".toList false 1 gOutput
  let s5 := addOption sumHash s4.1 "v".toList
    "Enable verbose logging\nSet to see detailed output".toList false 0 gOutput
  let s6 := addOption sumHash s5.1 "scale".toList
    "Scale factor for processing\nValues between 0.1 and 10.0\nDefault is 1.0".toList false 1 {}
  s6.1

/-- The argument vector of `Example` (`xcmdline_examples.h`, lines 12-21). -/
def exampleArgv : List Str :=
  ["ProgramExample".toList, "--input".toList, "data.txt".toList, "--output".toList,
   "result.txt".toList, "-v".toList, "--scale".toList, "2.5".toList]

/-- The registry after `Example` has parsed its argument vector. -/
def exampleParsed : parser :=
  match parser.Parse sumHash exampleRegistry exampleArgv with
  | some r => r.1
  | none => exampleRegistry

/-- The argument vector that holds the program name only. -/
def progOnly : List Str := ["prog".toList]

/-- A vector that supplies the required option `input` last. -/
def lateArgv : List Str :=
  ["prog".toList, "-v".toList, "--scale".toList, "2.5".toList, "--input".toList,
   "data.txt".toList]

/-- A registry that declares the single option `v`, not required, `minArgs = 0`. -/
def flagRegistry : parser :=
  (parser.addOption sumHash parser.empty "v".toList "Enable verbose logging".toList false 0 {}).1

/-- A vector whose unknown flag `--unknown` follows an unterminated quoted token. -/
def absorbedArgv : List Str :=
  ["prog".toList, "--v".toList, "\"a".toList, "--unknown".toList]

/-- The vector of the unknown-option test. -/
def unknownArgv : List Str := ["prog".toList, "--unknown".toList]

/-- The registry of the specification's tests: the single option `input`,
required, `minArgs = 1`. -/
def inputRegistry : parser :=
  (parser.addOption sumHash parser.empty "input".toList "Input file path".toList true 1 {}).1

/-- The option record that `inputRegistry` holds. -/
def inputOption : Opt :=
  { m_Key := sumHash "input".toList
    m_Name := "input".toList
    m_Description := "Input file path".toList
    m_isRequired := true
    m_minArgs := 1
    m_Args := [] }

/-- A vector that gives the flag `--input` twice, the second time without
arguments. -/
def repeatArgv : List Str :=
  ["prog".toList, "--input".toList, "a".toList, "--input".toList]

/-- The vector of the insufficient-arguments test. -/
def bareInputArgv : List Str := ["prog".toList, "--input".toList]

/-- A registry that declares the flag `v` twice. -/
def duplicateRegistry : parser :=
  (parser.addOption sumHash flagRegistry "v".toList "Second registration".toList false 0 {}).1

/-- A vector with a quoted phrase that spans two tokens. -/
def quotedArgv : List Str :=
  ["prog".toList, "--v".toList, "\"a".toList, "b\"".toList, "c".toList]

/-- The handle that `addOption` returns for the option `v` of `flagRegistry`. -/
def flagHandle : handle :=
  (parser.addOption sumHash parser.empty "v".toList "Enable verbose logging".toList false 0 {}).2

/-- The vector `["prog","--v"]`. -/
def flagArgv : List Str := ["prog".toList, "--v".toList]

/-- The handle of option `input` in `exampleRegistry`. -/
def inputHandle : handle := ⟨1⟩

/-- The vector that gives a lone dash as the value of `input`. -/
def dashArgv : List Str := ["prog".toList, "--input".toList, "-".toList]

/-- A vector that stores an argument for `input` and then names an unknown flag. -/
def partialArgv : List Str :=
  ["prog".toList, "--input".toList, "a".toList, "--unknown".toList]

/-- The registry that the failed parse of `partialArgv` leaves. -/
def partialParsed : parser :=
  match parser.Parse sumHash exampleRegistry partialArgv with
  | some r => r.1
  | none => exampleRegistry

/-- A command line whose last token is a single NUL character. -/
def nulLine : Str := "p --v ".toList ++ [Char.ofNat 0]

/-- The option `input` as `Example` declares it, with its three-line
description. -/
def exampleInput : Opt :=
  { m_Key := sumHash "input".toList
    m_Name := "input".toList
    m_Description :=
      "Input file path\nSpecify a valid file or use - for stdin\nDefault is stdin if omitted".toList
    m_isRequired := true
    m_minArgs := 1
    m_Args := [] }

/-- The registration record of `exampleRegistry`: `h` and `input` in group 0,
`output` and `v` in group 1, `scale` in no group. -/
def exampleRecord : List (Option Nat) := [some 0, some 0, some 1, some 1, none]

/-- The help text that `Example` writes after its parse. -/
def exampleHelp : Str :=
  ("Usage: ProgramExample [options] [positional arguments]\n"
   ++ "Options:\n"
   ++ "\n"
   ++ "Input Options:\n"
   ++ "  Options for input handling\n"
   ++ "    -h                        Show this help message\n"
   ++ "                              Use -h or --h to display\n"
   ++ "    -input, --input <args>    Input file path\n"
   ++ "                              Specify a valid file or use - for stdin\n"
   ++ "                              Default is stdin if omitted (required) (min 1 args)\n"
   ++ "\n"
   ++ "Output Options:\n"
   ++ "  Options for output configuration\n"
   ++ "    -output, --output <args>  Output file path\n"
   ++ "                              Long description split\n"
   ++ "                              into multiple lines (min 1 args)\n"
   ++ "    -v                        Enable verbose logging\n"
   ++ "                              Set to see detailed output\n"
   ++ "\n"
   ++ "Ungrouped Options:\n"
   ++ "  -scale, --scale <args>      Scale factor for processing\n"
   ++ "                              Values between 0.1 and 10.0\n"
   ++ "                              Default is 1.0 (min 1 args)\n").toList

namespace parser

/-! ## Lemmas on the helpers -/

theorem isFlag_nil : isFlag [] = false := rfl

theorem parseArgument_plain {arg : Str} (hne : arg ≠ []) (hq : arg.head? ≠ some '"')
    (i : Nat) (argv : List Str) : parseArgument arg i argv = some (arg, i) := by
  cases arg with
  | nil => exact absurd rfl hne
  | cons c cs =>
    have hc : c ≠ '"' := by simpa using hq
    simp [parseArgument, hc]

theorem parseArgumentLoop_le (argv : List Str) :
    ∀ (fuel : Nat) (oss : Str) (i : Nat) (r : Str × Nat),
      parseArgumentLoop argv fuel oss i = some r → i ≤ r.2 := by
  intro fuel
  induction fuel with
  | zero => intro oss i r h; simp [parseArgumentLoop] at h
  | succ fuel ih =>
    intro oss i r h
    simp only [parseArgumentLoop] at h
    split at h
    · split at h
      · exact absurd h (by simp)
      · split at h
        · exact absurd h (by simp)
        · split at h
          · cases h; simp
          · have := ih _ _ _ h; omega
    · cases h; simp

theorem parseArgument_le {arg : Str} {i : Nat} {argv : List Str} {r : Str × Nat}
    (h : parseArgument arg i argv = some r) : i ≤ r.2 := by
  simp only [parseArgument] at h
  split at h
  · exact absurd h (by simp)
  · split at h
    · split at h
      · exact absurd h (by simp)
      · split at h
        · exact parseArgumentLoop_le _ _ _ _ _ h
        · cases h; simp
    · cases h; simp

theorem collectArgs_le (argv : List Str) :
    ∀ (fuel : Nat) (args : List Str) (i : Nat) (r : List Str × Nat),
      collectArgs argv fuel args i = some r → i ≤ r.2 := by
  intro fuel
  induction fuel with
  | zero => intro args i r h; simp [collectArgs] at h
  | succ fuel ih =>
    intro args i r h
    simp only [collectArgs] at h
    split at h
    · split at h
      · exact absurd h (by simp)
      · split at h
        · split at h
          · exact absurd h (by simp)
          · rename_i a i' hp
            have h1 := parseArgument_le hp
            have h2 := ih _ _ _ h
            simp at h1
            omega
        · cases h; simp
    · cases h; simp

/-- The arguments that `collectArgs` gathers do not depend on the list they are
appended to. -/
theorem collectArgs_append (argv : List Str) (A : List Str) :
    ∀ (fuel : Nat) (args : List Str) (i : Nat),
      collectArgs argv fuel (A ++ args) i
        = (collectArgs argv fuel args i).map (fun r => (A ++ r.1, r.2)) := by
  intro fuel
  induction fuel with
  | zero => intro args i; simp [collectArgs]
  | succ fuel ih =>
    intro args i
    simp only [collectArgs]
    split
    · split
      · simp
      · split
        · split
          · simp
          · rw [List.append_assoc, ih]
        · simp
    · simp

theorem collectArgs_eq_nil_append (argv : List Str) (fuel : Nat) (args : List Str) (i : Nat) :
    collectArgs argv fuel args i
      = (collectArgs argv fuel [] i).map (fun r => (args ++ r.1, r.2)) := by
  have := collectArgs_append argv args fuel [] i
  simpa using this

/-! ## The relation and the loop agree -/

theorem Step.lt {hash : Str → Nat} {argv : List Str} {p q : parser} {i j : Nat}
    (h : Step hash argv p i q j) : i < j := by
  cases h with
  | skip _ _ => omega
  | flag _ _ _ _ hc _ => have := collectArgs_le _ _ _ _ _ hc; simp at this; omega

theorem Step.index_lt {hash : Str → Nat} {argv : List Str} {p q : parser} {i j : Nat}
    (h : Step hash argv p i q j) : i < argv.length := by
  cases h with
  | skip ha _ => exact (List.getElem?_eq_some.1 ha).1
  | flag ha _ _ _ _ _ => exact (List.getElem?_eq_some.1 ha).1

theorem Step.parseLoop_succ {hash : Str → Nat} {argv : List Str} {p q : parser} {i j : Nat}
    (h : Step hash argv p i q j) (fuel : Nat) :
    ParseLoop hash argv (fuel + 1) p i = ParseLoop hash argv fuel q j := by
  have hi := h.index_lt
  cases h with
  | skip ha hf => simp [ParseLoop, hi, ha, hf]
  | flag ha hf hfind hopt hc hmin =>
    simp [ParseLoop, hi, ha, hf, hfind, hopt, hc, Nat.not_lt.2 hmin]

theorem Halt.parseLoop_halt {hash : Str → Nat} {argv : List Str} {p p' : parser} {i : Nat}
    {r : Option error} (h : Halt hash argv p i p' r) (fuel : Nat) :
    ParseLoop hash argv (fuel + 1) p i = some (p', r) := by
  cases h with
  | done hi => simp [ParseLoop, Nat.not_lt.2 hi]
  | unknown ha hf hfind =>
    have hi := (List.getElem?_eq_some.1 ha).1
    simp [ParseLoop, hi, ha, hf, hfind]
  | minArgs ha hf hfind hopt hc hmin =>
    have hi := (List.getElem?_eq_some.1 ha).1
    simp [ParseLoop, hi, ha, hf, hfind, hopt, hc, hmin]

/-- Every result of the loop is a run of the relation. -/
theorem Run.of_parseLoop (hash : Str → Nat) (argv : List Str) :
    ∀ (fuel : Nat) (p : parser) (i : Nat) (p' : parser) (r : Option error),
      ParseLoop hash argv fuel p i = some (p', r) → Run hash argv p i p' r := by
  intro fuel
  induction fuel with
  | zero => intro p i p' r h; simp [ParseLoop] at h
  | succ fuel ih =>
    intro p i p' r h
    simp only [ParseLoop] at h
    split at h
    · split at h
      · exact absurd h (by simp)
      · rename_i arg ha
        split at h
        · rename_i hf
          split at h
          · rename_i E hfind
            simp only [Option.some.injEq, Prod.mk.injEq] at h
            obtain ⟨rfl, rfl⟩ := h
            exact Run.halt (Halt.unknown ha hf hfind)
          · rename_i hd hfind
            split at h
            · exact absurd h (by simp)
            · rename_i opt hopt
              split at h
              · exact absurd h (by simp)
              · rename_i args i' hc
                split at h
                · rename_i hmin
                  simp only [Option.some.injEq, Prod.mk.injEq] at h
                  obtain ⟨rfl, rfl⟩ := h
                  exact Run.halt (Halt.minArgs ha hf hfind hopt hc hmin)
                · rename_i hmin
                  exact Run.step (Step.flag ha hf hfind hopt hc (Nat.not_lt.1 hmin))
                    (ih _ _ _ _ h)
        · rename_i hf
          exact Run.step (Step.skip ha (by simpa using hf)) (ih _ _ _ _ h)
    · rename_i hi
      simp only [Option.some.injEq, Prod.mk.injEq] at h
      obtain ⟨rfl, rfl⟩ := h
      exact Run.halt (Halt.done (Nat.not_lt.1 hi))

/-- A run of the relation is the result of the loop, for every iteration bound
of at least `argc + 1 - i`. -/
theorem Run.parseLoop_eq {hash : Str → Nat} {argv : List Str} {p p' : parser} {i : Nat}
    {r : Option error} (h : Run hash argv p i p' r) :
    ∀ fuel : Nat, 1 ≤ fuel → argv.length + 1 ≤ fuel + i →
      ParseLoop hash argv fuel p i = some (p', r) := by
  induction h with
  | halt hh =>
    intro fuel h1 _
    obtain ⟨n, rfl⟩ : ∃ n, fuel = n + 1 := ⟨fuel - 1, by omega⟩
    exact hh.parseLoop_halt n
  | step hs _ ih =>
    intro fuel h1 h2
    obtain ⟨n, rfl⟩ : ∃ n, fuel = n + 1 := ⟨fuel - 1, by omega⟩
    have hlt := hs.lt
    have hi := hs.index_lt
    rw [hs.parseLoop_succ n]
    exact ih n (by omega) (by omega)

/-- The scan of `Parse` is a run from index 1, and conversely. -/
theorem scan_iff_run (hash : Str → Nat) (p : parser) (argv : List Str) (p' : parser)
    (r : Option error) :
    scan hash p argv = some (p', r) ↔ Run hash argv (setProgramName p argv) 1 p' r := by
  constructor
  · intro h
    exact Run.of_parseLoop hash argv _ _ _ _ _ h
  · intro h
    exact h.parseLoop_eq (argv.length + 1) (by omega) (by omega)

/-- A run from a state that the scan reaches is the rest of the scan. -/
theorem Reach.run {hash : Str → Nat} {argv : List Str} {p0 p : parser} {i : Nat}
    (h : Reach hash argv p0 p i) {p' : parser} {r : Option error}
    (hr : Run hash argv p i p' r) : Run hash argv (setProgramName p0 argv) 1 p' r := by
  induction h with
  | start => exact hr
  | step _ hs ih => exact ih (Run.step hs hr)

theorem Parse_of_scan {hash : Str → Nat} {p : parser} {argv : List Str} {p' : parser}
    {r : Option error} (h : scan hash p argv = some (p', r)) :
    Parse hash p argv = some (p', r.getD (requiredLoop p'.m_Options)) := by
  cases r <;> simp [Parse, h]

/-! ## Lookup -/

theorem findOptionLoop_some (Key : Nat) (flag : Str) :
    ∀ (opts : List Opt) (start : Int) (h : handle),
      findOptionLoop Key flag opts start = some h →
      ∃ n : Nat, h.m_Value = start + n ∧
        (∃ o, opts[n]? = some o ∧ o.m_Key = Key ∧ o.m_Name = flag) ∧
        ∀ m o, m < n → opts[m]? = some o → ¬ (o.m_Key = Key ∧ o.m_Name = flag) := by
  intro opts
  induction opts with
  | nil => intro start h hf; simp [findOptionLoop] at hf
  | cons a rest ih =>
    intro start h hf
    simp only [findOptionLoop] at hf
    split at hf
    · rename_i hm
      cases hf
      exact ⟨0, by simp, ⟨a, by simp, hm⟩, by intro m o hlt; omega⟩
    · rename_i hm
      obtain ⟨n, hv, ⟨o, ho, hk⟩, hmin⟩ := ih _ _ hf
      refine ⟨n + 1, by rw [hv]; push_cast; ring, ⟨o, by simpa using ho, hk⟩, ?_⟩
      intro m o' hlt hget
      cases m with
      | zero => simp at hget; subst hget; exact hm
      | succ m => exact hmin m o' (by omega) (by simpa using hget)

theorem findOptionLoop_none (Key : Nat) (flag : Str) :
    ∀ (opts : List Opt) (start : Int),
      findOptionLoop Key flag opts start = none ↔
        ∀ o ∈ opts, ¬ (o.m_Key = Key ∧ o.m_Name = flag) := by
  intro opts
  induction opts with
  | nil => intro start; simp [findOptionLoop]
  | cons a rest ih =>
    intro start
    simp only [findOptionLoop]
    split
    · rename_i hm
      simp only [List.mem_cons, forall_eq_or_imp, false_iff, reduceCtorEq]
      intro hcon
      exact hcon.1 hm
    · rename_i hm
      rw [ih]
      simp only [List.mem_cons, forall_eq_or_imp]
      exact ⟨fun h => ⟨hm, h⟩, fun h => h.2⟩

theorem findOptionLoop_congr (Key : Nat) (flag : Str) :
    ∀ (opts opts' : List Opt) (start : Int), opts.map decl = opts'.map decl →
      findOptionLoop Key flag opts start = findOptionLoop Key flag opts' start := by
  intro opts
  induction opts with
  | nil =>
    intro opts' start h
    cases opts' with
    | nil => rfl
    | cons b rest' => simp at h
  | cons a rest ih =>
    intro opts' start h
    cases opts' with
    | nil => simp at h
    | cons b rest' =>
      simp only [List.map_cons, List.cons.injEq] at h
      obtain ⟨hab, hrest⟩ := h
      have hk : a.m_Key = b.m_Key := by
        have := congrArg Opt.m_Key hab
        simpa [decl] using this
      have hn : a.m_Name = b.m_Name := by
        have := congrArg Opt.m_Name hab
        simpa [decl] using this
      simp only [findOptionLoop, hk, hn, ih rest' (start + 1) hrest]

theorem findOption_congr (hash : Str → Nat) {p q : parser}
    (h : p.m_Options.map decl = q.m_Options.map decl) (flag : Str) :
    findOption hash p flag = findOption hash q flag := by
  simp only [findOption, findOptionLoop_congr (hash flag) flag _ _ 0 h]

/-- What `findOption` returns when it finds an option. -/
theorem findOption_inl {hash : Str → Nat} {p : parser} {flag : Str} {h : handle}
    (hf : findOption hash p flag = Sum.inl h) :
    ∃ n : Nat, h.m_Value = n ∧
      (∃ o, p.m_Options[n]? = some o ∧ o.m_Key = hash flag ∧ o.m_Name = flag) ∧
      ∀ m o, m < n → p.m_Options[m]? = some o → ¬ (o.m_Key = hash flag ∧ o.m_Name = flag) := by
  simp only [findOption] at hf
  split at hf
  · rename_i h' hl
    cases hf
    obtain ⟨n, hv, hrest⟩ := findOptionLoop_some _ _ _ _ _ hl
    exact ⟨n, by simpa using hv, hrest⟩
  · cases hf

/-- What `findOption` returns when it finds no option. -/
theorem findOption_inr {hash : Str → Nat} {p : parser} {flag : Str} {E : error}
    (hf : findOption hash p flag = Sum.inr E) :
    E = "Unknown option - ".toList ++ flag ∧
      ∀ o ∈ p.m_Options, ¬ (o.m_Key = hash flag ∧ o.m_Name = flag) := by
  simp only [findOption] at hf
  split at hf
  · cases hf
  · rename_i hl
    cases hf
    exact ⟨rfl, (findOptionLoop_none _ _ _ _).1 hl⟩

/-! ## What a scan leaves unchanged -/

theorem Ext.refl (p : parser) : Ext p p :=
  ⟨rfl, rfl, rfl, fun k o h => ⟨[], by simpa using h⟩⟩

theorem Ext.trans {p q r : parser} (h1 : Ext p q) (h2 : Ext q r) : Ext p r := by
  obtain ⟨g1, n1, l1, a1⟩ := h1
  obtain ⟨g2, n2, l2, a2⟩ := h2
  refine ⟨g2.trans g1, n2.trans n1, l2.trans l1, ?_⟩
  intro k o ho
  obtain ⟨ex1, h1⟩ := a1 k o ho
  obtain ⟨ex2, h2⟩ := a2 k _ h1
  exact ⟨ex1 ++ ex2, by simpa [List.append_assoc] using h2⟩

theorem Ext.map_decl {p q : parser} (h : Ext p q) :
    q.m_Options.map decl = p.m_Options.map decl := by
  obtain ⟨_, _, hl, ha⟩ := h
  apply List.ext_getElem?
  intro k
  simp only [List.getElem?_map]
  cases hp : p.m_Options[k]? with
  | none =>
    have : q.m_Options[k]? = none := by
      rw [List.getElem?_eq_none_iff] at hp ⊢
      omega
    simp [this]
  | some o =>
    obtain ⟨ex, hq⟩ := ha k o hp
    simp [hq, decl]

theorem collectArgs_extends {argv : List Str} {fuel : Nat} {args : List Str} {i : Nat}
    {args' : List Str} {i' : Nat} (h : collectArgs argv fuel args i = some (args', i')) :
    ∃ ex, collectArgs argv fuel [] i = some (ex, i') ∧ args' = args ++ ex := by
  rw [collectArgs_eq_nil_append] at h
  cases hc : collectArgs argv fuel [] i with
  | none => simp [hc] at h
  | some r =>
    obtain ⟨ex, j⟩ := r
    simp only [hc, Option.map_some', Option.some.injEq, Prod.mk.injEq] at h
    obtain ⟨h1, h2⟩ := h
    exact ⟨ex, by rw [h2], h1.symm⟩

theorem Ext.setArgs_ext {p : parser} {idx : Nat} {opt : Opt} (ex : List Str)
    (hopt : p.m_Options[idx]? = some opt) :
    Ext p (setArgs p idx opt (opt.m_Args ++ ex)) := by
  refine ⟨rfl, rfl, by simp [parser.setArgs], ?_⟩
  intro k o ho
  by_cases hk : idx = k
  · subst hk
    rw [hopt] at ho
    cases ho
    have hlt := (List.getElem?_eq_some.1 hopt).1
    exact ⟨ex, by simp [parser.setArgs, List.getElem?_set, hlt]⟩
  · exact ⟨[], by simp [parser.setArgs, List.getElem?_set, hk, ho]⟩

theorem Step.ext_step {hash : Str → Nat} {argv : List Str} {p q : parser} {i j : Nat}
    (h : Step hash argv p i q j) : Ext p q := by
  cases h with
  | skip _ _ => exact Ext.refl _
  | flag _ _ _ hopt hc _ =>
    obtain ⟨ex, _, rfl⟩ := collectArgs_extends hc
    exact Ext.setArgs_ext ex hopt

theorem Halt.ext_halt {hash : Str → Nat} {argv : List Str} {p p' : parser} {i : Nat}
    {r : Option error} (h : Halt hash argv p i p' r) : Ext p p' := by
  cases h with
  | done _ => exact Ext.refl _
  | unknown _ _ _ => exact Ext.refl _
  | minArgs _ _ _ hopt hc _ =>
    obtain ⟨ex, _, rfl⟩ := collectArgs_extends hc
    exact Ext.setArgs_ext ex hopt

theorem Run.ext_run {hash : Str → Nat} {argv : List Str} {p p' : parser} {i : Nat}
    {r : Option error} (h : Run hash argv p i p' r) : Ext p p' := by
  induction h with
  | halt hh => exact hh.ext_halt
  | step hs _ ih => exact hs.ext_step.trans ih

theorem Ext.setProgramName_options (p : parser) (argv : List Str) :
    (setProgramName p argv).m_Options = p.m_Options := by
  cases argv <;> rfl

/-! ## The error texts -/

theorem requiredError_ne_nil (name : Str) : requiredError name ≠ [] := by
  have h : "Required option - ".toList ≠ [] := by decide
  simp [requiredError, h]

theorem minArgsError_ne_nil (flag : Str) (n : Nat) : minArgsError flag n ≠ [] := by
  have h : "Option - ".toList ≠ [] := by decide
  simp [minArgsError, h]

theorem unknownError_ne_nil (flag : Str) : "Unknown option - ".toList ++ flag ≠ [] := by
  have h : "Unknown option - ".toList ≠ [] := by decide
  simp [h]

/-- The error of an early `return` of the token loop is never empty. -/
theorem Halt.halt_error_ne_nil {hash : Str → Nat} {argv : List Str} {p p' : parser} {i : Nat}
    {E : error} (h : Halt hash argv p i p' (some E)) : E ≠ [] := by
  cases h with
  | unknown _ _ hfind => rw [(findOption_inr hfind).1]; exact unknownError_ne_nil _
  | minArgs _ _ _ _ _ _ => exact minArgsError_ne_nil _ _

theorem Run.run_error_ne_nil {hash : Str → Nat} {argv : List Str} {p p' : parser} {i : Nat}
    {r : Option error} (h : Run hash argv p i p' r) : ∀ E, r = some E → E ≠ [] := by
  induction h with
  | halt hh => intro E hE; subst hE; exact hh.halt_error_ne_nil
  | step _ _ ih => exact ih

/-- A successful `Parse` is a scan without early `return` followed by a check
of the required options that finds nothing missing. -/
theorem Parse_success {hash : Str → Nat} {p : parser} {argv : List Str} {p' : parser}
    (h : Parse hash p argv = some (p', [])) :
    Run hash argv (setProgramName p argv) 1 p' none ∧ requiredLoop p'.m_Options = [] := by
  simp only [Parse] at h
  split at h
  · exact absurd h (by simp)
  · rename_i q E hs
    simp only [Option.some.injEq, Prod.mk.injEq] at h
    obtain ⟨rfl, rfl⟩ := h
    have hr := (scan_iff_run hash p argv _ _).1 hs
    exact absurd rfl (hr.run_error_ne_nil _ rfl)
  · rename_i q hs
    simp only [Option.some.injEq, Prod.mk.injEq] at h
    obtain ⟨rfl, h2⟩ := h
    exact ⟨(scan_iff_run hash p argv _ _).1 hs, h2⟩

/-! ## The check of the required options -/

theorem requiredLoop_eq_nil (opts : List Opt) :
    requiredLoop opts = [] ↔ ∀ o ∈ opts, o.m_isRequired = true → o.m_Args ≠ [] := by
  induction opts with
  | nil => simp [requiredLoop]
  | cons a rest ih =>
    simp only [requiredLoop]
    split
    · rename_i hc
      simp only [Bool.and_eq_true, List.isEmpty_iff] at hc
      simp only [List.mem_cons, forall_eq_or_imp]
      constructor
      · intro h; exact absurd h (requiredError_ne_nil _)
      · intro h; exact absurd hc.2 (h.1 hc.1)
    · rename_i hc
      simp only [Bool.and_eq_true, List.isEmpty_iff, not_and] at hc
      rw [ih]
      simp only [List.mem_cons, forall_eq_or_imp]
      exact ⟨fun h => ⟨hc, h⟩, fun h => h.2⟩

theorem requiredLoop_ne_nil (opts : List Opt) (h : requiredLoop opts ≠ []) :
    ∃ (k : Nat) (o : Opt), opts[k]? = some o ∧ o.m_isRequired = true ∧ o.m_Args = [] ∧
      (∀ (m : Nat) (o' : Opt), m < k → opts[m]? = some o' →
        ¬ (o'.m_isRequired = true ∧ o'.m_Args = [])) ∧
      requiredLoop opts = requiredError o.m_Name := by
  induction opts with
  | nil => simp [requiredLoop] at h
  | cons a rest ih =>
    simp only [requiredLoop] at h ⊢
    split
    · rename_i hc
      simp only [Bool.and_eq_true, List.isEmpty_iff] at hc
      exact ⟨0, a, by simp, hc.1, hc.2, by intro m o' hm; omega, rfl⟩
    · rename_i hc
      rw [if_neg hc] at h
      simp only [Bool.and_eq_true, List.isEmpty_iff] at hc
      obtain ⟨k, o, hk, hr, he, hmin, heq⟩ := ih h
      refine ⟨k + 1, o, by simpa using hk, hr, he, ?_, heq⟩
      intro m o' hm hget
      cases m with
      | zero => simp at hget; subst hget; exact hc
      | succ m => exact hmin m o' (by omega) (by simpa using hget)

/-! ## The invariant of a successful parse -/

theorem Step.step_minArgsOk {hash : Str → Nat} {argv : List Str} {p q : parser} {i j : Nat}
    (h : Step hash argv p i q j) (hp : MinArgsOk p) : MinArgsOk q := by
  cases h with
  | skip _ _ => exact hp
  | flag _ _ _ hopt hc hmin =>
    intro o ho hne
    simp only [parser.setArgs] at ho
    rcases List.mem_or_eq_of_mem_set ho with h1 | h1
    · exact hp o h1 hne
    · subst h1; exact hmin

theorem Run.run_minArgsOk {hash : Str → Nat} {argv : List Str} {p p' : parser} {i : Nat}
    {r : Option error} (h : Run hash argv p i p' r) : r = none → MinArgsOk p → MinArgsOk p' := by
  induction h with
  | halt hh =>
    intro hr hp
    cases hh with
    | done _ => exact hp
    | unknown _ _ _ => cases hr
    | minArgs _ _ _ _ _ _ => cases hr
  | step hs _ ih => intro hr hp; exact ih hr (hs.step_minArgsOk hp)

/-! ## Vectors without quoted or empty tokens -/

theorem PlainFrom1.of_all {argv : List Str} (hne : ∀ t ∈ argv, t ≠ [])
    (hq : ∀ t ∈ argv, t.head? ≠ some '"') : PlainFrom1 argv := by
  intro j t _ hj
  have hm : t ∈ argv := List.getElem?_mem hj
  exact ⟨hne t hm, hq t hm⟩

theorem drop_length_takeWhile {α : Type} (f : α → Bool) (l : List α) :
    l.drop (l.takeWhile f).length = l.dropWhile f := by
  induction l with
  | nil => rfl
  | cons a rest ih =>
    by_cases h : f a = true
    · simp [List.takeWhile_cons, List.dropWhile_cons, h, ih]
    · simp [List.takeWhile_cons, List.dropWhile_cons, h]

/-- Without quoted tokens `collectArgs` appends the run of non-flag tokens that
follows index `i`, and stops on its last token. -/
theorem collectArgs_plain {argv : List Str} (hp : PlainFrom1 argv) :
    ∀ (fuel : Nat) (args : List Str) (i : Nat), 1 ≤ fuel → argv.length ≤ fuel + i →
      collectArgs argv fuel args i
        = some (args ++ (argv.drop (i + 1)).takeWhile notFlag,
                i + ((argv.drop (i + 1)).takeWhile notFlag).length) := by
  intro fuel
  induction fuel with
  | zero => intro args i h; omega
  | succ fuel ih =>
    intro args i _ hlen
    simp only [collectArgs]
    by_cases hi : i + 1 < argv.length
    · have hget : argv[i + 1]? = some argv[i + 1] := List.getElem?_eq_getElem hi
      have hdrop : argv.drop (i + 1) = argv[i + 1] :: argv.drop (i + 1 + 1) :=
        List.drop_eq_getElem_cons hi
      rw [if_pos hi, hget, hdrop]
      by_cases hf : isFlag argv[i + 1] = true
      · simp [hf, notFlag]
      · have hpl := hp (i + 1) _ (by omega) hget
        simp only [hf, Bool.not_false, ↓reduceIte, parseArgument_plain hpl.1 hpl.2]
        rw [ih _ _ (by omega) (by omega)]
        have hn : notFlag argv[i + 1] = true := by simp [notFlag, hf]
        simp only [List.takeWhile_cons, hn, ↓reduceIte, List.append_assoc, List.singleton_append,
          List.length_cons, Option.some.injEq, Prod.mk.injEq, true_and]
        omega
    · have hdrop : argv.drop (i + 1) = [] := List.drop_eq_nil_of_le (by omega)
      simp [hi, hdrop]

theorem runsFor_dropWhile (resolves : Str → Bool) (l : List Str) :
    runsFor resolves (l.dropWhile notFlag) = runsFor resolves l := by
  induction l with
  | nil => rfl
  | cons a rest ih =>
    by_cases h : isFlag a = true
    · simp [List.dropWhile_cons, notFlag, h]
    · simp [List.dropWhile_cons, notFlag, h, runsFor, ih]

theorem runsFor_eq_nil (resolves : Str → Bool) (l : List Str)
    (h : ∀ t ∈ l, isFlag t = true → resolves t = false) : runsFor resolves l = [] := by
  induction l with
  | nil => rfl
  | cons a rest ih =>
    simp only [List.mem_cons, forall_eq_or_imp] at h
    simp only [runsFor]
    split
    · rename_i hc
      simp only [Bool.and_eq_true] at hc
      rw [h.1 hc.1] at hc
      exact absurd hc.2 (by simp)
    · exact ih h.2

/-- The handle that `findOption` returns is the index it stands for. -/
theorem findOption_handle {hash : Str → Nat} {p : parser} {flag : Str} {h : handle}
    (hf : findOption hash p flag = Sum.inl h) : h = ⟨(h.m_Value.toNat : Int)⟩ := by
  obtain ⟨n, hv, _⟩ := findOption_inl hf
  cases h with
  | mk v =>
    simp only at hv
    subst hv
    simp

theorem resolvesTo_congr (hash : Str → Nat) {p q : parser}
    (h : p.m_Options.map decl = q.m_Options.map decl) (k : Nat) :
    resolvesTo hash p k = resolvesTo hash q k := by
  funext t
  simp only [resolvesTo, findOption_congr hash h]

/-- Without quoted tokens, a scan that runs to the end appends to every option
the runs of non-flag tokens that follow the flags resolving to it. -/
theorem Run.args_plain {hash : Str → Nat} {argv : List Str} (hpl : PlainFrom1 argv)
    {p p' : parser} {i : Nat} {r : Option error} (h : Run hash argv p i p' r) :
    r = none → ∀ (k : Nat) (o : Opt), p.m_Options[k]? = some o →
      ∃ o', p'.m_Options[k]? = some o' ∧
        o'.m_Args = o.m_Args ++ runsFor (resolvesTo hash p k) (argv.drop i) := by
  induction h with
  | halt hh =>
    intro hr k o ho
    cases hh with
    | done hi => exact ⟨o, ho, by simp [List.drop_eq_nil_of_le hi, runsFor]⟩
    | unknown _ _ _ => cases hr
    | minArgs _ _ _ _ _ _ => cases hr
  | @step p1 i1 q j p2 r1 hs _ ih =>
    intro hr k o ho
    have hext := hs.ext_step
    have hi := hs.index_lt
    cases hs with
    | skip ha hf =>
      obtain ⟨o', ho', hargs⟩ := ih hr k o ho
      refine ⟨o', ho', ?_⟩
      have hdrop := List.drop_eq_getElem_cons hi
      obtain ⟨_, harg⟩ := List.getElem?_eq_some.1 ha
      rw [hargs, hdrop, harg]
      simp [runsFor, hf]
    | @flag arg hd opt args i' ha hf hfind hopt hc hmin =>
      have hcp := collectArgs_plain hpl argv.length opt.m_Args i1 (by omega) (by omega)
      rw [hcp] at hc
      simp only [Option.some.injEq, Prod.mk.injEq] at hc
      obtain ⟨hargs, hi'⟩ := hc
      have hdrop := List.drop_eq_getElem_cons hi
      obtain ⟨_, harg⟩ := List.getElem?_eq_some.1 ha
      have hnext : argv.drop (i' + 1) = (argv.drop (i1 + 1)).dropWhile notFlag := by
        rw [← hi', ← drop_length_takeWhile, List.drop_drop]
        congr 1
        omega
      have hres := resolvesTo_congr hash hext.map_decl k
      have hh := findOption_handle hfind
      by_cases hk : hd.m_Value.toNat = k
      · subst hk
        have ho2 : opt = o := by rw [hopt] at ho; exact Option.some.inj ho
        subst ho2
        have hq : (setArgs p1 hd.m_Value.toNat opt args).m_Options[hd.m_Value.toNat]?
            = some { opt with m_Args := args } := by
          have hlt := (List.getElem?_eq_some.1 hopt).1
          simp [parser.setArgs, List.getElem?_set, hlt]
        obtain ⟨o', ho', hargs'⟩ := ih hr _ _ hq
        refine ⟨o', ho', ?_⟩
        have hrt : resolvesTo hash p1 hd.m_Value.toNat arg = true := by
          simp only [resolvesTo, decide_eq_true_eq]
          rw [hfind, ← hh]
        rw [hargs', hdrop, harg, hnext, runsFor_dropWhile, hres]
        simp [runsFor, hf, hrt, ← hargs]
      · have hq : (setArgs p1 hd.m_Value.toNat opt args).m_Options[k]? = some o := by
          simp [parser.setArgs, List.getElem?_set, hk, ho]
        obtain ⟨o', ho', hargs'⟩ := ih hr _ _ hq
        refine ⟨o', ho', ?_⟩
        have hrt : resolvesTo hash p1 k arg = false := by
          simp only [resolvesTo, decide_eq_false_iff_not]
          rw [hfind]
          intro hcon
          have : hd = ⟨(k : Int)⟩ := Sum.inl.inj hcon
          rw [this] at hk
          simp at hk
        rw [hargs', hdrop, harg, hnext, runsFor_dropWhile, hres]
        simp [runsFor, hrt]

/-! ## Unknown flags -/

/-- Without quote-led tokens, every token that `collectArgs` passes over is a
token that is not a flag. -/
theorem collectArgs_noQuote {argv : List Str} (hq : NoQuote argv) :
    ∀ (fuel : Nat) (args : List Str) (i : Nat) (args' : List Str) (i' : Nat),
      collectArgs argv fuel args i = some (args', i') →
      ∀ m, i < m → m ≤ i' → ∃ u, argv[m]? = some u ∧ isFlag u = false := by
  intro fuel
  induction fuel with
  | zero => intro args i args' i' h; simp [collectArgs] at h
  | succ fuel ih =>
    intro args i args' i' h m hm1 hm2
    simp only [collectArgs] at h
    split at h
    · split at h
      · exact absurd h (by simp)
      · rename_i next hget
        split at h
        · rename_i hnf
          split at h
          · exact absurd h (by simp)
          · rename_i a i1 hpa
            have hi1 : i1 = i + 1 := by
              have hqn := hq next (List.getElem?_mem hget)
              cases next with
              | nil => simp [parseArgument] at hpa
              | cons c cs =>
                have hc : c ≠ '"' := by simpa using hqn
                simp [parseArgument, hc] at hpa
                omega
            subst hi1
            by_cases hmi : m = i + 1
            · subst hmi
              exact ⟨next, hget, by simpa using hnf⟩
            · exact ih _ _ _ _ h m (by omega) hm2
        · simp only [Option.some.injEq, Prod.mk.injEq] at h
          omega
    · simp only [Option.some.injEq, Prod.mk.injEq] at h
      omega

/-- A flag name that no option bears is not found. -/
theorem findOption_unknown (hash : Str → Nat) (p : parser) (flag : Str)
    (h : ∀ o ∈ p.m_Options, o.m_Name ≠ flag) :
    findOption hash p flag = Sum.inr ("Unknown option - ".toList ++ flag) := by
  have hn : findOptionLoop (hash flag) flag p.m_Options 0 = none :=
    (findOptionLoop_none _ _ _ _).2 (fun o ho hc => h o ho hc.2)
  simp [findOption, hn]

/-- Without quote-led tokens, a scan does not run to the end past a flag that
is not found. -/
theorem Run.unknown_noQuote {hash : Str → Nat} {argv : List Str} (hq : NoQuote argv)
    {t : Str} {E : error} {j : Nat} (ht : argv[j]? = some t) (hflag : isFlag t = true)
    {p p' : parser} {i : Nat} {r : Option error} (h : Run hash argv p i p' r) :
    i ≤ j → findOption hash p (flagName t) = Sum.inr E → r ≠ none := by
  induction h with
  | halt hh =>
    intro hij hunk
    cases hh with
    | done hi =>
      have := (List.getElem?_eq_some.1 ht).1
      omega
    | unknown _ _ _ => simp
    | minArgs _ _ _ _ _ _ => simp
  | @step p1 i1 q j1 p2 r1 hs _ ih =>
    intro hij hunk
    have hext := hs.ext_step
    have hunk' : findOption hash q (flagName t) = Sum.inr E := by
      rw [findOption_congr hash hext.map_decl]; exact hunk
    cases hs with
    | skip ha hf =>
      have hne : i1 ≠ j := by
        intro he; subst he
        rw [ha] at ht; cases ht
        rw [hf] at hflag; cases hflag
      exact ih (by omega) hunk'
    | @flag arg hd opt args i' ha hf hfind hopt hc hmin =>
      have hne : i1 ≠ j := by
        intro he; subst he
        rw [ha] at ht; cases ht
        rw [hfind] at hunk; cases hunk
      have hlt : i' < j := by
        by_contra hcon
        obtain ⟨u, hu, hnf⟩ := collectArgs_noQuote hq _ _ _ _ _ hc j (by omega) (by omega)
        rw [hu] at ht; cases ht
        rw [hnf] at hflag; cases hflag
      exact ih (by omega) hunk'

/-- Without empty or quote-led tokens the token loop returns, for every
iteration bound of at least `argc + 1 - i`. -/
theorem parseLoop_total_plain (hash : Str → Nat) {argv : List Str} (hpl : PlainFrom1 argv) :
    ∀ (fuel : Nat) (p : parser) (i : Nat), 1 ≤ fuel → argv.length + 1 ≤ fuel + i →
      ∃ p' r, ParseLoop hash argv fuel p i = some (p', r) := by
  intro fuel
  induction fuel with
  | zero => intro p i h; omega
  | succ fuel ih =>
    intro p i _ hlen
    by_cases hi : i < argv.length
    · have hget : argv[i]? = some argv[i] := List.getElem?_eq_getElem hi
      by_cases hf : isFlag argv[i] = true
      · cases hfind : findOption hash p (flagName argv[i]) with
        | inr E => exact ⟨p, some E, by simp [ParseLoop, hi, hget, hf, hfind]⟩
        | inl hd =>
          obtain ⟨n, hv, ⟨o, ho, _⟩, _⟩ := findOption_inl hfind
          have hn : hd.m_Value.toNat = n := by rw [hv]; simp
          have hopt : p.m_Options[hd.m_Value.toNat]? = some o := by rw [hn]; exact ho
          have hc := collectArgs_plain hpl argv.length o.m_Args i (by omega) (by omega)
          by_cases hmin : (o.m_Args ++ (argv.drop (i + 1)).takeWhile notFlag).length < o.m_minArgs
          · exact ⟨setArgs p hd.m_Value.toNat o (o.m_Args ++ (argv.drop (i + 1)).takeWhile notFlag),
              some (minArgsError (flagName argv[i]) o.m_minArgs),
              by simp only [ParseLoop, hi, hget, hf, hfind, hopt, hc, hmin, ↓reduceIte]⟩
          · obtain ⟨p', r, hr⟩ := ih (setArgs p hd.m_Value.toNat o
                (o.m_Args ++ (argv.drop (i + 1)).takeWhile notFlag))
                (i + ((argv.drop (i + 1)).takeWhile notFlag).length + 1) (by omega) (by omega)
            exact ⟨p', r, by
              simp only [ParseLoop, hi, hget, hf, hfind, hopt, hc, hmin, ↓reduceIte]
              exact hr⟩
      · obtain ⟨p', r, hr⟩ := ih p (i + 1) (by omega) (by omega)
        exact ⟨p', r, by
          simp only [ParseLoop, hi, hget, hf, ↓reduceIte]
          exact hr⟩
    · exact ⟨p, none, by simp [ParseLoop, hi]⟩

/-- The scan reaches the first flag token of the vector. -/
theorem Reach.first_flag (hash : Str → Nat) (argv : List Str) (p0 : parser) :
    ∀ j : Nat, 1 ≤ j → j ≤ argv.length →
      (∀ (i : Nat) (u : Str), 1 ≤ i → i < j → argv[i]? = some u → isFlag u = false) →
      Reach hash argv p0 (setProgramName p0 argv) j := by
  intro j hj
  induction j, hj using Nat.le_induction with
  | base => intro _ _; exact Reach.start
  | succ n hn ih =>
    intro hlen hnf
    have hlt : n < argv.length := by omega
    have hget : argv[n]? = some argv[n] := List.getElem?_eq_getElem hlt
    have hr := ih (by omega) (fun i u h1 h2 hu => hnf i u h1 (by omega) hu)
    exact Reach.step hr (Step.skip hget (hnf n _ hn (by omega) hget))

/-- The result of `Parse` when the scan reaches a state from which the loop
leaves by a `return`. -/
theorem Reach.parse_halt {hash : Str → Nat} {argv : List Str} {p0 p : parser} {i : Nat}
    (h : Reach hash argv p0 p i) {p' : parser} {E : error}
    (hh : Halt hash argv p i p' (some E)) : Parse hash p0 argv = some (p', E) := by
  have hrun := h.run (Run.halt hh)
  have hs := (scan_iff_run hash p0 argv _ _).2 hrun
  simp [Parse, hs]

/-! ## Lookup by name -/

theorem findOptionLoop_eq_findIdx (hash : Str → Nat) (flag : Str) :
    ∀ (opts : List Opt) (s : Nat), (∀ o ∈ opts, o.m_Key = hash o.m_Name) →
      findOptionLoop (hash flag) flag opts (s : Int)
        = (List.findIdx? (fun o => decide (o.m_Name = flag)) opts s).map
            (fun k => (⟨(k : Int)⟩ : handle)) := by
  intro opts
  induction opts with
  | nil => intro s _; rfl
  | cons a rest ih =>
    intro s hk
    simp only [List.mem_cons, forall_eq_or_imp] at hk
    simp only [findOptionLoop, List.findIdx?_cons]
    by_cases hn : a.m_Name = flag
    · have hkey : a.m_Key = hash flag := by rw [hk.1, hn]
      simp [hn, hkey]
    · have := ih (s + 1) hk.2
      simp only [Nat.cast_add, Nat.cast_one] at this
      simp [hn, this]

theorem Ext.keysOk_ext {hash : Str → Nat} {p q : parser} (h : Ext p q) (hk : KeysOk hash p) :
    KeysOk hash q := by
  intro o' ho'
  obtain ⟨k, hget⟩ := List.mem_iff_getElem?.1 ho'
  have hlt : k < p.m_Options.length := by
    rw [← h.2.2.1]; exact (List.getElem?_eq_some.1 hget).1
  obtain ⟨ex, hq⟩ := h.2.2.2 k _ (List.getElem?_eq_getElem hlt)
  rw [hget] at hq
  cases hq
  have h0 := hk (p.m_Options[k]) (List.getElem_mem hlt)
  exact h0

theorem KeysOk.setProgramName {hash : Str → Nat} {p : parser} (hk : KeysOk hash p)
    (argv : List Str) : KeysOk hash (setProgramName p argv) := by
  intro o ho
  rw [Ext.setProgramName_options] at ho
  exact hk o ho

theorem KeysOk.parse {hash : Str → Nat} {p : parser} (hk : KeysOk hash p)
    {argv : List Str} {p' : parser} {e : error} (hP : Parse hash p argv = some (p', e)) :
    KeysOk hash p' := by
  simp only [Parse] at hP
  split at hP
  · exact absurd hP (by simp)
  · rename_i q E hs
    simp only [Option.some.injEq, Prod.mk.injEq] at hP
    obtain ⟨rfl, _⟩ := hP
    exact ((scan_iff_run hash p argv _ _).1 hs).ext_run.keysOk_ext (hk.setProgramName argv)
  · rename_i q hs
    simp only [Option.some.injEq, Prod.mk.injEq] at hP
    obtain ⟨rfl, _⟩ := hP
    exact ((scan_iff_run hash p argv _ _).1 hs).ext_run.keysOk_ext (hk.setProgramName argv)

theorem addOption_options (hash : Str → Nat) (p : parser) (flag description : Str)
    (required : Bool) (minArgs : Int) (group : group_handle) :
    (addOption hash p flag description required minArgs group).1.m_Options
      = p.m_Options ++ [{ m_Key := hash flag, m_Name := flag, m_Description := description,
                          m_isRequired := required, m_minArgs := toSizeT minArgs,
                          m_Args := [] }] := by
  simp only [parser.addOption]
  split <;> rfl

/-- Every registry that a program can hold stores, for each option, the hash of
its name. -/
theorem Built.keysOk {hash : Str → Nat} {p : parser} (h : Built hash p) : KeysOk hash p := by
  induction h with
  | empty => intro o ho; simp [parser.empty] at ho
  | addGroup name description _ ih => exact ih
  | addOption flag description required minArgs group _ ih =>
    intro o ho
    rw [addOption_options] at ho
    rcases List.mem_append.1 ho with h1 | h1
    · exact ih o h1
    · simp only [List.mem_singleton] at h1
      subst h1
      rfl
  | parse _ hP ih => exact ih.parse hP
  | clearArgs _ ih =>
    intro o ho
    simp only [parser.clearArgs, List.mem_map] at ho
    obtain ⟨o0, h0, rfl⟩ := ho
    exact ih o0 h0
  | clear _ _ => intro o ho; simp [parser.clear] at ho

/-- The option that a flag resolves to is not one that bears the name of an
earlier option. -/
theorem findOption_ne_dup {hash : Str → Nat} {p : parser} (hk : KeysOk hash p)
    {flag : Str} {h : handle} (hf : findOption hash p flag = Sum.inl h)
    {i j : Nat} {oi oj : Opt} (hij : i < j) (hi : p.m_Options[i]? = some oi)
    (hj : p.m_Options[j]? = some oj) (hn : oi.m_Name = oj.m_Name) :
    h.m_Value.toNat ≠ j := by
  obtain ⟨n, hv, ⟨o, ho, hkey, hname⟩, hmin⟩ := findOption_inl hf
  have hn' : h.m_Value.toNat = n := by rw [hv]; simp
  rw [hn']
  intro he
  subst he
  rw [hj] at ho
  cases ho
  refine hmin i oi hij hi ⟨?_, ?_⟩
  · rw [hk oi (List.getElem?_mem hi), hn, hname]
  · rw [hn, hname]

theorem Step.dup_unchanged {hash : Str → Nat} {argv : List Str} {p q : parser} {i0 j0 : Nat}
    (h : Step hash argv p i0 q j0) (hk : KeysOk hash p)
    {i j : Nat} {oi oj : Opt} (hij : i < j) (hi : p.m_Options[i]? = some oi)
    (hj : p.m_Options[j]? = some oj) (hn : oi.m_Name = oj.m_Name) :
    q.m_Options[j]? = some oj := by
  cases h with
  | skip _ _ => exact hj
  | flag _ _ hfind hopt _ _ =>
    have hne := findOption_ne_dup hk hfind hij hi hj hn
    simp [parser.setArgs, List.getElem?_set, hne, hj]

theorem Halt.dup_unchanged_halt {hash : Str → Nat} {argv : List Str} {p p' : parser} {i0 : Nat}
    {r : Option error} (h : Halt hash argv p i0 p' r) (hk : KeysOk hash p)
    {i j : Nat} {oi oj : Opt} (hij : i < j) (hi : p.m_Options[i]? = some oi)
    (hj : p.m_Options[j]? = some oj) (hn : oi.m_Name = oj.m_Name) :
    p'.m_Options[j]? = some oj := by
  cases h with
  | done _ => exact hj
  | unknown _ _ _ => exact hj
  | minArgs _ _ hfind hopt _ _ =>
    have hne := findOption_ne_dup hk hfind hij hi hj hn
    simp [parser.setArgs, List.getElem?_set, hne, hj]

/-- A scan never changes an option that bears the name of an earlier option. -/
theorem Run.dup_unchanged_run {hash : Str → Nat} {argv : List Str} {p p' : parser} {i0 : Nat}
    {r : Option error} (h : Run hash argv p i0 p' r) :
    KeysOk hash p → ∀ (i j : Nat) (oi oj : Opt), i < j → p.m_Options[i]? = some oi →
      p.m_Options[j]? = some oj → oi.m_Name = oj.m_Name → p'.m_Options[j]? = some oj := by
  induction h with
  | halt hh => intro hk i j oi oj hij hi hj hn; exact hh.dup_unchanged_halt hk hij hi hj hn
  | step hs _ ih =>
    intro hk i j oi oj hij hi hj hn
    have hext := hs.ext_step
    obtain ⟨ex, hi'⟩ := hext.2.2.2 i oi hi
    exact ih (hext.keysOk_ext hk) i j _ oj hij hi' (hs.dup_unchanged hk hij hi hj hn) hn

/-! ## Quoted phrases -/

theorem drop_eq_cons {α : Type} {l : List α} {n : Nat} {x : α} {rest : List α}
    (h : l.drop n = x :: rest) : n < l.length ∧ l[n]? = some x ∧ l.drop (n + 1) = rest := by
  have hlt : n < l.length := by
    by_contra hc
    rw [List.drop_eq_nil_of_le (by omega)] at h
    cases h
  rw [List.drop_eq_getElem_cons hlt] at h
  simp only [List.cons.injEq] at h
  exact ⟨hlt, by rw [List.getElem?_eq_getElem hlt, h.1], h.2⟩

/-- The loop of `parseArgument` when a later token ends with a quote. -/
theorem parseArgumentLoop_found (argv : List Str) (tk : Str) (post : List Str)
    (hk : tk.getLast? = some '"') :
    ∀ (pre : List Str) (fuel : Nat) (oss : Str) (i : Nat),
      argv.drop (i + 1) = pre ++ tk :: post →
      (∀ t ∈ pre, t ≠ [] ∧ t.getLast? ≠ some '"') → pre.length + 1 ≤ fuel →
      parseArgumentLoop argv fuel oss i
        = some (oss ++ spaced pre ++ ' ' :: tk.dropLast, i + pre.length + 1) := by
  intro pre
  induction pre with
  | nil =>
    intro fuel oss i hd _ hfuel
    obtain ⟨n, rfl⟩ : ∃ n, fuel = n + 1 := ⟨fuel - 1, by simp at hfuel; omega⟩
    obtain ⟨hlt, hget, _⟩ := drop_eq_cons hd
    simp [parseArgumentLoop, hlt, hget, hk, spaced]
  | cons t pre ih =>
    intro fuel oss i hd hpre hfuel
    obtain ⟨n, rfl⟩ : ∃ n, fuel = n + 1 := ⟨fuel - 1, by simp at hfuel; omega⟩
    obtain ⟨hlt, hget, hrest⟩ := drop_eq_cons hd
    simp only [List.mem_cons, forall_eq_or_imp] at hpre
    obtain ⟨⟨hne, hnq⟩, hpre'⟩ := hpre
    obtain ⟨c, hc⟩ : ∃ c, t.getLast? = some c := by
      cases hl : t.getLast? with
      | none => exact absurd (List.getLast?_eq_none_iff.1 hl) hne
      | some c => exact ⟨c, rfl⟩
    have hcq : c ≠ '"' := by
      intro he; rw [he] at hc; exact hnq hc
    have hrec := ih n (oss ++ [' '] ++ t) (i + 1) hrest hpre'
      (by simp only [List.length_cons] at hfuel; omega)
    simp only [parseArgumentLoop, hlt, hget, hc, hcq, ↓reduceIte, hrec, List.length_cons,
      Option.some.injEq, Prod.mk.injEq]
    constructor
    · simp [spaced, List.append_assoc]
    · omega

/-- The loop of `parseArgument` when no later token ends with a quote. -/
theorem parseArgumentLoop_all (argv : List Str) :
    ∀ (rest : List Str) (fuel : Nat) (oss : Str) (i : Nat),
      argv.drop (i + 1) = rest →
      (∀ t ∈ rest, t ≠ [] ∧ t.getLast? ≠ some '"') → rest.length + 1 ≤ fuel →
      parseArgumentLoop argv fuel oss i = some (oss ++ spaced rest, i + rest.length) := by
  intro rest
  induction rest with
  | nil =>
    intro fuel oss i hd _ hfuel
    obtain ⟨n, rfl⟩ : ∃ n, fuel = n + 1 := ⟨fuel - 1, by simp at hfuel; omega⟩
    have hlen : ¬ i + 1 < argv.length := by
      intro hlt
      rw [List.drop_eq_getElem_cons hlt] at hd
      cases hd
    simp [parseArgumentLoop, hlen, spaced]
  | cons t rest ih =>
    intro fuel oss i hd hpre hfuel
    obtain ⟨n, rfl⟩ : ∃ n, fuel = n + 1 := ⟨fuel - 1, by simp at hfuel; omega⟩
    obtain ⟨hlt, hget, hrest⟩ := drop_eq_cons hd
    simp only [List.mem_cons, forall_eq_or_imp] at hpre
    obtain ⟨⟨hne, hnq⟩, hpre'⟩ := hpre
    obtain ⟨c, hc⟩ : ∃ c, t.getLast? = some c := by
      cases hl : t.getLast? with
      | none => exact absurd (List.getLast?_eq_none_iff.1 hl) hne
      | some c => exact ⟨c, rfl⟩
    have hcq : c ≠ '"' := by
      intro he; rw [he] at hc; exact hnq hc
    have hrec := ih n (oss ++ [' '] ++ t) (i + 1) hrest hpre'
      (by simp only [List.length_cons] at hfuel; omega)
    simp only [parseArgumentLoop, hlt, hget, hc, hcq, ↓reduceIte, hrec, List.length_cons,
      Option.some.injEq, Prod.mk.injEq]
    constructor
    · simp [spaced, List.append_assoc]
    · omega

/-- How `parseArgument` starts on a token that opens a quoted phrase. -/
theorem parseArgument_quoted {t0 : Str} (hh : t0.head? = some '"')
    (hl : t0.getLast? ≠ some '"') (i : Nat) (argv : List Str) :
    parseArgument t0 i argv = parseArgumentLoop argv argv.length (t0.drop 1) i := by
  cases hg : t0.getLast? with
  | none =>
    rw [List.getLast?_eq_none_iff] at hg
    subst hg
    simp at hh
  | some b =>
    have hb : b ≠ '"' := by
      intro he; rw [he] at hg; exact hl hg
    simp [parseArgument, hh, hg, hb]

/-- How `parseArgument` treats a token that opens no quoted phrase. -/
theorem parseArgument_verbatim {t0 : Str} (hne : t0 ≠ [])
    (h : ¬ (t0.head? = some '"' ∧ t0.getLast? ≠ some '"')) (i : Nat) (argv : List Str) :
    parseArgument t0 i argv = some (t0, i) := by
  cases hh : t0.head? with
  | none =>
    rw [List.head?_eq_none_iff] at hh
    exact absurd hh hne
  | some f =>
    by_cases hf : f = '"'
    · subst hf
      have hl : t0.getLast? = some '"' := by
        by_contra hc
        exact h ⟨hh, hc⟩
      simp [parseArgument, hh, hl]
    · simp [parseArgument, hh, hf]

/-! ## The tokenizer of the string entry point -/

theorem findIdx?_eq_takeWhile {α : Type} (q : α → Bool) (l : List α) :
    l.findIdx? q
      = if (l.takeWhile (fun x => !q x)).length < l.length
        then some (l.takeWhile (fun x => !q x)).length else none := by
  induction l with
  | nil => simp
  | cons a l ih =>
    rw [List.findIdx?_cons, List.findIdx?_succ, ih]
    by_cases h : q a = true
    · simp [List.takeWhile_cons, h]
    · simp only [h, Bool.false_eq_true, ↓reduceIte, List.takeWhile_cons, Bool.not_false,
        List.length_cons, Nat.add_lt_add_iff_right]
      split <;> simp

theorem take_length_takeWhile {α : Type} (q : α → Bool) (l : List α) :
    l.take (l.takeWhile q).length = l.takeWhile q := by
  induction l with
  | nil => rfl
  | cons a l ih =>
    by_cases h : q a = true
    · simp [List.takeWhile_cons, h, ih]
    · simp [List.takeWhile_cons, h]

theorem dropWhile_head_false {α : Type} (q : α → Bool) :
    ∀ (l : List α) (c : α) (l' : List α), l.dropWhile q = c :: l' → q c = false := by
  intro l
  induction l with
  | nil => intro c l' h; simp at h
  | cons a l ih =>
    intro c l' h
    by_cases ha : q a = true
    · rw [List.dropWhile_cons_of_pos ha] at h
      exact ih c l' h
    · rw [List.dropWhile_cons_of_neg ha] at h
      simp only [List.cons.injEq] at h
      rw [← h.1]
      simpa using ha

theorem contains_delimiters (c : Char) : delimiters.contains c = isDelimiter c := by
  have h : delimiters = [' ', '\t'] := by decide
  simp only [h, isDelimiter, List.contains, List.elem]
  cases c == ' ' <;> cases c == '\t' <;> rfl

/-- The shape of `splitOnP`: the first piece runs up to the first separator. -/
theorem splitOnP_eq (q : Char → Bool) (l : Str) :
    l.splitOnP q
      = l.takeWhile (fun c => !q c) ::
          (match l.dropWhile (fun c => !q c) with
           | [] => []
           | _ :: r => r.splitOnP q) := by
  induction l with
  | nil => simp [List.splitOnP_nil]
  | cons a l ih =>
    rw [List.splitOnP_cons]
    by_cases h : q a = true
    · simp [h, List.takeWhile_cons, List.dropWhile_cons]
    · rw [if_neg h, ih]
      simp [h, List.takeWhile_cons, List.dropWhile_cons]

theorem tokensSpec_nil : tokensSpec [] = [] := by
  simp [tokensSpec, List.splitOnP_nil]

theorem tokensSpec_cons_delim {c : Char} (h : isDelimiter c = true) (l : Str) :
    tokensSpec (c :: l) = tokensSpec l := by
  simp [tokensSpec, List.splitOnP_cons, h]

theorem tokensSpec_dropWhile_delim (l : Str) :
    tokensSpec (l.dropWhile isDelimiter) = tokensSpec l := by
  induction l with
  | nil => rfl
  | cons a l ih =>
    by_cases h : isDelimiter a = true
    · rw [List.dropWhile_cons_of_pos h, ih, tokensSpec_cons_delim h]
    · rw [List.dropWhile_cons_of_neg h]

/-- A string that begins with a non-delimiter begins with a token. -/
theorem tokensSpec_cons_token {c : Char} (h : isDelimiter c = false) (l : Str) :
    tokensSpec (c :: l)
      = (c :: l).takeWhile (fun x => !isDelimiter x)
          :: tokensSpec ((c :: l).dropWhile (fun x => !isDelimiter x)) := by
  have hs := splitOnP_eq isDelimiter (c :: l)
  have htw : (c :: l).takeWhile (fun x => !isDelimiter x)
      = c :: l.takeWhile (fun x => !isDelimiter x) := by
    simp [List.takeWhile_cons, h]
  unfold tokensSpec
  rw [hs, htw]
  cases hd : (c :: l).dropWhile (fun x => !isDelimiter x) with
  | nil => simp [List.splitOnP_nil]
  | cons d r =>
    have hdd : isDelimiter d = true := by
      have := dropWhile_head_false _ _ _ _ hd
      simpa using this
    simp [List.splitOnP_cons, hdd]

theorem find_first_not_of_eq (s : Str) (pos : Nat) :
    find_first_not_of s delimiters pos
      = if ((s.drop pos).takeWhile isDelimiter).length < (s.drop pos).length
        then some (pos + ((s.drop pos).takeWhile isDelimiter).length) else none := by
  have hp : (fun c => !delimiters.contains c) = (fun c => !isDelimiter c) := by
    funext c; rw [contains_delimiters]
  simp only [find_first_not_of, hp, findIdx?_eq_takeWhile, Bool.not_not]
  split <;> rfl

theorem find_first_of_eq (s : Str) (pos : Nat) :
    find_first_of s delimiters pos
      = if ((s.drop pos).takeWhile (fun c => !isDelimiter c)).length < (s.drop pos).length
        then some (pos + ((s.drop pos).takeWhile (fun c => !isDelimiter c)).length)
        else none := by
  have hp : (fun c => delimiters.contains c) = isDelimiter := by
    funext c; rw [contains_delimiters]
  simp only [find_first_of, hp, findIdx?_eq_takeWhile]
  split <;> rfl

theorem length_takeWhile_le' {α : Type} (q : α → Bool) (l : List α) :
    (l.takeWhile q).length ≤ l.length := by
  induction l with
  | nil => simp
  | cons a l ih =>
    by_cases h : q a = true
    · simp [List.takeWhile_cons, h, ih]
    · simp [List.takeWhile_cons, h]

/-- One iteration of the tokenizer loop from the first character of a token. -/
theorem tokenizeLoop_step (s : Str) (fuel st : Nat) (args : List Str) (c : Char) (l' : Str)
    (hm : s.drop st = c :: l') :
    tokenizeLoop s (fuel + 1) (some st) args
      = tokenizeLoop s fuel
          (find_first_not_of s delimiters
            (st + ((c :: l').takeWhile (fun x => !isDelimiter x)).length))
          (args ++ [(c :: l').takeWhile (fun x => !isDelimiter x)]) := by
  have hlen : (s.drop st).length = s.length - st := List.length_drop st s
  rw [hm] at hlen
  simp only [List.length_cons] at hlen
  have hle := length_takeWhile_le' (fun x => !isDelimiter x) (c :: l')
  simp only [List.length_cons] at hle
  have hend : (match find_first_of s delimiters st with
      | none => s.length
      | some e => e)
      = st + ((c :: l').takeWhile (fun x => !isDelimiter x)).length := by
    rw [find_first_of_eq, hm]
    split
    · rename_i heq
      split at heq
      · cases heq
      · rename_i hnlt
        simp only [List.length_cons] at hnlt
        omega
    · rename_i e heq
      split at heq
      · exact (Option.some.inj heq).symm
      · cases heq
  have hsub : substr s st (st + ((c :: l').takeWhile (fun x => !isDelimiter x)).length - st)
      = some ((c :: l').takeWhile (fun x => !isDelimiter x)) := by
    have hst : st ≤ s.length := by omega
    simp only [substr, hst, ↓reduceIte, hm, Nat.add_sub_cancel_left]
    rw [take_length_takeWhile]
  simp only [tokenizeLoop, hend, hsub]

/-- The tokenizer loop, entered with the first non-delimiter position at or
after `pos`, appends the tokens of the rest of the string. -/
theorem tokenizeLoop_eq (s : Str) :
    ∀ (fuel pos : Nat) (args : List Str), pos ≤ s.length → s.length - pos + 1 ≤ fuel →
      tokenizeLoop s fuel (find_first_not_of s delimiters pos) args
        = some (args ++ tokensSpec (s.drop pos)) := by
  intro fuel
  induction fuel with
  | zero => intro pos args _ h; omega
  | succ fuel ih =>
    intro pos args hpos hfuel
    have hlen : (s.drop pos).length = s.length - pos := List.length_drop pos s
    have hle := length_takeWhile_le' isDelimiter (s.drop pos)
    have hsplit := List.takeWhile_append_dropWhile isDelimiter (s.drop pos)
    have hdrop : s.drop (pos + ((s.drop pos).takeWhile isDelimiter).length)
        = (s.drop pos).dropWhile isDelimiter := by
      rw [← List.drop_drop, drop_length_takeWhile]
    rw [find_first_not_of_eq]
    by_cases hk : ((s.drop pos).takeWhile isDelimiter).length < (s.drop pos).length
    · rw [if_pos hk]
      cases hd : (s.drop pos).dropWhile isDelimiter with
      | nil =>
        rw [hd, List.append_nil] at hsplit
        rw [hsplit] at hk
        omega
      | cons c l' =>
        have hc : isDelimiter c = false := dropWhile_head_false _ _ _ _ hd
        rw [hd] at hdrop
        rw [tokenizeLoop_step s fuel _ args c l' hdrop]
        have htw : 1 ≤ ((c :: l').takeWhile (fun x => !isDelimiter x)).length := by
          simp [List.takeWhile_cons, hc]
        have htwle := length_takeWhile_le' (fun x => !isDelimiter x) (c :: l')
        have hcl : (c :: l').length
            = s.length - (pos + ((s.drop pos).takeWhile isDelimiter).length) := by
          rw [← hdrop, List.length_drop]
        have hnext : s.drop (pos + ((s.drop pos).takeWhile isDelimiter).length
              + ((c :: l').takeWhile (fun x => !isDelimiter x)).length)
            = (c :: l').dropWhile (fun x => !isDelimiter x) := by
          rw [← List.drop_drop, hdrop, drop_length_takeWhile]
        rw [ih _ _ (by omega) (by omega), hnext, ← tokensSpec_dropWhile_delim (s.drop pos), hd,
          tokensSpec_cons_token hc, List.append_assoc]
        rfl
    · rw [if_neg hk]
      have hall : (s.drop pos).dropWhile isDelimiter = [] := by
        rw [← drop_length_takeWhile]
        exact List.drop_eq_nil_of_le (by omega)
      rw [← tokensSpec_dropWhile_delim (s.drop pos), hall, tokensSpec_nil, List.append_nil]
      rfl

/-- The tokenizer returns, and returns the tokens of the specification. -/
theorem tokenize_eq (s : Str) : tokenize s = some (tokensSpec s) := by
  have h := tokenizeLoop_eq s (s.length + 1) 0 [] (by omega) (by omega)
  simpa [tokenize] using h

theorem c_str_eq_self (t : Str) (h : Char.ofNat 0 ∉ t) : c_str t = t := by
  induction t with
  | nil => rfl
  | cons a l ih =>
    simp only [List.mem_cons, not_or] at h
    have ha : (a != Char.ofNat 0) = true := by
      simp only [bne_iff_ne, ne_eq]
      exact fun he => h.1 he.symm
    simp only [c_str, List.takeWhile_cons, ha, ↓reduceIte, List.cons.injEq, true_and]
    exact ih h.2

theorem mem_of_mem_splitOnP (q : Char → Bool) :
    ∀ (s t : Str) (c : Char), t ∈ s.splitOnP q → c ∈ t → c ∈ s := by
  intro s
  induction s with
  | nil =>
    intro t c ht hc
    simp only [List.splitOnP_nil, List.mem_singleton] at ht
    subst ht
    exact hc
  | cons a l ih =>
    intro t c ht hc
    rw [List.splitOnP_cons] at ht
    by_cases h : q a = true
    · rw [if_pos h] at ht
      rcases List.mem_cons.1 ht with h1 | h1
      · subst h1; simp at hc
      · exact List.mem_cons_of_mem _ (ih t c h1 hc)
    · rw [if_neg h] at ht
      cases hs : l.splitOnP q with
      | nil => exact absurd hs (List.splitOnP_ne_nil _ _)
      | cons hd tl =>
        rw [hs, List.modifyHead_cons] at ht
        rcases List.mem_cons.1 ht with h1 | h1
        · subst h1
          rcases List.mem_cons.1 hc with h2 | h2
          · subst h2; exact List.mem_cons_self _ _
          · exact List.mem_cons_of_mem _ (ih hd c (by rw [hs]; exact List.mem_cons_self _ _) h2)
        · exact List.mem_cons_of_mem _
            (ih t c (by rw [hs]; exact List.mem_cons_of_mem _ h1) hc)

/-- Every token of the specification is a piece of the string. -/
theorem mem_of_mem_tokensSpec (s t : Str) (c : Char) (ht : t ∈ tokensSpec s) (hc : c ∈ t) :
    c ∈ s :=
  mem_of_mem_splitOnP isDelimiter s t c (List.mem_filter.1 ht).1 hc

theorem splitOnP_no_sep (q : Char → Bool) :
    ∀ (s t : Str) (c : Char), t ∈ s.splitOnP q → c ∈ t → q c = false := by
  intro s
  induction s with
  | nil =>
    intro t c ht hc
    simp only [List.splitOnP_nil, List.mem_singleton] at ht
    subst ht
    simp at hc
  | cons a l ih =>
    intro t c ht hc
    rw [List.splitOnP_cons] at ht
    by_cases h : q a = true
    · rw [if_pos h] at ht
      rcases List.mem_cons.1 ht with h1 | h1
      · subst h1; simp at hc
      · exact ih t c h1 hc
    · rw [if_neg h] at ht
      cases hs : l.splitOnP q with
      | nil => exact absurd hs (List.splitOnP_ne_nil _ _)
      | cons hd tl =>
        rw [hs, List.modifyHead_cons] at ht
        rcases List.mem_cons.1 ht with h1 | h1
        · subst h1
          rcases List.mem_cons.1 hc with h2 | h2
          · subst h2; simpa using h
          · exact ih hd c (by rw [hs]; exact List.mem_cons_self _ _) h2
        · exact ih t c (by rw [hs]; exact List.mem_cons_of_mem _ h1) hc

/-- A token of the specification is non-empty and holds no space and no tab. -/
theorem tokensSpec_token (s t : Str) (ht : t ∈ tokensSpec s) :
    t ≠ [] ∧ ∀ c ∈ t, c ≠ ' ' ∧ c ≠ '\t' := by
  obtain ⟨hmem, hne⟩ := List.mem_filter.1 ht
  refine ⟨by simpa using hne, ?_⟩
  intro c hc
  have hq := splitOnP_no_sep isDelimiter s t c hmem hc
  simp only [isDelimiter, Bool.or_eq_false_iff, beq_eq_false_iff_ne, ne_eq] at hq
  exact hq

/-! ## Parsing again -/

theorem Shifted.map_decl_shifted {A : Nat → List Str} {pc p : parser} (h : Shifted A pc p) :
    p.m_Options.map decl = pc.m_Options.map decl := by
  obtain ⟨_, _, hl, ha⟩ := h
  apply List.ext_getElem?
  intro k
  simp only [List.getElem?_map]
  cases hp : pc.m_Options[k]? with
  | none =>
    have : p.m_Options[k]? = none := by
      rw [List.getElem?_eq_none_iff] at hp ⊢
      omega
    simp [this]
  | some o => simp [ha k o hp, decl]

theorem Shifted.setArgs_shifted {A : Nat → List Str} {pc p : parser} (h : Shifted A pc p)
    {idx : Nat} {opt : Opt} (hopt : pc.m_Options[idx]? = some opt) (args : List Str) :
    Shifted A (setArgs pc idx opt args)
      (setArgs p idx { opt with m_Args := A idx ++ opt.m_Args } (A idx ++ args)) := by
  obtain ⟨hg, hn, hl, ha⟩ := h
  refine ⟨hg, hn, by simp [parser.setArgs, hl], ?_⟩
  intro k n hk
  have hlt : idx < pc.m_Options.length := (List.getElem?_eq_some.1 hopt).1
  by_cases hik : idx = k
  · subst hik
    simp only [parser.setArgs, List.getElem?_set, hlt, ↓reduceIte, Option.some.injEq] at hk
    subst hk
    simp [parser.setArgs, List.getElem?_set, hl, hlt]
  · simp only [parser.setArgs, List.getElem?_set, hik, ↓reduceIte] at hk
    simp [parser.setArgs, List.getElem?_set, hik, ha k n hk]

theorem Step.shifted_step {hash : Str → Nat} {argv : List Str} {pc qc : parser} {i j : Nat}
    (h : Step hash argv pc i qc j) {A : Nat → List Str} {p : parser} (hs : Shifted A pc p) :
    ∃ q, Step hash argv p i q j ∧ Shifted A qc q := by
  cases h with
  | skip ha hf => exact ⟨p, Step.skip ha hf, hs⟩
  | @flag arg hd opt args i' ha hf hfind hopt hc hmin =>
    refine ⟨_, Step.flag ha hf ?_ (hs.2.2.2 _ _ hopt) ?_ ?_, hs.setArgs_shifted hopt args⟩
    · rw [findOption_congr hash hs.map_decl_shifted]; exact hfind
    · show collectArgs argv argv.length (A hd.m_Value.toNat ++ opt.m_Args) i = _
      rw [collectArgs_append, hc]
      rfl
    · show opt.m_minArgs ≤ (A hd.m_Value.toNat ++ args).length
      rw [List.length_append]; omega

/-- A scan that runs to the end on `pc` runs to the end on every registry that
holds more arguments in front, and leaves the same arguments behind them. -/
theorem Run.shifted_run {hash : Str → Nat} {argv : List Str} {pc pc' : parser} {i : Nat}
    {r : Option error} (h : Run hash argv pc i pc' r) :
    r = none → ∀ {A : Nat → List Str} {p : parser}, Shifted A pc p →
      ∃ p', Run hash argv p i p' none ∧ Shifted A pc' p' := by
  induction h with
  | halt hh =>
    intro hr A p hs
    cases hh with
    | done hi => exact ⟨p, Run.halt (Halt.done hi), hs⟩
    | unknown _ _ _ => cases hr
    | minArgs _ _ _ _ _ _ => cases hr
  | step hstep _ ih =>
    intro hr A p hs
    obtain ⟨q, hq, hsq⟩ := hstep.shifted_step hs
    obtain ⟨p', hp', hsp'⟩ := ih hr hsq
    exact ⟨p', Run.step hq hp', hsp'⟩

theorem Shifted.init (p : parser) (argv : List Str) :
    Shifted (fun k => ((p.m_Options[k]?).map Opt.m_Args).getD [])
      (setProgramName (clearArgs p) argv) (setProgramName p argv) := by
  have h1 : (setProgramName (clearArgs p) argv).m_Options
      = p.m_Options.map (fun E => { E with m_Args := [] }) := by
    rw [Ext.setProgramName_options]; rfl
  have h2 := Ext.setProgramName_options p argv
  refine ⟨by cases argv <;> rfl, by cases argv <;> rfl, by rw [h1, h2]; simp, ?_⟩
  intro k n hk
  rw [h1, List.getElem?_map] at hk
  rw [h2]
  cases ho : p.m_Options[k]? with
  | none => simp [ho] at hk
  | some o =>
    simp only [ho, Option.map_some', Option.some.injEq] at hk
    subst hk
    simp [ho]

/-- The scan behind a `Parse` that returns. -/
theorem Parse_run {hash : Str → Nat} {p : parser} {argv : List Str} {p' : parser} {e : error}
    (hP : Parse hash p argv = some (p', e)) :
    ∃ r, Run hash argv (setProgramName p argv) 1 p' r := by
  simp only [Parse] at hP
  split at hP
  · exact absurd hP (by simp)
  · rename_i q E hs
    simp only [Option.some.injEq, Prod.mk.injEq] at hP
    obtain ⟨rfl, _⟩ := hP
    exact ⟨_, (scan_iff_run hash p argv _ _).1 hs⟩
  · rename_i q hs
    simp only [Option.some.injEq, Prod.mk.injEq] at hP
    obtain ⟨rfl, _⟩ := hP
    exact ⟨_, (scan_iff_run hash p argv _ _).1 hs⟩

/-! ## Flags without arguments -/

theorem collectArgs_bare {argv : List Str} {i : Nat} (hb : BareAt argv i) {fuel : Nat}
    {args args' : List Str} {i' : Nat} (h : collectArgs argv fuel args i = some (args', i')) :
    args' = args ∧ i' = i := by
  cases fuel with
  | zero => simp [collectArgs] at h
  | succ fuel =>
    simp only [collectArgs] at h
    rcases hb with hb | ⟨u, hu, hf⟩
    · rw [if_neg (by omega)] at h
      simp only [Option.some.injEq, Prod.mk.injEq] at h
      exact ⟨h.1.symm, h.2.symm⟩
    · have hlt : i + 1 < argv.length := (List.getElem?_eq_some.1 hu).1
      simp only [hlt, ↓reduceIte, hu, hf, Bool.not_true, Bool.false_eq_true,
        Option.some.injEq, Prod.mk.injEq] at h
      exact ⟨h.1.symm, h.2.symm⟩

theorem setArgs_same_getElem? {p : parser} {idx : Nat} {opt : Opt}
    (hopt : p.m_Options[idx]? = some opt) (k : Nat) :
    (setArgs p idx opt opt.m_Args).m_Options[k]? = p.m_Options[k]? := by
  have hlt := (List.getElem?_eq_some.1 hopt).1
  by_cases hk : idx = k
  · subst hk
    simp [parser.setArgs, List.getElem?_set, hlt, hopt]
  · simp [parser.setArgs, List.getElem?_set, hk]

theorem setArgs_other_getElem? (p : parser) {idx k : Nat} (hk : idx ≠ k) (opt : Opt)
    (args : List Str) : (setArgs p idx opt args).m_Options[k]? = p.m_Options[k]? := by
  simp [parser.setArgs, List.getElem?_set, hk]

theorem BareFlagsOf.mono {hash : Str → Nat} {p q : parser} {k : Nat} {argv : List Str}
    {i j : Nat} (h : BareFlagsOf hash p k argv i) (hij : i ≤ j)
    (hd : q.m_Options.map decl = p.m_Options.map decl) : BareFlagsOf hash q k argv j := by
  intro m t hm ht hf hres
  rw [resolvesTo_congr hash hd] at hres
  exact h m t (by omega) ht hf hres

/-- A scan leaves alone an option whose flags are all followed by a flag or by
the end of the vector. -/
theorem Run.bare_unchanged {hash : Str → Nat} {argv : List Str} {p p' : parser} {i : Nat}
    {r : Option error} (h : Run hash argv p i p' r) (k : Nat) :
    BareFlagsOf hash p k argv i → p'.m_Options[k]? = p.m_Options[k]? := by
  induction h with
  | @halt p1 i1 p2 r1 hh =>
    intro hb
    cases hh with
    | done _ => rfl
    | unknown _ _ _ => rfl
    | @minArgs arg hd opt args i' ha hf hfind hopt hc hmin =>
      by_cases hk : hd.m_Value.toNat = k
      · have hres : resolvesTo hash p1 k arg = true := by
          have hh := findOption_handle hfind
          rw [hk] at hh
          simp only [resolvesTo, decide_eq_true_eq]
          rw [hfind, hh]
        obtain ⟨h1, _⟩ := collectArgs_bare (hb i1 arg (Nat.le_refl _) ha hf hres) hc
        subst h1
        exact setArgs_same_getElem? hopt k
      · exact setArgs_other_getElem? _ hk _ _
  | @step p1 i1 q j p2 r1 hs _ ih =>
    intro hb
    have hext := hs.ext_step
    have hlt := hs.lt
    rw [ih (hb.mono (by omega) hext.map_decl)]
    cases hs with
    | skip _ _ => rfl
    | @flag arg hd opt args i' ha hf hfind hopt hc hmin =>
      by_cases hk : hd.m_Value.toNat = k
      · have hres : resolvesTo hash p1 k arg = true := by
          have hh := findOption_handle hfind
          rw [hk] at hh
          simp only [resolvesTo, decide_eq_true_eq]
          rw [hfind, hh]
        obtain ⟨h1, _⟩ := collectArgs_bare (hb i1 arg (Nat.le_refl _) ha hf hres) hc
        subst h1
        exact setArgs_same_getElem? hopt k
      · exact setArgs_other_getElem? _ hk _ _

theorem withoutFlagsOf_bare (hash : Str → Nat) (p : parser) (k : Nat) (argv : List Str) :
    BareFlagsOf hash p k (withoutFlagsOf hash p k argv) 1 := by
  intro j t hj ht hf hres
  exfalso
  cases argv with
  | nil => simp [withoutFlagsOf] at ht
  | cons a rest =>
    obtain ⟨m, rfl⟩ : ∃ m, j = m + 1 := ⟨j - 1, by omega⟩
    simp only [withoutFlagsOf, List.getElem?_cons_succ] at ht
    have hmem := List.getElem?_mem ht
    have hcond := (List.mem_filter.1 hmem).2
    simp [hf, hres] at hcond

/-! ## Registration -/

theorem addOption_handle (hash : Str → Nat) (p : parser) (flag description : Str)
    (required : Bool) (minArgs : Int) (group : group_handle) :
    (addOption hash p flag description required minArgs group).2
      = ⟨(p.m_Options.length : Int)⟩ := by
  simp only [parser.addOption]
  split <;> simp

theorem addOption_programName (hash : Str → Nat) (p : parser) (flag description : Str)
    (required : Bool) (minArgs : Int) (group : group_handle) :
    (addOption hash p flag description required minArgs group).1.m_programName
      = p.m_programName := by
  simp only [parser.addOption]
  split <;> rfl

theorem addOption_groups_valid (hash : Str → Nat) (p : parser) (flag description : Str)
    (required : Bool) (minArgs : Int) (group : group_handle)
    (hv : 0 ≤ group.m_Value ∧ group.m_Value < (p.m_Groups.length : Int)) :
    (addOption hash p flag description required minArgs group).1.m_Groups
      = p.m_Groups.modify
          (fun g => { g with m_Options := g.m_Options ++ [⟨(p.m_Options.length : Int)⟩] })
          group.m_Value.toNat := by
  simp [parser.addOption, hv]

theorem addOption_groups_invalid (hash : Str → Nat) (p : parser) (flag description : Str)
    (required : Bool) (minArgs : Int) (group : group_handle)
    (hv : ¬ (0 ≤ group.m_Value ∧ group.m_Value < (p.m_Groups.length : Int))) :
    (addOption hash p flag description required minArgs group).1.m_Groups = p.m_Groups := by
  simp only [parser.addOption, hv, ↓reduceIte]

/-! ## Reads stay inside the tokens and the vector -/

theorem getLast?_of_ne_nil {t : Str} (h : t ≠ []) : ∃ c, t.getLast? = some c := by
  cases hl : t.getLast? with
  | none => exact absurd (List.getLast?_eq_none_iff.1 hl) h
  | some c => exact ⟨c, rfl⟩

theorem parseArgumentLoop_total {argv : List Str} (hne : NonEmptyFrom1 argv) :
    ∀ (fuel : Nat) (oss : Str) (i : Nat), 1 ≤ fuel → argv.length ≤ fuel + i →
      ∃ r, parseArgumentLoop argv fuel oss i = some r := by
  intro fuel
  induction fuel with
  | zero => intro oss i h; omega
  | succ fuel ih =>
    intro oss i _ hlen
    by_cases hi : i + 1 < argv.length
    · have hget : argv[i + 1]? = some argv[i + 1] := List.getElem?_eq_getElem hi
      obtain ⟨c, hc⟩ := getLast?_of_ne_nil (hne (i + 1) _ (by omega) hget)
      by_cases hq : c = '"'
      · exact ⟨(oss ++ [' '] ++ (argv[i + 1]).dropLast, i + 1),
          by simp only [parseArgumentLoop, hi, ↓reduceIte, hget, hc, hq]⟩
      · obtain ⟨r, hr⟩ := ih (oss ++ [' '] ++ argv[i + 1]) (i + 1) (by omega) (by omega)
        exact ⟨r, by simp only [parseArgumentLoop, hi, ↓reduceIte, hget, hc, hq]; exact hr⟩
    · exact ⟨(oss, i), by simp only [parseArgumentLoop, hi, ↓reduceIte]⟩

theorem parseArgument_total {argv : List Str} (hne : NonEmptyFrom1 argv) {arg : Str}
    (harg : arg ≠ []) {i : Nat} (hi : i < argv.length) :
    ∃ r, parseArgument arg i argv = some r := by
  by_cases hq : arg.head? = some '"' ∧ arg.getLast? ≠ some '"'
  · rw [parseArgument_quoted hq.1 hq.2]
    exact parseArgumentLoop_total hne _ _ _ (by omega) (by omega)
  · exact ⟨_, parseArgument_verbatim harg hq i argv⟩

theorem collectArgs_total {argv : List Str} (hne : NonEmptyFrom1 argv) :
    ∀ (fuel : Nat) (args : List Str) (i : Nat), 1 ≤ fuel → argv.length ≤ fuel + i →
      ∃ r, collectArgs argv fuel args i = some r := by
  intro fuel
  induction fuel with
  | zero => intro args i h; omega
  | succ fuel ih =>
    intro args i _ hlen
    by_cases hi : i + 1 < argv.length
    · have hget : argv[i + 1]? = some argv[i + 1] := List.getElem?_eq_getElem hi
      by_cases hf : isFlag argv[i + 1] = true
      · exact ⟨(args, i), by simp [collectArgs, hi, hget, hf]⟩
      · obtain ⟨⟨a, i'⟩, hpa⟩ :=
          parseArgument_total hne (hne (i + 1) _ (by omega) hget) hi
        have hle := parseArgument_le hpa
        simp only at hle
        obtain ⟨r, hr⟩ := ih (args ++ [a]) i' (by omega) (by omega)
        exact ⟨r, by
          simp only [collectArgs, hi, ↓reduceIte, hget, hf, Bool.not_false, hpa]
          exact hr⟩
    · exact ⟨(args, i), by simp only [collectArgs, hi, ↓reduceIte]⟩

/-- Without empty tokens after the program name the token loop returns, for
every iteration bound of at least `argc + 1 - i`. -/
theorem parseLoop_total (hash : Str → Nat) {argv : List Str} (hne : NonEmptyFrom1 argv) :
    ∀ (fuel : Nat) (p : parser) (i : Nat), 1 ≤ fuel → argv.length + 1 ≤ fuel + i →
      ∃ p' r, ParseLoop hash argv fuel p i = some (p', r) := by
  intro fuel
  induction fuel with
  | zero => intro p i h; omega
  | succ fuel ih =>
    intro p i _ hlen
    by_cases hi : i < argv.length
    · have hget : argv[i]? = some argv[i] := List.getElem?_eq_getElem hi
      by_cases hf : isFlag argv[i] = true
      · cases hfind : findOption hash p (flagName argv[i]) with
        | inr E => exact ⟨p, some E, by simp [ParseLoop, hi, hget, hf, hfind]⟩
        | inl hd =>
          obtain ⟨n, hv, ⟨o, ho, _⟩, _⟩ := findOption_inl hfind
          have hn : hd.m_Value.toNat = n := by rw [hv]; simp
          have hopt : p.m_Options[hd.m_Value.toNat]? = some o := by rw [hn]; exact ho
          obtain ⟨⟨args, i'⟩, hc⟩ :=
            collectArgs_total hne argv.length o.m_Args i (by omega) (by omega)
          have hle := collectArgs_le _ _ _ _ _ hc
          simp only at hle
          by_cases hmin : args.length < o.m_minArgs
          · exact ⟨setArgs p hd.m_Value.toNat o args,
              some (minArgsError (flagName argv[i]) o.m_minArgs),
              by simp only [ParseLoop, hi, hget, hf, hfind, hopt, hc, hmin, ↓reduceIte]⟩
          · obtain ⟨p', r, hr⟩ := ih (setArgs p hd.m_Value.toNat o args) (i' + 1)
              (by omega) (by omega)
            exact ⟨p', r, by
              simp only [ParseLoop, hi, hget, hf, hfind, hopt, hc, hmin, ↓reduceIte]
              exact hr⟩
      · obtain ⟨p', r, hr⟩ := ih p (i + 1) (by omega) (by omega)
        exact ⟨p', r, by
          simp only [ParseLoop, hi, hget, hf, ↓reduceIte]
          exact hr⟩
    · exact ⟨p, none, by simp [ParseLoop, hi]⟩

/-- Without empty tokens after the program name `Parse` returns. -/
theorem Parse_total (hash : Str → Nat) (p : parser) {argv : List Str}
    (hne : NonEmptyFrom1 argv) : ∃ p' e, Parse hash p argv = some (p', e) := by
  obtain ⟨p', r, hr⟩ := parseLoop_total hash hne (argv.length + 1)
    (setProgramName p argv) 1 (by omega) (by omega)
  have hs : scan hash p argv = some (p', r) := hr
  cases r with
  | none => exact ⟨p', requiredLoop p'.m_Options, by simp [Parse, hs]⟩
  | some E => exact ⟨p', E, by simp [Parse, hs]⟩

/-! ## Decimal digits -/

theorem digitChar_isDigit (d : Nat) (h : d < 10) :
    (Nat.digitChar d).isDigit = true ∧ (Nat.digitChar d).toNat - 48 = d := by
  have hc : d = 0 ∨ d = 1 ∨ d = 2 ∨ d = 3 ∨ d = 4 ∨ d = 5 ∨ d = 6 ∨ d = 7 ∨ d = 8 ∨ d = 9 := by
    omega
  rcases hc with rfl | rfl | rfl | rfl | rfl | rfl | rfl | rfl | rfl | rfl <;> decide

/-- The value of a run of decimal digits. -/
theorem toDigitsCore_spec :
    ∀ (fuel n : Nat) (ds : List Char), n < fuel →
      ∃ xs, Nat.toDigitsCore 10 fuel n ds = xs ++ ds ∧ xs ≠ [] ∧
        (∀ c ∈ xs, c.isDigit = true) ∧
        xs.foldl (fun acc c => acc * 10 + (c.toNat - 48)) 0 = n := by
  intro fuel
  induction fuel with
  | zero => intro n ds h; omega
  | succ fuel ih =>
    intro n ds hn
    have hd := digitChar_isDigit (n % 10) (Nat.mod_lt _ (by omega))
    simp only [Nat.toDigitsCore]
    by_cases h0 : n / 10 = 0
    · rw [if_pos h0]
      refine ⟨[Nat.digitChar (n % 10)], rfl, by simp, by simpa using hd.1, ?_⟩
      simp only [List.foldl_cons, List.foldl_nil, Nat.zero_mul, Nat.zero_add, hd.2]
      omega
    · rw [if_neg h0]
      obtain ⟨xs, hxs, hne, hdig, hval⟩ := ih (n / 10) (Nat.digitChar (n % 10) :: ds) (by omega)
      refine ⟨xs ++ [Nat.digitChar (n % 10)], by rw [hxs]; simp, by simp, ?_, ?_⟩
      · intro c hc
        rcases List.mem_append.1 hc with h1 | h1
        · exact hdig c h1
        · simp only [List.mem_singleton] at h1
          rw [h1]; exact hd.1
      · simp only [List.foldl_append, List.foldl_cons, List.foldl_nil, hval, hd.2]
        omega

/-- The decimal rendering of a natural number is a non-empty run of digits
whose value is the number. -/
theorem repr_spec (n : Nat) :
    (Nat.repr n).toList ≠ [] ∧ (∀ c ∈ (Nat.repr n).toList, c.isDigit = true) ∧
      (Nat.repr n).toList.foldl (fun acc c => acc * 10 + (c.toNat - 48)) 0 = n := by
  obtain ⟨xs, hxs, hne, hdig, hval⟩ := toDigitsCore_spec (n + 1) n [] (by omega)
  have h : (Nat.repr n).toList = xs := by
    simp only [Nat.repr, Nat.toDigits, hxs, List.append_nil]
    rfl
  rw [h]
  exact ⟨hne, hdig, hval⟩

theorem newline_not_mem_repr (n : Nat) : '\n' ∉ (Nat.repr n).toList := by
  intro h
  have := (repr_spec n).2.1 _ h
  exact absurd this (by decide)

/-! ## The help entry of an option -/

theorem find_eq (s : Str) (c : Char) (pos : Nat) :
    find s c pos
      = if ((s.drop pos).takeWhile (fun x => !(x == c))).length < (s.drop pos).length
        then some (pos + ((s.drop pos).takeWhile (fun x => !(x == c))).length) else none := by
  simp only [find, findIdx?_eq_takeWhile]
  split <;> rfl

theorem linesOf_eq (l : Str) :
    linesOf l
      = l.takeWhile (fun x => !(x == '\n')) ::
          (match l.dropWhile (fun x => !(x == '\n')) with
           | [] => []
           | _ :: r => linesOf r) :=
  splitOnP_eq (fun c => c == '\n') l

/-- The loop of `printOption` writes the lines of the rest of the text. -/
theorem printLines_eq (left desc : Str) :
    ∀ (fuel start : Nat) (firstLine : Bool), start ≤ desc.length →
      desc.length - start + 1 ≤ fuel →
      printLines left desc fuel start firstLine
        = some (renderLines left firstLine (linesOf (desc.drop start))) := by
  intro fuel
  induction fuel with
  | zero => intro start firstLine _ h; omega
  | succ fuel ih =>
    intro start firstLine hstart hfuel
    have hlen : (desc.drop start).length = desc.length - start := List.length_drop start desc
    have hle := length_takeWhile_le' (fun x => !(x == '\n')) (desc.drop start)
    have htake := take_length_takeWhile (fun x => !(x == '\n')) (desc.drop start)
    have hdw := drop_length_takeWhile (fun x => !(x == '\n')) (desc.drop start)
    rw [linesOf_eq]
    simp only [printLines, find_eq]
    by_cases hk : ((desc.drop start).takeWhile (fun x => !(x == '\n'))).length
        < (desc.drop start).length
    · simp only [hk, ↓reduceIte, substr, hstart, Nat.add_sub_cancel_left, htake]
      cases hd : (desc.drop start).dropWhile (fun x => !(x == '\n')) with
      | nil =>
        rw [hd] at hdw
        have := congrArg List.length hdw
        simp only [List.length_drop, List.length_nil] at this
        omega
      | cons c r =>
        rw [hd, List.drop_drop] at hdw
        obtain ⟨hlt, _, hrest⟩ := drop_eq_cons hdw
        rw [ih _ false (by omega) (by omega), hrest]
        cases firstLine <;> simp [renderLines, List.isEmpty_iff]
    · have hall : ((desc.drop start).takeWhile (fun x => !(x == '\n'))).length
          = desc.length - start := by omega
      have hd : (desc.drop start).dropWhile (fun x => !(x == '\n')) = [] := by
        rw [← hdw]; exact List.drop_eq_nil_of_le (by omega)
      rw [hall, List.take_of_length_le (by omega)] at htake
      simp only [hk, ↓reduceIte, substr, hstart, hd]
      rw [List.take_of_length_le (by omega), ← htake]
      cases firstLine <;> simp [renderLines, List.isEmpty_iff]

/-- The lambda `printOption` writes the entry of the specification. -/
theorem printOption_eq (opt : Opt) (pfx : Str) :
    printOption opt pfx = some (entrySpec opt pfx) := by
  have h := printLines_eq (optText opt pfx) (descText opt) ((descText opt).length + 1) 0 true
    (by omega) (by omega)
  simpa [printOption, entrySpec] using h

theorem optText_length (opt : Opt) (pfx : Str) :
    (optText opt pfx).length = leftColumnWidth := by
  have key : ∀ s : Str,
      (if s.length < leftColumnWidth then s ++ List.replicate (leftColumnWidth - s.length) ' '
       else if s.length > leftColumnWidth then s.take leftColumnWidth else s).length
        = leftColumnWidth := by
    intro s
    split
    · simp only [List.length_append, List.length_replicate]
      omega
    · split
      · rw [List.length_take]
        omega
      · omega
  exact key _

theorem newline_not_mem_suffixText (opt : Opt) : '\n' ∉ suffixText opt := by
  intro h
  simp only [suffixText] at h
  rcases List.mem_append.1 h with h1 | h1
  · split at h1
    · exact absurd h1 (by decide)
    · simp at h1
  · split at h1
    · rcases List.mem_append.1 h1 with h2 | h2
      · rcases List.mem_append.1 h2 with h3 | h3
        · exact absurd h3 (by decide)
        · exact newline_not_mem_repr _ h3
      · exact absurd h2 (by decide)
    · simp at h1

theorem descText_eq (opt : Opt) : descText opt = opt.m_Description ++ suffixText opt := by
  simp [descText, suffixText, List.append_assoc]

/-- Text without separator, put behind a text, extends the last piece. -/
theorem splitOnP_append_no_sep (q : Char → Bool) (b : Str) (hb : ∀ c ∈ b, q c = false) :
    ∀ a : Str, (a ++ b).splitOnP q
      = (a.splitOnP q).dropLast ++ [(a.splitOnP q).getLast?.getD [] ++ b] := by
  intro a
  induction a with
  | nil =>
    have h1 : b.splitOnP q = [b] :=
      List.splitOnP_eq_single q b (fun x hx => by simp [hb x hx])
    simp [List.splitOnP_nil, h1]
  | cons x a ih =>
    rw [List.cons_append, List.splitOnP_cons, List.splitOnP_cons, ih]
    cases hs : a.splitOnP q with
    | nil => exact absurd hs (List.splitOnP_ne_nil _ _)
    | cons s t =>
      by_cases hx : q x = true
      · simp only [hx, ↓reduceIte]
        cases t <;> simp
      · simp only [hx, Bool.false_eq_true, ↓reduceIte]
        cases t <;> simp

theorem linesOf_no_newline (l : Str) (h : '\n' ∉ l) : linesOf l = [l] :=
  List.splitOnP_eq_single (fun c => c == '\n') l (fun x hx => by
    simp only [beq_iff_eq]
    intro he
    exact h (he ▸ hx))

theorem takeWhile_append_of_mem (l b : Str) (h : '\n' ∈ l) :
    (l ++ b).takeWhile (fun c => c != '\n') = l.takeWhile (fun c => c != '\n') := by
  induction l with
  | nil => simp at h
  | cons x l ih =>
    by_cases hx : x = '\n'
    · subst hx
      simp [List.takeWhile_cons]
    · have hl : '\n' ∈ l := by
        rcases List.mem_cons.1 h with h1 | h1
        · exact absurd h1.symm hx
        · exact h1
      simp [List.takeWhile_cons, hx, ih hl]

/-! ## The layout of the help text -/

theorem idxFrom_append (x y : Option Nat) :
    ∀ (a : List (Option Nat)) (i : Nat),
      idxFrom x (a ++ [y]) i = idxFrom x a i ++ (if y = x then [i + a.length] else []) := by
  intro a
  induction a with
  | nil => intro i; simp [idxFrom]
  | cons z a ih =>
    intro i
    have hi : i + 1 + a.length = i + (a.length + 1) := by omega
    simp only [List.cons_append, idxFrom, List.length_cons, List.append_eq]
    rw [ih (i + 1), hi]
    split <;> simp

theorem mem_idxFrom (x : Option Nat) :
    ∀ (a : List (Option Nat)) (i k : Nat),
      k ∈ idxFrom x a i ↔ ∃ j, k = i + j ∧ a[j]? = some x := by
  intro a
  induction a with
  | nil => intro i k; simp [idxFrom]
  | cons z a ih =>
    intro i k
    simp only [idxFrom]
    constructor
    · intro h
      split at h
      · rename_i hz
        rcases List.mem_cons.1 h with h1 | h1
        · exact ⟨0, by omega, by simp [hz]⟩
        · obtain ⟨j, hj, hget⟩ := (ih (i + 1) k).1 h1
          exact ⟨j + 1, by omega, by simpa using hget⟩
      · obtain ⟨j, hj, hget⟩ := (ih (i + 1) k).1 h
        exact ⟨j + 1, by omega, by simpa using hget⟩
    · rintro ⟨j, hj, hget⟩
      cases j with
      | zero =>
        simp only [List.getElem?_cons_zero, Option.some.injEq] at hget
        rw [if_pos hget]
        exact List.mem_cons.2 (Or.inl (by omega))
      | succ j =>
        simp only [List.getElem?_cons_succ] at hget
        have hm := (ih (i + 1) k).2 ⟨j, by omega, hget⟩
        split
        · exact List.mem_cons_of_mem _ hm
        · exact hm

theorem idxFrom_eq_nil (x : Option Nat) (a : List (Option Nat)) (i : Nat) (h : x ∉ a) :
    idxFrom x a i = [] := by
  cases hl : idxFrom x a i with
  | nil => rfl
  | cons k ks =>
    have hk : k ∈ idxFrom x a i := by rw [hl]; exact List.mem_cons_self _ _
    obtain ⟨j, _, hget⟩ := (mem_idxFrom x a i k).1 hk
    exact absurd (List.getElem?_mem hget) h

theorem GroupsOk.addGroup {p : parser} {a : List (Option Nat)} (h : GroupsOk p a)
    (name description : Str) : GroupsOk (addGroup p name description).1 a := by
  obtain ⟨hl, hv, hg⟩ := h
  refine ⟨hl, ?_, ?_⟩
  · intro gi hgi
    have := hv gi hgi
    simp only [parser.addGroup, List.length_append, List.length_singleton]
    omega
  · intro gi group hget
    simp only [parser.addGroup] at hget
    by_cases hlt : gi < p.m_Groups.length
    · rw [List.getElem?_append_left hlt] at hget
      exact hg gi group hget
    · have hge : p.m_Groups.length ≤ gi := by omega
      rw [List.getElem?_append_right hge] at hget
      have hz : gi - p.m_Groups.length = 0 := by
        by_contra hne
        rw [List.getElem?_eq_none (by simp; omega)] at hget
        cases hget
      rw [hz] at hget
      simp only [List.getElem?_cons_zero, Option.some.injEq] at hget
      subst hget
      have hnone : some gi ∉ a := fun hm => by
        have := hv gi hm
        omega
      simp [idxFrom_eq_nil _ _ _ hnone]

theorem GroupsOk.addOption {hash : Str → Nat} {p : parser} {a : List (Option Nat)}
    (h : GroupsOk p a) (flag description : Str) (required : Bool) (minArgs : Int)
    (group : group_handle) :
    GroupsOk (addOption hash p flag description required minArgs group).1
      (a ++ [if 0 ≤ group.m_Value ∧ group.m_Value < (p.m_Groups.length : Int)
             then some group.m_Value.toNat else none]) := by
  obtain ⟨hl, hv, hg⟩ := h
  have hopts := addOption_options hash p flag description required minArgs group
  by_cases hvalid : 0 ≤ group.m_Value ∧ group.m_Value < (p.m_Groups.length : Int)
  · have hgroups := addOption_groups_valid hash p flag description required minArgs group hvalid
    have hgl : group.m_Value.toNat < p.m_Groups.length := by omega
    rw [if_pos hvalid]
    refine ⟨by rw [hopts]; simp [hl], ?_, ?_⟩
    · intro gi hgi
      rw [hgroups, List.length_modify]
      rcases List.mem_append.1 hgi with h1 | h1
      · exact hv gi h1
      · simp only [List.mem_singleton, Option.some.injEq] at h1
        omega
    · intro gi grp hget
      rw [hgroups, List.getElem?_modify] at hget
      cases hold : p.m_Groups[gi]? with
      | none => rw [hold] at hget; simp at hget
      | some g0 =>
        rw [hold] at hget
        simp only [Option.map_eq_map, Option.map_some', Option.some.injEq] at hget
        subst hget
        have h0 := hg gi g0 hold
        rw [idxFrom_append]
        by_cases hgi : group.m_Value.toNat = gi
        · simp [hgi, h0, hl]
        · simp [hgi, h0]
  · have hgroups := addOption_groups_invalid hash p flag description required minArgs group hvalid
    rw [if_neg hvalid]
    refine ⟨by rw [hopts]; simp [hl], ?_, ?_⟩
    · intro gi hgi
      rw [hgroups]
      rcases List.mem_append.1 hgi with h1 | h1
      · exact hv gi h1
      · simp at h1
    · intro gi grp hget
      rw [hgroups] at hget
      rw [idxFrom_append, hg gi grp hget]
      simp

/-- The group lists of every registry that a program can hold agree with the
record of its registrations. -/
theorem BuiltWith.groupsOk {hash : Str → Nat} {p : parser} {a : List (Option Nat)}
    (h : BuiltWith hash p a) : GroupsOk p a := by
  induction h with
  | empty => exact ⟨rfl, by simp, by intro gi group hget; simp [parser.empty] at hget⟩
  | addGroup name description _ ih => exact ih.addGroup name description
  | addOption flag description required minArgs group _ ih =>
    exact ih.addOption flag description required minArgs group
  | parse _ hP ih =>
    obtain ⟨r, hrun⟩ := Parse_run hP
    obtain ⟨hg, _, hlen, _⟩ := hrun.ext_run
    have hopts := Ext.setProgramName_options _ _ ▸ hlen
    obtain ⟨hl, hv, hgr⟩ := ih
    have hg' : ∀ (p0 : parser) (av : List Str), (setProgramName p0 av).m_Groups = p0.m_Groups :=
      fun p0 av => by cases av <;> rfl
    rw [hg'] at hg
    exact ⟨by rw [hl, hopts], by rw [hg]; exact hv, by rw [hg]; exact hgr⟩
  | clearArgs _ ih =>
    obtain ⟨hl, hv, hgr⟩ := ih
    exact ⟨by simp [parser.clearArgs, hl], hv, hgr⟩

theorem printGroupOptions_eq (p : parser) :
    ∀ ks : List Nat, (∀ k ∈ ks, k < p.m_Options.length) →
      printGroupOptions p (ks.map (fun (k : Nat) => (⟨(k : Int)⟩ : handle)))
        = some (entriesAt p "    ".toList ks) := by
  intro ks
  induction ks with
  | nil => intro _; rfl
  | cons k ks ih =>
    intro hk
    simp only [List.mem_cons, forall_eq_or_imp] at hk
    have hget : p.m_Options[k]? = some p.m_Options[k] := List.getElem?_eq_getElem hk.1
    have hneg : ¬ ((k : Int) < 0) := Int.not_lt.2 (Int.ofNat_nonneg k)
    simp only [List.map_cons, printGroupOptions, hneg, ↓reduceIte, Int.toNat_ofNat, hget,
      printOption_eq, ih hk.2, entriesAt]

theorem idxFrom_lt {x : Option Nat} {a : List (Option Nat)} {k : Nat}
    (h : k ∈ idxFrom x a 0) : k < a.length := by
  obtain ⟨j, hj, hget⟩ := (mem_idxFrom x a 0 k).1 h
  have := (List.getElem?_eq_some.1 hget).1
  omega

theorem groupHeading_eq (group : groups) :
    groupHeading group = headingSpec group.m_Name group.m_Description := by
  simp [groupHeading, headingSpec]

theorem groupsSpec_split (p : parser) (a : List (Option Nat)) :
    ∀ (gs : List groups) (gi0 j : Nat) (group : groups), gs[j]? = some group →
      ∃ pre post : Str,
        groupsSpec p a gs gi0
          = pre ++ headingSpec group.m_Name group.m_Description
              ++ entriesAt p "    ".toList (idxFrom (some (gi0 + j)) a 0) ++ post := by
  intro gs
  induction gs with
  | nil => intro gi0 j group hj; simp at hj
  | cons g gs ih =>
    intro gi0 j group hj
    cases j with
    | zero =>
      simp only [List.getElem?_cons_zero, Option.some.injEq] at hj
      subst hj
      exact ⟨[], groupsSpec p a gs (gi0 + 1), by simp [groupsSpec]⟩
    | succ j =>
      obtain ⟨pre, post, hsplit⟩ := ih (gi0 + 1) j group (by simpa using hj)
      refine ⟨headingSpec g.m_Name g.m_Description
          ++ entriesAt p "    ".toList (idxFrom (some gi0) a 0) ++ pre, post, ?_⟩
      rw [groupsSpec, hsplit, show gi0 + 1 + j = gi0 + (j + 1) by omega]
      simp [List.append_assoc]

theorem printGroups_eq (p : parser) (a : List (Option Nat)) (hl : a.length = p.m_Options.length) :
    ∀ (gs : List groups) (gi0 : Nat),
      (∀ (j : Nat) (group : groups), gs[j]? = some group →
        group.m_Options
          = (idxFrom (some (gi0 + j)) a 0).map (fun (k : Nat) => (⟨(k : Int)⟩ : handle))) →
      printGroups p gs = some (groupsSpec p a gs gi0) := by
  intro gs
  induction gs with
  | nil => intro gi0 _; rfl
  | cons g gs ih =>
    intro gi0 hg
    have h0 := hg 0 g (by simp)
    simp only [Nat.add_zero] at h0
    have hrest := ih (gi0 + 1) (fun j group hj => by
      have := hg (j + 1) group (by simpa using hj)
      rw [this, show gi0 + (j + 1) = gi0 + 1 + j by omega])
    have hopt := printGroupOptions_eq p (idxFrom (some gi0) a 0)
      (fun k hk => by rw [← hl]; exact idxFrom_lt hk)
    simp only [printGroups, h0, hopt, hrest, groupsSpec, groupHeading_eq]

theorem isGrouped_iff {p : parser} {a : List (Option Nat)} (h : GroupsOk p a) (i : Nat) :
    isGrouped p i = true ↔ ∃ gi, a[i]? = some (some gi) := by
  obtain ⟨hl, hv, hg⟩ := h
  simp only [isGrouped, List.any_eq_true, List.contains_iff_exists_mem_beq, beq_iff_eq]
  constructor
  · rintro ⟨group, hmem, hd, hdm, heq⟩
    obtain ⟨gi, hgi⟩ := List.mem_iff_getElem?.1 hmem
    rw [hg gi group hgi, List.mem_map] at hdm
    obtain ⟨k, hk, hkd⟩ := hdm
    rw [← heq] at hkd
    have hki : k = i := by
      have := congrArg handle.m_Value hkd
      simp only at this
      omega
    subst hki
    obtain ⟨j, hj, hget⟩ := (mem_idxFrom _ a 0 k).1 hk
    have : j = k := by omega
    subst this
    exact ⟨gi, hget⟩
  · rintro ⟨gi, hget⟩
    have hlt := hv gi (List.getElem?_mem hget)
    refine ⟨p.m_Groups[gi], List.getElem_mem hlt, ⟨(i : Int)⟩, ?_, rfl⟩
    rw [hg gi _ (List.getElem?_eq_getElem hlt), List.mem_map]
    exact ⟨i, (mem_idxFrom _ a 0 i).2 ⟨i, by omega, hget⟩, rfl⟩

/-- The loop of the ungrouped section writes the heading once, before the first
ungrouped option, and then the entries of the ungrouped options. -/
theorem printUngrouped_eq (p : parser) :
    ∀ (rest : List Opt) (arest : List (Option Nat)) (i : Nat) (has : Bool),
      rest.length = arest.length →
      (∀ (j : Nat) (x : Option Nat), arest[j]? = some x →
        (isGrouped p (i + j) = true ↔ x ≠ none)) →
      (∀ (j : Nat) (o : Opt), rest[j]? = some o → p.m_Options[i + j]? = some o) →
      printUngrouped p rest i has
        = some ((if has = false ∧ idxFrom none arest i ≠ [] then ungroupedHeading else [])
            ++ entriesAt p "  ".toList (idxFrom none arest i)) := by
  intro rest
  induction rest with
  | nil =>
    intro arest i has hlen _ _
    have : arest = [] := List.eq_nil_of_length_eq_zero hlen.symm
    subst this
    simp [printUngrouped, idxFrom, entriesAt]
  | cons o rest ih =>
    intro arest i has hlen hgrp hopt
    cases arest with
    | nil => simp at hlen
    | cons x arest =>
      have hg0 := hgrp 0 x (by simp)
      have ho0 := hopt 0 o (by simp)
      simp only [Nat.add_zero] at hg0 ho0
      have hrec := fun has' => ih arest (i + 1) has' (by simpa using hlen)
        (fun j y hj => by
          have := hgrp (j + 1) y (by simpa using hj)
          rwa [show i + (j + 1) = i + 1 + j by omega] at this)
        (fun j o' hj => by
          have := hopt (j + 1) o' (by simpa using hj)
          rwa [show i + (j + 1) = i + 1 + j by omega] at this)
      cases x with
      | none =>
        have hng : isGrouped p i = false := by
          cases hc : isGrouped p i with
          | false => rfl
          | true => exact absurd rfl (hg0.1 hc)
        simp only [printUngrouped, hng, Bool.not_false, ↓reduceIte, printOption_eq, hrec true,
          idxFrom, entriesAt, ho0]
        cases has <;> simp [List.append_assoc]
      | some gi =>
        have hgr : isGrouped p i = true := hg0.2 (by simp)
        simp only [printUngrouped, hgr, Bool.not_true, Bool.false_eq_true, ↓reduceIte, hrec has,
          idxFrom, reduceCtorEq]

/-- The help text of a registry whose group lists agree with the registration
record is the text of the specification. -/
theorem printHelp_eq {p : parser} {a : List (Option Nat)} (h : GroupsOk p a) :
    printHelp p = some (helpSpec p a) := by
  have hgroups := printGroups_eq p a h.1 p.m_Groups 0
    (fun j group hj => by simpa using h.2.2 j group hj)
  have hung := printUngrouped_eq p p.m_Options a 0 false h.1.symm
    (fun j x hj => by
      rw [Nat.zero_add, isGrouped_iff h j, hj]
      cases x <;> simp)
    (fun j o hj => by simpa using hj)
  simp only [printHelp, hgroups, hung, helpSpec, ungroupedSpec, usageText, ungroupedHeading]
  by_cases hn : idxFrom none a 0 = [] <;> simp [hn, List.append_assoc, entriesAt]

theorem idxFrom_pairwise (x : Option Nat) :
    ∀ (a : List (Option Nat)) (i : Nat),
      (idxFrom x a i).Pairwise (fun k l => k < l) ∧ ∀ k ∈ idxFrom x a i, i ≤ k := by
  intro a
  induction a with
  | nil => intro i; simp [idxFrom]
  | cons y a ih =>
    intro i
    obtain ⟨hp, hle⟩ := ih (i + 1)
    simp only [idxFrom]
    split
    · refine ⟨List.pairwise_cons.2 ⟨fun k hk => ?_, hp⟩, ?_⟩
      · have := hle k hk
        omega
      · intro k hk
        rcases List.mem_cons.1 hk with h1 | h1
        · omega
        · have := hle k h1
          omega
    · exact ⟨hp, fun k hk => by have := hle k hk; omega⟩

theorem mem_idxFrom_zero (x : Option Nat) (a : List (Option Nat)) (k : Nat) :
    k ∈ idxFrom x a 0 ↔ a[k]? = some x := by
  rw [mem_idxFrom]
  constructor
  · rintro ⟨j, hj, hget⟩
    have : j = k := by omega
    rw [← this]; exact hget
  · intro h
    exact ⟨k, by omega, h⟩

theorem exampleRegistry_builtWith : BuiltWith sumHash exampleRegistry exampleRecord :=
  BuiltWith.addOption "scale".toList
    "Scale factor for processing\nValues between 0.1 and 10.0\nDefault is 1.0".toList false 1 {}
    (BuiltWith.addOption "v".toList
      "Enable verbose logging\nSet to see detailed output".toList false 0 ⟨1⟩
      (BuiltWith.addOption "output".toList
        "Output file path\nLong description split\ninto multiple lines".toList false 1 ⟨1⟩
        (BuiltWith.addOption "input".toList
          "Input file path\nSpecify a valid file or use - for stdin\nDefault is stdin if omitted".toList
          true 1 ⟨0⟩
          (BuiltWith.addOption "h".toList
            "Show this help message\nUse -h or --h to display".toList false 0 ⟨0⟩
            (BuiltWith.addGroup "Output Options".toList
              "Options for output configuration".toList
              (BuiltWith.addGroup "Input Options".toList "Options for input handling".toList
                BuiltWith.empty))))))

/-! ## Conversion to `int64_t` -/

theorem dropWhile_append_stop {α : Type} (f : α → Bool) (ws : List α) (c : α) (cs : List α)
    (hws : ∀ x ∈ ws, f x = true) (hc : f c = false) :
    (ws ++ c :: cs).dropWhile f = c :: cs := by
  induction ws with
  | nil => simp [List.dropWhile_cons, hc]
  | cons w ws ih =>
    simp only [List.mem_cons, forall_eq_or_imp] at hws
    simp [List.dropWhile_cons, hws.1, ih hws.2]

theorem takeWhile_all {α : Type} (f : α → Bool) (l : List α) (h : ∀ x ∈ l, f x = true) :
    l.takeWhile f = l ∧ l.dropWhile f = [] := by
  induction l with
  | nil => simp
  | cons a l ih =>
    simp only [List.mem_cons, forall_eq_or_imp] at h
    simp [List.takeWhile_cons, List.dropWhile_cons, h.1, ih h.2]

theorem takeWhile_forall {α : Type} (f : α → Bool) (l : List α) :
    ∀ x ∈ l.takeWhile f, f x = true := by
  induction l with
  | nil => simp
  | cons a l ih =>
    by_cases h : f a = true
    · simpa [List.takeWhile_cons, h] using ih
    · simp [List.takeWhile_cons, h]

theorem isDigit_facts {c : Char} (h : c.isDigit = true) :
    isSpace c = false ∧ (c == '+') = false ∧ (c == '-') = false := by
  have hne : ∀ d : Char, d.isDigit = false → (c == d) = false := by
    intro d hd
    simp only [beq_eq_false_iff_ne, ne_eq]
    intro he
    rw [he, hd] at h
    cases h
  refine ⟨?_, hne _ (by decide), hne _ (by decide)⟩
  simp only [isSpace, hne ' ' (by decide), hne '\t' (by decide), hne '\n' (by decide),
    hne (Char.ofNat 11) (by decide), hne (Char.ofNat 12) (by decide), hne '\r' (by decide),
    Bool.or_self]

/-- The stream state for a text of the form white space, sign, digits. -/
theorem extractInt64_of_text (ws sign digits : Str) (hws : ∀ c ∈ ws, isSpace c = true)
    (hsign : sign = [] ∨ sign = ['+'] ∨ sign = ['-']) (hne : digits ≠ [])
    (hdig : ∀ c ∈ digits, c.isDigit = true) :
    extractInt64 (ws ++ sign ++ digits)
      = (if (if sign = ['-'] then -(decValue digits : Int) else (decValue digits : Int))
            < -(2 : Int) ^ 63
         then { value := -(2 : Int) ^ 63, fail := true, eof := true }
         else if (if sign = ['-'] then -(decValue digits : Int) else (decValue digits : Int))
            ≥ (2 : Int) ^ 63
         then { value := (2 : Int) ^ 63 - 1, fail := true, eof := true }
         else { value := (if sign = ['-'] then -(decValue digits : Int)
                          else (decValue digits : Int)),
                fail := false, eof := true }) := by
  obtain ⟨htw, hdw⟩ := takeWhile_all Char.isDigit digits hdig
  have hemp : digits.isEmpty = false := by cases digits <;> simp_all
  rcases hsign with rfl | rfl | rfl
  · cases digits with
    | nil => exact absurd rfl hne
    | cons d ds =>
      have hd := isDigit_facts (hdig d (List.mem_cons_self _ _))
      have hdrop : (ws ++ [] ++ d :: ds).dropWhile isSpace = d :: ds := by
        rw [List.append_nil]; exact dropWhile_append_stop _ _ _ _ hws hd.1
      simp only [extractInt64, hdrop, hd.2.1, hd.2.2, Bool.or_self, Bool.false_eq_true,
        ↓reduceIte, htw, hdw, hemp, List.isEmpty_nil, reduceCtorEq]
  · have hdrop : (ws ++ ['+'] ++ digits).dropWhile isSpace = '+' :: digits := by
      rw [List.append_assoc]; exact dropWhile_append_stop _ _ _ _ hws (by decide)
    have h1 : ('+' == '-') = false := by decide
    have h2 : ¬ (['+'] = ['-']) := by decide
    simp only [extractInt64, hdrop, beq_self_eq_true, Bool.true_or, ↓reduceIte, htw, hdw, hemp,
      List.isEmpty_nil, Bool.false_eq_true, h1, h2]
  · have hdrop : (ws ++ ['-'] ++ digits).dropWhile isSpace = '-' :: digits := by
      rw [List.append_assoc]; exact dropWhile_append_stop _ _ _ _ hws (by decide)
    simp only [extractInt64, hdrop, beq_self_eq_true, Bool.or_true, ↓reduceIte, htw, hdw, hemp,
      List.isEmpty_nil, Bool.false_eq_true]

/-- A stream state without `failbit` and with `eofbit` comes from a text of the
form white space, sign, digits. -/
theorem extractInt64_ok {s : Str} {n : Int}
    (h : extractInt64 s = { value := n, fail := false, eof := true }) : IsInt64Text s n := by
  have hsplit := List.takeWhile_append_dropWhile isSpace s
  have hws := takeWhile_forall isSpace s
  cases hs : s.dropWhile isSpace with
  | nil => simp [extractInt64, hs] at h
  | cons c cs =>
    rw [hs] at hsplit
    have key : ∀ (body : Str) (g : Str → Int),
        (if (body.takeWhile Char.isDigit).isEmpty = true
          then ({ value := 0, fail := true,
                  eof := (body.dropWhile Char.isDigit).isEmpty } : StreamState)
          else
            if g (body.takeWhile Char.isDigit) < -(2 : Int) ^ 63
            then { value := -(2 : Int) ^ 63, fail := true,
                   eof := (body.dropWhile Char.isDigit).isEmpty }
            else
              if g (body.takeWhile Char.isDigit) ≥ (2 : Int) ^ 63
              then { value := (2 : Int) ^ 63 - 1, fail := true,
                     eof := (body.dropWhile Char.isDigit).isEmpty }
              else { value := g (body.takeWhile Char.isDigit),
                     fail := false, eof := (body.dropWhile Char.isDigit).isEmpty })
          = { value := n, fail := false, eof := true } →
        body ≠ [] ∧ (∀ x ∈ body, x.isDigit = true) ∧ n = g body ∧
          -(2 : Int) ^ 63 ≤ n ∧ n < (2 : Int) ^ 63 := by
      intro body g hb
      have hbsplit := List.takeWhile_append_dropWhile Char.isDigit body
      have hbdig := takeWhile_forall Char.isDigit body
      split at hb
      · simp at hb
      · rename_i hne
        split at hb
        · simp at hb
        · rename_i hlo
          split at hb
          · simp at hb
          · rename_i hhi
            simp only [StreamState.mk.injEq, true_and, List.isEmpty_iff] at hb
            obtain ⟨hval, hrest⟩ := hb
            rw [hrest, List.append_nil] at hbsplit
            rw [hbsplit] at hne hbdig hval hlo hhi
            refine ⟨by simpa using hne, hbdig, hval.symm, ?_, ?_⟩
            · rw [← hval]; omega
            · rw [← hval]; omega
    have hpm : ('+' == '-') = false := by decide
    by_cases hplus : c = '+'
    · subst hplus
      simp only [extractInt64, hs, beq_self_eq_true, Bool.true_or, ↓reduceIte, hpm,
        Bool.false_eq_true] at h
      have hk := key cs (fun d => (decValue d : Int)) h
      exact ⟨s.takeWhile isSpace, ['+'], cs, by rw [List.append_assoc]; exact hsplit.symm,
        hws, Or.inr (Or.inl rfl), hk.1, hk.2.1, by simpa using hk.2.2.1, hk.2.2.2⟩
    · by_cases hminus : c = '-'
      · subst hminus
        simp only [extractInt64, hs, beq_self_eq_true, Bool.or_true, ↓reduceIte] at h
        have hk := key cs (fun d => -(decValue d : Int)) h
        exact ⟨s.takeWhile isSpace, ['-'], cs, by rw [List.append_assoc]; exact hsplit.symm,
          hws, Or.inr (Or.inr rfl), hk.1, hk.2.1, by simpa using hk.2.2.1, hk.2.2.2⟩
      · have h1 : (c == '+') = false := by simpa using hplus
        have h2 : (c == '-') = false := by simpa using hminus
        simp only [extractInt64, hs, h1, h2, Bool.or_self, Bool.false_eq_true, ↓reduceIte] at h
        have hk := key (c :: cs) (fun d => (decValue d : Int)) h
        exact ⟨s.takeWhile isSpace, [], c :: cs, by rw [List.append_nil]; exact hsplit.symm,
          hws, Or.inl rfl, hk.1, hk.2.1, by simpa using hk.2.2.1, hk.2.2.2⟩

theorem convertValue_int64_inl {s flag : Str} {i : Nat} {n : Int}
    (h : convertValue_int64 s flag i = Sum.inl n) :
    extractInt64 s = { value := n, fail := false, eof := true } := by
  simp only [convertValue_int64] at h
  split at h
  · cases h
  · rename_i hc
    simp only [Bool.or_eq_true, Bool.not_eq_true', not_or, Bool.not_eq_true,
      Bool.not_eq_false] at hc
    have hv : (extractInt64 s).value = n := Sum.inl.inj h
    cases hst : extractInt64 s with
    | mk v f e =>
      rw [hst] at hc hv
      simp only at hc hv
      rw [hc.1, hc.2, hv]

theorem convertValue_int64_of_text {s : Str} {n : Int} (h : IsInt64Text s n) (flag : Str)
    (i : Nat) : convertValue_int64 s flag i = Sum.inl n := by
  obtain ⟨ws, sign, digits, rfl, hws, hsign, hne, hdig, hn, hlo, hhi⟩ := h
  have hst := extractInt64_of_text ws sign digits hws hsign hne hdig
  rw [← hn] at hst
  rw [if_neg (by omega), if_neg (by omega)] at hst
  simp only [convertValue_int64, hst, Bool.not_true, Bool.or_self, Bool.false_eq_true,
    ↓reduceIte]

theorem isInt64Text_renderInt (n : Int) (hlo : -(2 : Int) ^ 63 ≤ n) (hhi : n < (2 : Int) ^ 63) :
    IsInt64Text (renderInt n) n := by
  by_cases hneg : n < 0
  · obtain ⟨hne, hdig, hval⟩ := repr_spec n.natAbs
    refine ⟨[], ['-'], (Nat.repr n.natAbs).toList, by simp [renderInt, hneg], by simp,
      Or.inr (Or.inr rfl), hne, hdig, ?_, hlo, hhi⟩
    have hv : decValue (Nat.repr n.natAbs).toList = n.natAbs := hval
    rw [if_pos rfl, hv]
    omega
  · obtain ⟨hne, hdig, hval⟩ := repr_spec n.toNat
    refine ⟨[], [], (Nat.repr n.toNat).toList, by simp [renderInt, hneg], by simp,
      Or.inl rfl, hne, hdig, ?_, hlo, hhi⟩
    have hv : decValue (Nat.repr n.toNat).toList = n.toNat := hval
    rw [if_neg (by decide), hv]
    omega

/-! ## What a failed scan has stored -/

theorem takeWhile_take_of_le {α : Type} (f : α → Bool) :
    ∀ (l : List α) (c : Nat), (l.takeWhile f).length ≤ c →
      (l.take c).takeWhile f = l.takeWhile f ∧
      (l.take c).dropWhile f = (l.drop (l.takeWhile f).length).take (c - (l.takeWhile f).length) := by
  intro l
  induction l with
  | nil => intro c _; simp
  | cons a l ih =>
    intro c hc
    by_cases h : f a = true
    · simp only [List.takeWhile_cons, h, ↓reduceIte, List.length_cons] at hc ⊢
      cases c with
      | zero => omega
      | succ c =>
        have := ih c (by omega)
        simp [List.take_succ_cons, List.takeWhile_cons, List.dropWhile_cons, h, this]
    · cases c with
      | zero => simp [List.takeWhile_cons, h]
      | succ c => simp [List.take_succ_cons, List.takeWhile_cons, List.dropWhile_cons, h]

theorem runsFor_take_skip (res : Str → Bool) (argv : List Str) (i m : Nat) (arg : Str)
    (ha : argv[i]? = some arg) (hf : isFlag arg = false) (hm : i + 1 ≤ m) :
    runsFor res ((argv.take m).drop i) = runsFor res ((argv.take m).drop (i + 1)) := by
  obtain ⟨hi, harg⟩ := List.getElem?_eq_some.1 ha
  have hlt : i < (argv.take m).length := by simp [List.length_take]; omega
  rw [List.drop_eq_getElem_cons hlt]
  simp [List.getElem_take, harg, runsFor, hf]

theorem runsFor_take_flag (res : Str → Bool) (argv : List Str) (i m : Nat) (arg : Str)
    (ha : argv[i]? = some arg) (hf : isFlag arg = true)
    (hm : i + 1 + ((argv.drop (i + 1)).takeWhile notFlag).length ≤ m) :
    runsFor res ((argv.take m).drop i)
      = (if res arg then (argv.drop (i + 1)).takeWhile notFlag else [])
        ++ runsFor res
            ((argv.take m).drop (i + 1 + ((argv.drop (i + 1)).takeWhile notFlag).length)) := by
  obtain ⟨hi, harg⟩ := List.getElem?_eq_some.1 ha
  have hlt : i < (argv.take m).length := by simp [List.length_take]; omega
  have hX : (argv.take m).drop (i + 1) = (argv.drop (i + 1)).take (m - (i + 1)) :=
    List.drop_take _ _ _
  obtain ⟨h1, h2⟩ := takeWhile_take_of_le notFlag (argv.drop (i + 1)) (m - (i + 1)) (by omega)
  have h3 : (argv.take m).drop (i + 1 + ((argv.drop (i + 1)).takeWhile notFlag).length)
      = ((argv.drop (i + 1)).take (m - (i + 1))).dropWhile notFlag := by
    have e1 : (argv.drop (i + 1)).drop ((argv.drop (i + 1)).takeWhile notFlag).length
        = argv.drop (i + 1 + ((argv.drop (i + 1)).takeWhile notFlag).length) := by
      rw [List.drop_drop]
    have e2 : m - (i + 1) - ((argv.drop (i + 1)).takeWhile notFlag).length
        = m - (i + 1 + ((argv.drop (i + 1)).takeWhile notFlag).length) := by omega
    rw [h2, e1, e2]
    exact List.drop_take _ _ _
  rw [List.drop_eq_getElem_cons hlt, hX, h3, runsFor_dropWhile]
  simp only [List.getElem_take, harg, runsFor, hf, Bool.true_and, h1]
  split <;> simp


/-- Without quoted tokens, a scan that leaves the loop by a `return` has stored,
for every option, the runs of the tokens before the point where it stops. -/
theorem Run.args_plain_fail {hash : Str → Nat} {argv : List Str} (hpl : PlainFrom1 argv)
    {p p' : parser} {i : Nat} {r : Option error} (h : Run hash argv p i p' r) :
    ∀ E, r = some E →
      ∃ (j : Nat) (t : Str) (m : Nat), i ≤ j ∧ argv[j]? = some t ∧ isFlag t = true ∧
        j ≤ m ∧ m ≤ argv.length ∧
        (∀ (k : Nat) (o : Opt), p.m_Options[k]? = some o →
          ∃ o', p'.m_Options[k]? = some o' ∧
            o'.m_Args = o.m_Args ++ runsFor (resolvesTo hash p k) ((argv.take m).drop i)) ∧
        ((findOption hash p (flagName t) = Sum.inr E ∧ m = j) ∨
         (∃ (hd : handle) (o' : Opt), findOption hash p (flagName t) = Sum.inl hd ∧
            p'.m_Options[hd.m_Value.toNat]? = some o' ∧ o'.m_Args.length < o'.m_minArgs ∧
            E = minArgsError (flagName t) o'.m_minArgs ∧
            m = j + 1 + ((argv.drop (j + 1)).takeWhile notFlag).length)) := by
  induction h with
  | @halt p1 i1 p2 r1 hh =>
    intro E hr
    cases hh with
    | done hi => cases hr
    | @unknown arg E1 ha hf hfind =>
      cases hr
      have hi := (List.getElem?_eq_some.1 ha).1
      refine ⟨i1, arg, i1, le_refl _, ha, hf, le_refl _, by omega, ?_, Or.inl ⟨hfind, rfl⟩⟩
      intro k o ho
      refine ⟨o, ho, ?_⟩
      have : (argv.take i1).drop i1 = [] :=
        List.drop_eq_nil_of_le (by simp [List.length_take])
      simp [this, runsFor]
    | @minArgs arg hd opt args i' ha hf hfind hopt hc hmin =>
      cases hr
      have hi := (List.getElem?_eq_some.1 ha).1
      have hcp := collectArgs_plain hpl argv.length opt.m_Args i1 (by omega) (by omega)
      rw [hcp] at hc
      simp only [Option.some.injEq, Prod.mk.injEq] at hc
      obtain ⟨hargs, hi'⟩ := hc
      have hrunlen : i1 + 1 + ((argv.drop (i1 + 1)).takeWhile notFlag).length ≤ argv.length := by
        have := length_takeWhile_le' notFlag (argv.drop (i1 + 1))
        simp only [List.length_drop] at this
        omega
      have hlt := (List.getElem?_eq_some.1 hopt).1
      have hsame : (setArgs p1 hd.m_Value.toNat opt args).m_Options[hd.m_Value.toNat]?
          = some { opt with m_Args := args } := by
        simp [parser.setArgs, List.getElem?_set, hlt]
      refine ⟨i1, arg, i1 + 1 + ((argv.drop (i1 + 1)).takeWhile notFlag).length, le_refl _, ha, hf,
        by omega, hrunlen, ?_, Or.inr ⟨hd, _, hfind, hsame, hmin, rfl, rfl⟩⟩
      intro k o ho
      have hrf := runsFor_take_flag (resolvesTo hash p1 k) argv i1
        (i1 + 1 + ((argv.drop (i1 + 1)).takeWhile notFlag).length) arg ha hf (le_refl _)
      have hnil : (argv.take (i1 + 1 + ((argv.drop (i1 + 1)).takeWhile notFlag).length)).drop
          (i1 + 1 + ((argv.drop (i1 + 1)).takeWhile notFlag).length) = [] :=
        List.drop_eq_nil_of_le (by simp [List.length_take])
      rw [hrf, hnil]
      have hh := findOption_handle hfind
      by_cases hk : hd.m_Value.toNat = k
      · subst hk
        have ho2 : opt = o := by rw [hopt] at ho; exact Option.some.inj ho
        subst ho2
        have hrt : resolvesTo hash p1 hd.m_Value.toNat arg = true := by
          simp only [resolvesTo, decide_eq_true_eq]
          rw [hfind, ← hh]
        exact ⟨_, hsame, by simp [hrt, runsFor, ← hargs]⟩
      · have hrt : resolvesTo hash p1 k arg = false := by
          simp only [resolvesTo, decide_eq_false_iff_not]
          rw [hfind]
          intro hcon
          have : hd = ⟨(k : Int)⟩ := Sum.inl.inj hcon
          rw [this] at hk
          simp at hk
        refine ⟨o, by rw [setArgs_other_getElem? p1 hk]; exact ho, by simp [hrt, runsFor]⟩
  | @step p1 i1 q j1 p2 r1 hs _ ih =>
    intro E hr
    obtain ⟨j, t, m, hij, ht, hft, hjm, hml, hlists, hcase⟩ := ih E hr
    have hext := hs.ext_step
    have hi := hs.index_lt
    have hfo : findOption hash p1 (flagName t) = findOption hash q (flagName t) :=
      findOption_congr hash hext.map_decl.symm _
    rw [← hfo] at hcase
    cases hs with
    | skip ha hf =>
      refine ⟨j, t, m, by omega, ht, hft, hjm, hml, ?_, hcase⟩
      intro k o ho
      obtain ⟨o', ho', hargs'⟩ := hlists k o ho
      refine ⟨o', ho', ?_⟩
      rw [hargs', runsFor_take_skip _ argv i1 m _ ha hf (by omega)]
    | @flag arg hd opt args i' ha hf hfind hopt hc hmin =>
      have hcp := collectArgs_plain hpl argv.length opt.m_Args i1 (by omega) (by omega)
      rw [hcp] at hc
      simp only [Option.some.injEq, Prod.mk.injEq] at hc
      obtain ⟨hargs, hi'⟩ := hc
      refine ⟨j, t, m, by omega, ht, hft, hjm, hml, ?_, hcase⟩
      intro k o ho
      have hrf := runsFor_take_flag (resolvesTo hash p1 k) argv i1 m arg ha hf (by omega)
      have hres := resolvesTo_congr hash hext.map_decl.symm k
      have hidx : i1 + 1 + ((argv.drop (i1 + 1)).takeWhile notFlag).length = i' + 1 := by omega
      rw [hrf, hidx]
      have hh := findOption_handle hfind
      have hlt := (List.getElem?_eq_some.1 hopt).1
      by_cases hk : hd.m_Value.toNat = k
      · subst hk
        have ho2 : opt = o := by rw [hopt] at ho; exact Option.some.inj ho
        subst ho2
        have hq : (setArgs p1 hd.m_Value.toNat opt args).m_Options[hd.m_Value.toNat]?
            = some { opt with m_Args := args } := by
          simp [parser.setArgs, List.getElem?_set, hlt]
        obtain ⟨o', ho', hargs'⟩ := hlists _ _ hq
        refine ⟨o', ho', ?_⟩
        have hrt : resolvesTo hash p1 hd.m_Value.toNat arg = true := by
          simp only [resolvesTo, decide_eq_true_eq]
          rw [hfind, ← hh]
        rw [hargs', ← hres]
        simp [hrt, ← hargs]
      · have hq : (setArgs p1 hd.m_Value.toNat opt args).m_Options[k]? = some o := by
          simp [parser.setArgs, List.getElem?_set, hk, ho]
        obtain ⟨o', ho', hargs'⟩ := hlists _ _ hq
        refine ⟨o', ho', ?_⟩
        have hrt : resolvesTo hash p1 k arg = false := by
          simp only [resolvesTo, decide_eq_false_iff_not]
          rw [hfind]
          intro hcon
          have : hd = ⟨(k : Int)⟩ := Sum.inl.inj hcon
          rw [this] at hk
          simp at hk
        rw [hargs', ← hres]
        simp [hrt]

end parser

/-! ## The claims -/

open parser

/-- C1: after a successful `Parse` of a vector without empty tokens and without
tokens that begin with a double quote, on a registry whose argument lists are
all empty, the argument list of each option is the concatenation, in stream
order, of the maximal runs of non-flag tokens that follow the flag tokens (at
index 1 or later) resolving to that option; an option to which no flag token
resolves keeps an empty list. -/
theorem C1_collected_arguments (hash : Str → Nat) (p : parser) (argv : List Str) (p' : parser)
    (hempty : ∀ o ∈ p.m_Options, o.m_Args = [])
    (hne : ∀ t ∈ argv, t ≠ [])
    (hq : ∀ t ∈ argv, t.head? ≠ some '"')
    (hP : Parse hash p argv = some (p', [])) :
    p'.m_Options.length = p.m_Options.length ∧
    ∀ (k : Nat) (o' : Opt), p'.m_Options[k]? = some o' →
      o'.m_Args = runsFor (resolvesTo hash p k) (argv.drop 1) ∧
      ((∀ t ∈ argv.drop 1, isFlag t = true →
          findOption hash p (flagName t) ≠ Sum.inl ⟨(k : Int)⟩) → o'.m_Args = []) := by
  obtain ⟨hrun, _⟩ := Parse_success hP
  have hext := hrun.ext_run
  have hopts := Ext.setProgramName_options p argv
  have hlen : p'.m_Options.length = p.m_Options.length := by rw [hext.2.2.1, hopts]
  refine ⟨hlen, ?_⟩
  intro k o' ho'
  have hk : k < p.m_Options.length := by
    rw [← hlen]; exact (List.getElem?_eq_some.1 ho').1
  have ho : (setProgramName p argv).m_Options[k]? = some p.m_Options[k] := by
    rw [hopts]; exact List.getElem?_eq_getElem hk
  obtain ⟨o2, ho2, hargs⟩ := hrun.args_plain (PlainFrom1.of_all hne hq) rfl k _ ho
  rw [ho'] at ho2
  cases ho2
  have he : (p.m_Options[k]).m_Args = [] := hempty _ (List.getElem_mem _)
  have hres : resolvesTo hash (setProgramName p argv) k = resolvesTo hash p k :=
    resolvesTo_congr hash (by rw [hopts]) k
  rw [he, hres, List.nil_append] at hargs
  refine ⟨hargs, ?_⟩
  intro hno
  rw [hargs]
  apply runsFor_eq_nil
  intro t ht hf
  simpa [resolvesTo] using hno t ht hf

/-- C1 at the example: `Example` parses its vector with success, and option
`input` (index 1) holds exactly `data.txt`. -/
theorem C1_collected_arguments_witness :
    Parse sumHash exampleRegistry exampleArgv = some (exampleParsed, []) ∧
    exampleParsed.m_Options.length = exampleRegistry.m_Options.length ∧
    (∀ (k : Nat) (o' : Opt), exampleParsed.m_Options[k]? = some o' →
      o'.m_Args = runsFor (resolvesTo sumHash exampleRegistry k) (exampleArgv.drop 1) ∧
      ((∀ t ∈ exampleArgv.drop 1, isFlag t = true →
          findOption sumHash exampleRegistry (flagName t) ≠ Sum.inl ⟨(k : Int)⟩) →
        o'.m_Args = [])) ∧
    runsFor (resolvesTo sumHash exampleRegistry 1) (exampleArgv.drop 1) = ["data.txt".toList] :=
  ⟨by decide,
   (C1_collected_arguments sumHash exampleRegistry exampleArgv exampleParsed
      (by decide) (by decide) (by decide) (by decide)).1,
   (C1_collected_arguments sumHash exampleRegistry exampleArgv exampleParsed
      (by decide) (by decide) (by decide) (by decide)).2,
   by decide⟩

/-- C2: after a successful `Parse` on a registry whose argument lists were all
empty, every required option has a non-empty argument list and every non-empty
argument list has at least `minArgs` entries. -/
theorem C2_success_invariant (hash : Str → Nat) (p : parser) (argv : List Str) (p' : parser)
    (hempty : ∀ o ∈ p.m_Options, o.m_Args = [])
    (hP : Parse hash p argv = some (p', [])) :
    ∀ o ∈ p'.m_Options,
      (o.m_isRequired = true → o.m_Args ≠ []) ∧
      (o.m_Args ≠ [] → o.m_minArgs ≤ o.m_Args.length) := by
  obtain ⟨hrun, hreq⟩ := Parse_success hP
  have h0 : MinArgsOk (setProgramName p argv) := by
    intro o ho hne
    rw [Ext.setProgramName_options] at ho
    exact absurd (hempty o ho) hne
  have h1 := hrun.run_minArgsOk rfl h0
  intro o ho
  exact ⟨(requiredLoop_eq_nil _).1 hreq o ho, h1 o ho⟩

/-- C2 at the example. -/
theorem C2_success_invariant_witness :
    Parse sumHash exampleRegistry exampleArgv = some (exampleParsed, []) ∧
    ∀ o ∈ exampleParsed.m_Options,
      (o.m_isRequired = true → o.m_Args ≠ []) ∧
      (o.m_Args ≠ [] → o.m_minArgs ≤ o.m_Args.length) :=
  ⟨by decide,
   C2_success_invariant sumHash exampleRegistry exampleArgv exampleParsed
     (by decide) (by decide)⟩

/-- C3: when the token scan ends without an unknown-option or
insufficient-arguments error, `Parse` returns the empty error exactly when no
required option has an empty argument list after the scan; otherwise it returns
`Required option - <name> is missing` for the first registered option that is
required and whose list is empty.  The option named is one whose list is empty
after the whole scan, so an option that received arguments anywhere in the
stream is never reported. -/
theorem C3_required_check (hash : Str → Nat) (p : parser) (argv : List Str) (p' : parser)
    (hscan : scan hash p argv = some (p', none)) :
    ∃ e : error, Parse hash p argv = some (p', e) ∧
      (e = [] ↔ ∀ o ∈ p'.m_Options, o.m_isRequired = true → o.m_Args ≠ []) ∧
      (e ≠ [] →
        ∃ (k : Nat) (o : Opt), p'.m_Options[k]? = some o ∧
          o.m_isRequired = true ∧ o.m_Args = [] ∧
          (∀ (m : Nat) (o' : Opt), m < k → p'.m_Options[m]? = some o' →
            ¬ (o'.m_isRequired = true ∧ o'.m_Args = [])) ∧
          e = "Required option - ".toList ++ o.m_Name ++ " is missing".toList) := by
  refine ⟨requiredLoop p'.m_Options, by simp [Parse, hscan], requiredLoop_eq_nil _, ?_⟩
  intro hne
  obtain ⟨k, o, hk, hr, he, hmin, heq⟩ := requiredLoop_ne_nil _ hne
  exact ⟨k, o, hk, hr, he, hmin, by rw [heq]; rfl⟩

/-- C3 at `["prog"]` against the example registry, whose option `input` is
required: the scan ends without error and `Parse` reports `input`; a vector that
supplies `input` last parses with the empty error. -/
theorem C3_required_check_witness :
    (Parse sumHash exampleRegistry lateArgv).map Prod.snd = some [] ∧
    scan sumHash exampleRegistry progOnly
      = some (setProgramName exampleRegistry progOnly, none) ∧
    Parse sumHash exampleRegistry progOnly
      = some (setProgramName exampleRegistry progOnly,
          "Required option - input is missing".toList) ∧
    ∃ e : error, Parse sumHash exampleRegistry progOnly
        = some (setProgramName exampleRegistry progOnly, e) ∧
      (e = [] ↔ ∀ o ∈ (setProgramName exampleRegistry progOnly).m_Options,
        o.m_isRequired = true → o.m_Args ≠ []) ∧
      (e ≠ [] →
        ∃ (k : Nat) (o : Opt),
          (setProgramName exampleRegistry progOnly).m_Options[k]? = some o ∧
          o.m_isRequired = true ∧ o.m_Args = [] ∧
          (∀ (m : Nat) (o' : Opt), m < k →
            (setProgramName exampleRegistry progOnly).m_Options[m]? = some o' →
            ¬ (o'.m_isRequired = true ∧ o'.m_Args = [])) ∧
          e = "Required option - ".toList ++ o.m_Name ++ " is missing".toList) :=
  ⟨by decide, by decide, by decide,
   C3_required_check sumHash exampleRegistry progOnly
     (setProgramName exampleRegistry progOnly) (by decide)⟩

/-- C4, as stated, fails: in `["prog","--v","\"a","--unknown"]` the token at
index 3 is a flag token whose name `unknown` is the name of no declared option,
yet `Parse` returns the empty error, because the unterminated quoted token at
index 2 absorbs it into the argument `a --unknown` of option `v`. -/
theorem C4_unknown_option_counterexample :
    absorbedArgv[3]? = some "--unknown".toList ∧
    isFlag "--unknown".toList = true ∧
    flagName "--unknown".toList = "unknown".toList ∧
    (∀ o ∈ flagRegistry.m_Options, o.m_Name ≠ "unknown".toList) ∧
    (Parse sumHash flagRegistry absorbedArgv).map (fun r => (r.1.m_Options.map Opt.m_Args, r.2))
      = some ([["a --unknown".toList]], []) := by
  decide

/-- C4, amended: let a token at index 1 or later be a flag token whose name
(the token without its leading `--`, or else without its leading `-`) is the
name of no declared option.  If no token of the vector begins with a double
quote, `Parse` does not return the empty error, and it returns a non-empty
error when in addition no token at index 1 or later is empty.  For every
vector, when the token is the first flag token at index 1 or later, `Parse`
returns exactly `Unknown option - <name>` and leaves the options unchanged. -/
theorem C4_unknown_option (hash : Str → Nat) (p : parser) (argv : List Str) (j : Nat) (t : Str)
    (hj : 1 ≤ j) (ht : argv[j]? = some t) (hflag : isFlag t = true)
    (hunk : ∀ o ∈ p.m_Options, o.m_Name ≠ flagName t) :
    ((∀ u ∈ argv, u.head? ≠ some '"') →
      (∀ p', Parse hash p argv ≠ some (p', [])) ∧
      ((∀ (i : Nat) (u : Str), 1 ≤ i → argv[i]? = some u → u ≠ []) →
        ∃ p' e, Parse hash p argv = some (p', e) ∧ e ≠ [])) ∧
    ((∀ (i : Nat) (u : Str), 1 ≤ i → i < j → argv[i]? = some u → isFlag u = false) →
      Parse hash p argv
        = some (setProgramName p argv, "Unknown option - ".toList ++ flagName t)) := by
  have hfind : findOption hash (setProgramName p argv) (flagName t)
      = Sum.inr ("Unknown option - ".toList ++ flagName t) :=
    findOption_unknown hash _ _ (by rw [Ext.setProgramName_options]; exact hunk)
  have hjlt : j < argv.length := (List.getElem?_eq_some.1 ht).1
  refine ⟨?_, ?_⟩
  · intro hq
    have hno : ∀ p', Parse hash p argv ≠ some (p', []) := by
      intro p' hP
      obtain ⟨hrun, _⟩ := Parse_success hP
      exact hrun.unknown_noQuote hq ht hflag hj hfind rfl
    refine ⟨hno, ?_⟩
    intro hne
    have hpl : PlainFrom1 argv := fun i u hi hu => ⟨hne i u hi hu, hq u (List.getElem?_mem hu)⟩
    obtain ⟨p', r, hr⟩ := parseLoop_total_plain hash hpl (argv.length + 1)
      (setProgramName p argv) 1 (by omega) (by omega)
    have hs : scan hash p argv = some (p', r) := hr
    cases r with
    | none =>
      have hrun := (scan_iff_run hash p argv _ _).1 hs
      exact absurd rfl (hrun.unknown_noQuote hq ht hflag hj hfind)
    | some E =>
      have hrun := (scan_iff_run hash p argv _ _).1 hs
      exact ⟨p', E, by simp [Parse, hs], hrun.run_error_ne_nil E rfl⟩
  · intro hfirst
    have hreach := Reach.first_flag hash argv p j hj (by omega) hfirst
    exact hreach.parse_halt (Halt.unknown ht hflag hfind)

/-- C4 at `["prog","--unknown"]` against the example registry. -/
theorem C4_unknown_option_witness :
    Parse sumHash exampleRegistry unknownArgv
      = some (setProgramName exampleRegistry unknownArgv, "Unknown option - unknown".toList) ∧
    (((∀ u ∈ unknownArgv, u.head? ≠ some '"') →
      (∀ p', Parse sumHash exampleRegistry unknownArgv ≠ some (p', [])) ∧
      ((∀ (i : Nat) (u : Str), 1 ≤ i → unknownArgv[i]? = some u → u ≠ []) →
        ∃ p' e, Parse sumHash exampleRegistry unknownArgv = some (p', e) ∧ e ≠ [])) ∧
    ((∀ (i : Nat) (u : Str), 1 ≤ i → i < 1 → unknownArgv[i]? = some u → isFlag u = false) →
      Parse sumHash exampleRegistry unknownArgv
        = some (setProgramName exampleRegistry unknownArgv,
            "Unknown option - ".toList ++ flagName "--unknown".toList))) :=
  ⟨by decide,
   C4_unknown_option sumHash exampleRegistry unknownArgv 1 "--unknown".toList
     (by decide) (by decide) (by decide) (by decide)⟩

/-- C5, as stated, fails: scanning `["prog","--input","a","--input"]` against
option `input` with `minArgs = 1` reaches the flag token at index 3, which
resolves to `input`; no argument is collected for that occurrence, `0 < 1`, yet
`Parse` does not abort and returns the empty error, because the test compares
`minArgs` with the whole list, which still holds `a` from the first occurrence. -/
theorem C5_insufficient_arguments_counterexample :
    Reach sumHash repeatArgv inputRegistry
      (setArgs (setProgramName inputRegistry repeatArgv) 0 inputOption ["a".toList]) 3 ∧
    repeatArgv[3]? = some "--input".toList ∧
    isFlag "--input".toList = true ∧
    findOption sumHash
      (setArgs (setProgramName inputRegistry repeatArgv) 0 inputOption ["a".toList])
      (flagName "--input".toList) = Sum.inl ⟨0⟩ ∧
    collectArgs repeatArgv repeatArgv.length [] 3 = some ([], 3) ∧
    ([] : List Str).length < inputOption.m_minArgs ∧
    (Parse sumHash inputRegistry repeatArgv).map (fun r => (r.1.m_Options.map Opt.m_Args, r.2))
      = some ([["a".toList]], []) := by
  refine ⟨?_, by decide, by decide, by decide, by decide, by decide, by decide⟩
  exact Reach.step Reach.start
    (@Step.flag sumHash repeatArgv (setProgramName inputRegistry repeatArgv) 1
      "--input".toList ⟨0⟩ inputOption ["a".toList] 2
      (by decide) (by decide) (by decide) (by decide) (by decide) (by decide))

/-- C5, amended: whenever the scan reaches a flag token that resolves to an
option, and the option's argument list, once the arguments collected for this
occurrence (the non-flag tokens that follow it, after quote joining) are
appended to those it already held, has fewer than `minArgs` entries, `Parse`
aborts at that point and returns exactly
`Option - <flag> requires at least <minArgs> arguments`. -/
theorem C5_insufficient_arguments (hash : Str → Nat) (p0 : parser) (argv : List Str)
    (p : parser) (i : Nat) (arg : Str) (h : handle) (opt : Opt) (ex : List Str) (i' : Nat)
    (hreach : Reach hash argv p0 p i)
    (harg : argv[i]? = some arg) (hflag : isFlag arg = true)
    (hfind : findOption hash p (flagName arg) = Sum.inl h)
    (hopt : p.m_Options[h.m_Value.toNat]? = some opt)
    (hcollect : collectArgs argv argv.length [] i = some (ex, i'))
    (hmin : opt.m_Args.length + ex.length < opt.m_minArgs) :
    Parse hash p0 argv
      = some (setArgs p h.m_Value.toNat opt (opt.m_Args ++ ex),
          "Option - ".toList ++ flagName arg ++ " requires at least ".toList
            ++ (Nat.repr opt.m_minArgs).toList ++ " arguments".toList) := by
  have hc : collectArgs argv argv.length opt.m_Args i = some (opt.m_Args ++ ex, i') := by
    rw [collectArgs_eq_nil_append, hcollect]; rfl
  exact hreach.parse_halt
    (Halt.minArgs harg hflag hfind hopt hc (by rw [List.length_append]; exact hmin))

/-- C5 at `["prog","--input"]` against option `input` with `minArgs = 1`. -/
theorem C5_insufficient_arguments_witness :
    Parse sumHash inputRegistry bareInputArgv
      = some (setArgs (setProgramName inputRegistry bareInputArgv) 0 inputOption [],
          "Option - input requires at least 1 arguments".toList) :=
  C5_insufficient_arguments sumHash inputRegistry bareInputArgv
    (setProgramName inputRegistry bareInputArgv) 1 "--input".toList ⟨0⟩ inputOption [] 1
    Reach.start (by decide) (by decide) (by decide) (by decide) (by decide) (by decide)

/-- C6: in a registry whose stored keys are the hashes of the stored names,
as `addOption` stores them with any hash function, `findOption` is the lookup
by name alone: it returns the smallest option index whose name equals the flag
name, and returns the error `Unknown option - <flag>` exactly when no option has
that name.  Consequently no `Parse` call changes the argument list of an option
that bears the name of an option registered before it. -/
theorem C6_first_match_lookup (hash : Str → Nat) (p : parser) (hk : KeysOk hash p)
    (flag : Str) :
    findOption hash p flag
      = (match findByName p flag with
         | some k => Sum.inl ⟨(k : Int)⟩
         | none => Sum.inr ("Unknown option - ".toList ++ flag)) ∧
    (∀ h : handle, findOption hash p flag = Sum.inl h ↔
      ∃ k : Nat, h = ⟨(k : Int)⟩ ∧ (∃ o, p.m_Options[k]? = some o ∧ o.m_Name = flag) ∧
        ∀ (m : Nat) (o : Opt), m < k → p.m_Options[m]? = some o → o.m_Name ≠ flag) ∧
    (∀ E : error, findOption hash p flag = Sum.inr E ↔
      E = "Unknown option - ".toList ++ flag ∧ ∀ o ∈ p.m_Options, o.m_Name ≠ flag) ∧
    (∀ (argv : List Str) (p' : parser) (e : error) (i j : Nat) (oi oj : Opt),
      Parse hash p argv = some (p', e) → i < j →
      p.m_Options[i]? = some oi → p.m_Options[j]? = some oj → oi.m_Name = oj.m_Name →
      p'.m_Options[j]? = some oj) := by
  have hmatch : ∀ o ∈ p.m_Options, (o.m_Key = hash flag ∧ o.m_Name = flag) ↔ o.m_Name = flag := by
    intro o ho
    constructor
    · exact fun h => h.2
    · intro h; exact ⟨by rw [hk o ho, h], h⟩
  have hfwd : ∀ h : handle, findOption hash p flag = Sum.inl h →
      ∃ k : Nat, h = ⟨(k : Int)⟩ ∧ (∃ o, p.m_Options[k]? = some o ∧ o.m_Name = flag) ∧
        ∀ (m : Nat) (o : Opt), m < k → p.m_Options[m]? = some o → o.m_Name ≠ flag := by
    intro h hf
    obtain ⟨n, hv, ⟨o, ho, hko⟩, hmin⟩ := findOption_inl hf
    refine ⟨n, ?_, ⟨o, ho, hko.2⟩, ?_⟩
    · cases h; simp only at hv; rw [hv]
    · intro m o' hm ho' hname
      exact hmin m o' hm ho' ((hmatch o' (List.getElem?_mem ho')).2 hname)
  refine ⟨?_, ?_, ?_, ?_⟩
  · have h0 := findOptionLoop_eq_findIdx hash flag p.m_Options 0 hk
    simp only [Nat.cast_zero] at h0
    simp only [findOption, findByName, h0]
    cases List.findIdx? (fun o => decide (o.m_Name = flag)) p.m_Options 0 <;> rfl
  · intro h
    refine ⟨hfwd h, ?_⟩
    rintro ⟨k, rfl, ⟨o, ho, hname⟩, hmin⟩
    cases hf : findOption hash p flag with
    | inl h' =>
      obtain ⟨n, rfl, ⟨o', ho', hname'⟩, hmin'⟩ := hfwd h' hf
      have hnk : n = k := by
        rcases Nat.lt_trichotomy n k with h1 | h1 | h1
        · exact absurd hname' (hmin n o' h1 ho')
        · exact h1
        · exact absurd hname (hmin' k o h1 ho)
      rw [hnk]
    | inr E =>
      exact absurd ((hmatch o (List.getElem?_mem ho)).2 hname)
        ((findOption_inr hf).2 o (List.getElem?_mem ho))
  · intro E
    constructor
    · intro hf
      obtain ⟨hE, hno⟩ := findOption_inr hf
      exact ⟨hE, fun o ho hname => hno o ho ((hmatch o ho).2 hname)⟩
    · rintro ⟨rfl, hno⟩
      exact findOption_unknown hash p flag hno
  · intro argv p' e i j oi oj hP hij hi hj hn
    have hopts := Ext.setProgramName_options p argv
    have hrun : ∃ r, Run hash argv (setProgramName p argv) 1 p' r := by
      simp only [Parse] at hP
      split at hP
      · exact absurd hP (by simp)
      · rename_i q E hs
        simp only [Option.some.injEq, Prod.mk.injEq] at hP
        obtain ⟨rfl, _⟩ := hP
        exact ⟨_, (scan_iff_run hash p argv _ _).1 hs⟩
      · rename_i q hs
        simp only [Option.some.injEq, Prod.mk.injEq] at hP
        obtain ⟨rfl, _⟩ := hP
        exact ⟨_, (scan_iff_run hash p argv _ _).1 hs⟩
    obtain ⟨r, hr⟩ := hrun
    exact hr.dup_unchanged_run (hk.setProgramName argv) i j oi oj hij
      (by rw [hopts]; exact hi) (by rw [hopts]; exact hj) hn

/-- C6 at a registry that declares `v` twice: the lookup of `v` gives index 0,
and a parse that stores an argument for `v` leaves the second `v` untouched. -/
theorem C6_first_match_lookup_witness :
    KeysOk sumHash duplicateRegistry ∧
    findOption sumHash duplicateRegistry "v".toList = Sum.inl ⟨0⟩ ∧
    (Parse sumHash duplicateRegistry absorbedArgv).map (fun r => r.1.m_Options.map Opt.m_Args)
      = some [["a --unknown".toList], []] ∧
    (findOption sumHash duplicateRegistry "v".toList
      = (match findByName duplicateRegistry "v".toList with
         | some k => Sum.inl ⟨(k : Int)⟩
         | none => Sum.inr ("Unknown option - ".toList ++ "v".toList)) ∧
    (∀ h : handle, findOption sumHash duplicateRegistry "v".toList = Sum.inl h ↔
      ∃ k : Nat, h = ⟨(k : Int)⟩ ∧
        (∃ o, duplicateRegistry.m_Options[k]? = some o ∧ o.m_Name = "v".toList) ∧
        ∀ (m : Nat) (o : Opt), m < k → duplicateRegistry.m_Options[m]? = some o →
          o.m_Name ≠ "v".toList) ∧
    (∀ E : error, findOption sumHash duplicateRegistry "v".toList = Sum.inr E ↔
      E = "Unknown option - ".toList ++ "v".toList ∧
        ∀ o ∈ duplicateRegistry.m_Options, o.m_Name ≠ "v".toList) ∧
    (∀ (argv : List Str) (p' : parser) (e : error) (i j : Nat) (oi oj : Opt),
      Parse sumHash duplicateRegistry argv = some (p', e) → i < j →
      duplicateRegistry.m_Options[i]? = some oi → duplicateRegistry.m_Options[j]? = some oj →
      oi.m_Name = oj.m_Name → p'.m_Options[j]? = some oj)) :=
  ⟨by unfold KeysOk; decide, by decide, by decide,
   C6_first_match_lookup sumHash duplicateRegistry (by unfold KeysOk; decide) "v".toList⟩

/-- C7: let `t0` be the token at index `i + 1`, consumed as an argument.  If
`t0` begins with a double quote and does not end with one, and the tokens that
follow it up to the first one ending with a quote, `tk`, are non-empty, the
argument is `t0` without its first character, then each token before `tk`
preceded by a space, then a space and `tk` without its last character, and the
index moves to `tk`; if no later token ends with a quote, the argument is `t0`
without its first character followed by every remaining token preceded by a
space, the index moves to the last token, and a value is returned all the same.
Every other non-empty token is returned verbatim with the index unchanged.  The
collecting loop stores the returned argument as one entry and resumes after the
returned index, so the absorbed tokens are neither stored nor read as flags. -/
theorem C7_quote_joining (argv : List Str) (i : Nat) (t0 : Str)
    (h0 : argv[i + 1]? = some t0) :
    (t0.head? = some '"' → t0.getLast? ≠ some '"' →
      (∀ (pre : List Str) (tk : Str) (post : List Str),
        argv.drop (i + 2) = pre ++ tk :: post →
        (∀ t ∈ pre, t ≠ [] ∧ t.getLast? ≠ some '"') → tk.getLast? = some '"' →
        parseArgument t0 (i + 1) argv
          = some (t0.drop 1 ++ spaced pre ++ ' ' :: tk.dropLast, i + 1 + pre.length + 1)) ∧
      ((∀ t ∈ argv.drop (i + 2), t ≠ [] ∧ t.getLast? ≠ some '"') →
        parseArgument t0 (i + 1) argv
          = some (t0.drop 1 ++ spaced (argv.drop (i + 2)), argv.length - 1))) ∧
    (t0 ≠ [] → ¬ (t0.head? = some '"' ∧ t0.getLast? ≠ some '"') →
      parseArgument t0 (i + 1) argv = some (t0, i + 1)) ∧
    (∀ (fuel : Nat) (args : List Str) (a : Str) (i' : Nat), isFlag t0 = false →
      parseArgument t0 (i + 1) argv = some (a, i') →
      collectArgs argv (fuel + 1) args i = collectArgs argv fuel (args ++ [a]) i') := by
  have hlt : i + 1 < argv.length := (List.getElem?_eq_some.1 h0).1
  refine ⟨?_, ?_, ?_⟩
  · intro hh hl
    rw [parseArgument_quoted hh hl]
    constructor
    · intro pre tk post hd hpre hk
      have hlen : pre.length + 1 ≤ argv.length := by
        have := congrArg List.length hd
        simp only [List.length_drop, List.length_append, List.length_cons] at this
        omega
      exact parseArgumentLoop_found argv tk post hk pre _ _ _ hd hpre hlen
    · intro hrest
      have hlen : (argv.drop (i + 2)).length + 1 ≤ argv.length := by
        simp only [List.length_drop]; omega
      rw [parseArgumentLoop_all argv _ _ _ _ rfl hrest hlen]
      simp only [List.length_drop, Option.some.injEq, Prod.mk.injEq, true_and]
      omega
  · intro hne hv
    exact parseArgument_verbatim hne hv _ _
  · intro fuel args a i' hnf hpa
    simp [collectArgs, hlt, h0, hnf, hpa]

/-- C7 at `["prog","--v","\"a","b\"","c"]`: the token at index 2 opens a phrase
that the token at index 3 closes; the argument is `a b` and the index moves
to 3. -/
theorem C7_quote_joining_witness :
    parseArgument "\"a".toList 2 quotedArgv = some ("a b".toList, 3) ∧
    (Parse sumHash flagRegistry quotedArgv).map (fun r => (r.1.m_Options.map Opt.m_Args, r.2))
      = some ([["a b".toList, "c".toList]], []) ∧
    (("\"a".toList.head? = some '"' → "\"a".toList.getLast? ≠ some '"' →
      (∀ (pre : List Str) (tk : Str) (post : List Str),
        quotedArgv.drop (1 + 2) = pre ++ tk :: post →
        (∀ t ∈ pre, t ≠ [] ∧ t.getLast? ≠ some '"') → tk.getLast? = some '"' →
        parseArgument "\"a".toList (1 + 1) quotedArgv
          = some ("\"a".toList.drop 1 ++ spaced pre ++ ' ' :: tk.dropLast,
              1 + 1 + pre.length + 1)) ∧
      ((∀ t ∈ quotedArgv.drop (1 + 2), t ≠ [] ∧ t.getLast? ≠ some '"') →
        parseArgument "\"a".toList (1 + 1) quotedArgv
          = some ("\"a".toList.drop 1 ++ spaced (quotedArgv.drop (1 + 2)),
              quotedArgv.length - 1))) ∧
    ("\"a".toList ≠ [] → ¬ ("\"a".toList.head? = some '"' ∧ "\"a".toList.getLast? ≠ some '"') →
      parseArgument "\"a".toList (1 + 1) quotedArgv = some ("\"a".toList, 1 + 1)) ∧
    (∀ (fuel : Nat) (args : List Str) (a : Str) (i' : Nat), isFlag "\"a".toList = false →
      parseArgument "\"a".toList (1 + 1) quotedArgv = some (a, i') →
      collectArgs quotedArgv (fuel + 1) args 1
        = collectArgs quotedArgv fuel (args ++ [a]) i')) :=
  ⟨by decide, by decide, C7_quote_joining quotedArgv 1 "\"a".toList (by decide)⟩

/-- C9: if `Parse` of a vector succeeds on the registry with its arguments
cleared and leaves option `k` with the list `N`, then `Parse` of the same vector
on the registry itself succeeds and leaves option `k` with its former list
followed by `N`; and whatever `Parse` returns, the list that an option held
before the call begins the list it holds after the call. -/
theorem C9_reparse_appends (hash : Str → Nat) (p : parser) (argv : List Str) :
    (∀ pc : parser, Parse hash (clearArgs p) argv = some (pc, []) →
      ∃ p', Parse hash p argv = some (p', []) ∧
        p'.m_Options.length = p.m_Options.length ∧
        ∀ (k : Nat) (o n : Opt), p.m_Options[k]? = some o → pc.m_Options[k]? = some n →
          ∃ o', p'.m_Options[k]? = some o' ∧ o'.m_Args = o.m_Args ++ n.m_Args) ∧
    (∀ (p' : parser) (e : error), Parse hash p argv = some (p', e) →
      ∀ (k : Nat) (o : Opt), p.m_Options[k]? = some o →
        ∃ o', p'.m_Options[k]? = some o' ∧ o.m_Args <+: o'.m_Args) := by
  constructor
  · intro pc hP
    obtain ⟨hrun, hreq⟩ := Parse_success hP
    obtain ⟨p', hrun', hsh⟩ := hrun.shifted_run rfl (Shifted.init p argv)
    have hs := (scan_iff_run hash p argv _ _).2 hrun'
    have hreq' : requiredLoop p'.m_Options = [] := by
      rw [requiredLoop_eq_nil] at hreq ⊢
      intro o' ho' hr
      obtain ⟨k, hk⟩ := List.mem_iff_getElem?.1 ho'
      have hlt : k < pc.m_Options.length := by
        rw [← hsh.2.2.1]; exact (List.getElem?_eq_some.1 hk).1
      have hn := hsh.2.2.2 k _ (List.getElem?_eq_getElem hlt)
      rw [hk] at hn
      cases hn
      have := hreq _ (List.getElem_mem hlt) hr
      simp only [ne_eq, List.append_eq_nil, not_and]
      exact fun _ => this
    have hlen : p'.m_Options.length = p.m_Options.length := by
      rw [hrun'.ext_run.2.2.1, Ext.setProgramName_options]
    refine ⟨p', by simp [Parse, hs, hreq'], hlen, ?_⟩
    intro k o n ho hn
    have := hsh.2.2.2 k n hn
    exact ⟨_, this, by simp [ho]⟩
  · intro p' e hP k o ho
    obtain ⟨r, hrun⟩ := Parse_run hP
    obtain ⟨ex, hex⟩ := hrun.ext_run.2.2.2 k o (by rw [Ext.setProgramName_options]; exact ho)
    exact ⟨_, hex, List.prefix_append _ _⟩

/-- C9 at the example: the registry that `Example` has parsed into is parsed
into a second time, and every list doubles. -/
theorem C9_reparse_appends_witness :
    Parse sumHash (clearArgs exampleParsed) exampleArgv
      = some (exampleParsed, []) ∧
    (Parse sumHash exampleParsed exampleArgv).map
        (fun r => (r.1.m_Options.map (fun o => o.m_Args.length), r.2))
      = some ([0, 2, 2, 0, 2], []) ∧
    ∃ p', Parse sumHash exampleParsed exampleArgv = some (p', []) ∧
      p'.m_Options.length = exampleParsed.m_Options.length ∧
      ∀ (k : Nat) (o n : Opt), exampleParsed.m_Options[k]? = some o →
        exampleParsed.m_Options[k]? = some n →
        ∃ o', p'.m_Options[k]? = some o' ∧ o'.m_Args = o.m_Args ++ n.m_Args :=
  ⟨by decide, by decide,
   (C9_reparse_appends sumHash exampleParsed exampleArgv).1 exampleParsed (by decide)⟩

/-- C10, evaluated: for the registry that declares the option `v`, not
required, `minArgs = 0`, parsing `["prog","--v"]` twice in succession returns
the empty error both times, and `hasOption(v)` afterwards is `false`, not
`true`: the argument list of `v` is still empty. -/
theorem C10_zero_arg_flag_twice :
    (Parse sumHash flagRegistry flagArgv).bind
        (fun r1 => (Parse sumHash r1.1 flagArgv).map
          (fun r2 => (r1.2, r2.2, hasOption r2.1 flagHandle, getOptionArgCount r2.1 flagHandle)))
      = some ([], [], some false, some 0) := by
  decide

/-- C11: for a valid handle, `hasOption` is true exactly when
`getOptionArgCount` is not zero.  Consequently, starting from empty argument
lists, after parsing a vector in which every flag token resolving to option `k`
is followed by a flag token or by the end of the vector, `hasOption` of `k` is
false and its list is empty, and the same holds after parsing the vector with
those flag tokens removed. -/
theorem C11_has_option_iff_count (hash : Str → Nat) (p : parser) :
    (∀ h : handle, 0 ≤ h.m_Value → h.m_Value.toNat < p.m_Options.length →
      ∃ (b : Bool) (c : Nat), hasOption p h = some b ∧ getOptionArgCount p h = some c ∧
        (b = true ↔ c ≠ 0)) ∧
    (∀ (argv : List Str) (k : Nat), (∀ o ∈ p.m_Options, o.m_Args = []) →
      k < p.m_Options.length → BareFlagsOf hash p k argv 1 →
      (∀ (p' : parser) (e : error), Parse hash p argv = some (p', e) →
        hasOption p' ⟨(k : Int)⟩ = some false ∧ getOptionArgCount p' ⟨(k : Int)⟩ = some 0) ∧
      (∀ (p2 : parser) (e2 : error),
        Parse hash p (withoutFlagsOf hash p k argv) = some (p2, e2) →
        hasOption p2 ⟨(k : Int)⟩ = some false ∧ getOptionArgCount p2 ⟨(k : Int)⟩ = some 0)) := by
  constructor
  · intro h h0 hlt
    have hget : p.m_Options[h.m_Value.toNat]? = some p.m_Options[h.m_Value.toNat] :=
      List.getElem?_eq_getElem hlt
    refine ⟨!(p.m_Options[h.m_Value.toNat]).m_Args.isEmpty,
      (p.m_Options[h.m_Value.toNat]).m_Args.length, ?_, ?_, ?_⟩
    · simp [hasOption, Int.not_lt.2 h0, hget]
    · simp [getOptionArgCount, Int.not_lt.2 h0, hget]
    · cases (p.m_Options[h.m_Value.toNat]).m_Args <;> simp
  · intro argv k hempty hk hbare
    have key : ∀ (av : List Str), BareFlagsOf hash p k av 1 →
        ∀ (p' : parser) (e : error), Parse hash p av = some (p', e) →
        hasOption p' ⟨(k : Int)⟩ = some false ∧
          getOptionArgCount p' ⟨(k : Int)⟩ = some 0 := by
      intro av hb p' e hP
      obtain ⟨r, hrun⟩ := Parse_run hP
      have hopts := Ext.setProgramName_options p av
      have hb' : BareFlagsOf hash (setProgramName p av) k av 1 :=
        hb.mono (Nat.le_refl _) (by rw [hopts])
      have hsame := hrun.bare_unchanged k hb'
      rw [hopts, List.getElem?_eq_getElem hk] at hsame
      have he : (p.m_Options[k]).m_Args = [] := hempty _ (List.getElem_mem hk)
      simp [hasOption, getOptionArgCount, hsame, he]
    exact ⟨key argv hbare, key _ (withoutFlagsOf_bare hash p k argv)⟩

/-- C11 at the example: `-v` is followed by `--scale`, and option `v` (index 3)
is not seen by `hasOption` after the parse. -/
theorem C11_has_option_iff_count_witness :
    hasOption exampleParsed ⟨3⟩ = some false ∧
    (∀ (p' : parser) (e : error), Parse sumHash exampleRegistry exampleArgv = some (p', e) →
      hasOption p' ⟨((3 : Nat) : Int)⟩ = some false ∧
        getOptionArgCount p' ⟨((3 : Nat) : Int)⟩ = some 0) :=
  ⟨by decide,
   ((C11_has_option_iff_count sumHash exampleRegistry).2 exampleArgv 3 (by decide) (by decide)
      (by
        intro j t hj ht hf hres
        have hlt : j < 8 := (List.getElem?_eq_some.1 ht).1
        have h5 : j = 5 := by
          by_contra hne
          have hcases : j = 1 ∨ j = 2 ∨ j = 3 ∨ j = 4 ∨ j = 6 ∨ j = 7 := by omega
          rcases hcases with rfl | rfl | rfl | rfl | rfl | rfl <;>
            (simp only [exampleArgv, List.getElem?_cons_succ, List.getElem?_cons_zero,
              Option.some.injEq] at ht
             subst ht
             first
               | exact absurd hf (by decide)
               | exact absurd hres (by decide))
        subst h5
        exact Or.inr ⟨"--scale".toList, by decide, by decide⟩)).1⟩

/-- C12: for a valid handle and every index `i`, `getOptionArgAs<string>`
returns the error `Option - <name> does not have argument <i>` exactly when `i`
is at least `getOptionArgCount`; otherwise it returns the `i`-th collected
argument unchanged; and the call leaves the registry as it was. -/
theorem C12_get_option_arg_string (p : parser) (h : handle) (i : Nat)
    (h0 : 0 ≤ h.m_Value) (hlt : h.m_Value.toNat < p.m_Options.length) :
    ∃ (opt : Opt) (c : Nat), p.m_Options[h.m_Value.toNat]? = some opt ∧
      getOptionArgCount p h = some c ∧
      (getOptionArgAs_string p h i
          = some (p, Sum.inr ("Option - ".toList ++ opt.m_Name
              ++ " does not have argument ".toList ++ (Nat.repr i).toList)) ↔ c ≤ i) ∧
      (i < c → ∃ value, opt.m_Args[i]? = some value ∧
        getOptionArgAs_string p h i = some (p, Sum.inl value)) ∧
      (∀ (p' : parser) (r : Str ⊕ error), getOptionArgAs_string p h i = some (p', r) →
        p' = p) := by
  have hget : p.m_Options[h.m_Value.toNat]? = some p.m_Options[h.m_Value.toNat] :=
    List.getElem?_eq_getElem hlt
  refine ⟨p.m_Options[h.m_Value.toNat], (p.m_Options[h.m_Value.toNat]).m_Args.length, hget,
    by simp [getOptionArgCount, Int.not_lt.2 h0, hget], ?_, ?_, ?_⟩
  · by_cases hi : (p.m_Options[h.m_Value.toNat]).m_Args.length ≤ i
    · simp [getOptionArgAs_string, getOptionArgAs, Int.not_lt.2 h0, hget, hi, noArgumentError]
    · have hv : (p.m_Options[h.m_Value.toNat]).m_Args[i]?
          = some ((p.m_Options[h.m_Value.toNat]).m_Args[i]) :=
        List.getElem?_eq_getElem (by omega)
      simp [getOptionArgAs_string, getOptionArgAs, Int.not_lt.2 h0, hget, hi, hv,
        convertValue_string]
  · intro hi
    have hv : (p.m_Options[h.m_Value.toNat]).m_Args[i]?
        = some ((p.m_Options[h.m_Value.toNat]).m_Args[i]) :=
      List.getElem?_eq_getElem hi
    refine ⟨_, hv, ?_⟩
    simp [getOptionArgAs_string, getOptionArgAs, Int.not_lt.2 h0, hget, Nat.not_le.2 hi, hv,
      convertValue_string]
  · intro p' r hr
    simp only [getOptionArgAs_string, getOptionArgAs, Int.not_lt.2 h0, ↓reduceIte, hget] at hr
    split at hr
    · simp only [Option.some.injEq, Prod.mk.injEq] at hr
      exact hr.1.symm
    · split at hr
      · exact absurd hr (by simp)
      · simp only [Option.some.injEq, Prod.mk.injEq] at hr
        exact hr.1.symm

/-- C12 at the example: argument 0 of `input` is `data.txt`, and argument 1 does
not exist. -/
theorem C12_get_option_arg_string_witness :
    getOptionArgAs_string exampleParsed inputHandle 0
      = some (exampleParsed, Sum.inl "data.txt".toList) ∧
    getOptionArgAs_string exampleParsed inputHandle 1
      = some (exampleParsed, Sum.inr "Option - input does not have argument 1".toList) ∧
    ∃ (opt : Opt) (c : Nat), exampleParsed.m_Options[inputHandle.m_Value.toNat]? = some opt ∧
      getOptionArgCount exampleParsed inputHandle = some c ∧
      (getOptionArgAs_string exampleParsed inputHandle 1
          = some (exampleParsed, Sum.inr ("Option - ".toList ++ opt.m_Name
              ++ " does not have argument ".toList ++ (Nat.repr 1).toList)) ↔ c ≤ 1) ∧
      (1 < c → ∃ value, opt.m_Args[1]? = some value ∧
        getOptionArgAs_string exampleParsed inputHandle 1 = some (exampleParsed, Sum.inl value)) ∧
      (∀ (p' : parser) (r : Str ⊕ error),
        getOptionArgAs_string exampleParsed inputHandle 1 = some (p', r) →
        p' = exampleParsed) :=
  ⟨by decide, by decide,
   C12_get_option_arg_string exampleParsed inputHandle 1 (by decide) (by decide)⟩

/-- C14, as stated, fails: parsing `["prog","--input","a","--unknown"]`
against the example registry returns the non-empty error
`Unknown option - unknown`, and the list of `input`, empty before the call,
holds `a` after it. -/
theorem C14_failed_parse_counterexample :
    (exampleRegistry.m_Options.map Opt.m_Args) = [[], [], [], [], []] ∧
    (Parse sumHash exampleRegistry partialArgv).map
        (fun r => (r.1.m_Options.map Opt.m_Args, r.2))
      = some ([[], ["a".toList], [], [], []], "Unknown option - unknown".toList) := by
  decide

/-- C14, amended: a failed parse keeps what it stored before the failure.  If
`Parse` returns a non-empty error, every option keeps its declaration and the
list it held before the call begins the list it holds after the call.  For a
vector without empty tokens and without tokens that begin with a double quote,
the list of every option after the call is its list before the call followed by
the runs of non-flag tokens that follow the flag tokens resolving to it among
the tokens of index 1 up to `m`, where `m` is the index of the flag token that
is not declared (error `Unknown option - <name>`), or the end of the run that
follows the flag token whose option is left with fewer than `minArgs` arguments
(error `Option - <name> requires at least <minArgs> arguments`), or the length
of the vector when the scan was completed and a required option has an empty
list (error `Required option - <name> is missing`).  The options are identical
to those before the call when the error is the unknown-option error raised at
the first flag token of the vector. -/
theorem C14_failed_parse_keeps_stored (hash : Str → Nat) (p : parser) (argv : List Str)
    (p' : parser) (e : error) (hP : Parse hash p argv = some (p', e)) (he : e ≠ []) :
    (∀ (k : Nat) (o : Opt), p.m_Options[k]? = some o →
      ∃ o', p'.m_Options[k]? = some o' ∧ o.m_Args <+: o'.m_Args ∧ decl o' = decl o) ∧
    ((∀ t ∈ argv, t ≠ []) → (∀ t ∈ argv, t.head? ≠ some '"') →
      ∃ m : Nat, m ≤ argv.length ∧
        (∀ (k : Nat) (o : Opt), p.m_Options[k]? = some o →
          ∃ o', p'.m_Options[k]? = some o' ∧
            o'.m_Args = o.m_Args ++ runsFor (resolvesTo hash p k) ((argv.take m).drop 1)) ∧
        ((m = argv.length ∧
            ∃ o ∈ p'.m_Options, o.m_isRequired = true ∧ o.m_Args = [] ∧
              e = "Required option - ".toList ++ o.m_Name ++ " is missing".toList) ∨
         (∃ t : Str, 1 ≤ m ∧ argv[m]? = some t ∧ isFlag t = true ∧
            findOption hash p (flagName t) = Sum.inr e ∧
            e = "Unknown option - ".toList ++ flagName t) ∨
         (∃ (j : Nat) (t : Str) (hd : handle) (o' : Opt), 1 ≤ j ∧ argv[j]? = some t ∧
            isFlag t = true ∧ findOption hash p (flagName t) = Sum.inl hd ∧
            p'.m_Options[hd.m_Value.toNat]? = some o' ∧ o'.m_Args.length < o'.m_minArgs ∧
            e = "Option - ".toList ++ flagName t ++ " requires at least ".toList
                ++ (Nat.repr o'.m_minArgs).toList ++ " arguments".toList ∧
            m = j + 1 + ((argv.drop (j + 1)).takeWhile notFlag).length))) ∧
    (∀ (j : Nat) (t : Str), 1 ≤ j → argv[j]? = some t → isFlag t = true →
      (∀ (i : Nat) (u : Str), 1 ≤ i → i < j → argv[i]? = some u → isFlag u = false) →
      (∀ o ∈ p.m_Options, o.m_Name ≠ flagName t) →
      e = "Unknown option - ".toList ++ flagName t ∧ p'.m_Options = p.m_Options) := by
  have hopts := Ext.setProgramName_options p argv
  refine ⟨?_, ?_, ?_⟩
  · intro k o ho
    obtain ⟨r, hrun⟩ := Parse_run hP
    obtain ⟨ex, hex⟩ := hrun.ext_run.2.2.2 k o (by rw [hopts]; exact ho)
    exact ⟨_, hex, List.prefix_append _ _, rfl⟩
  · intro hne hq
    have hpl := PlainFrom1.of_all hne hq
    have hres : ∀ k, resolvesTo hash (setProgramName p argv) k = resolvesTo hash p k :=
      fun k => resolvesTo_congr hash (by rw [hopts]) k
    have hfo : ∀ flag, findOption hash (setProgramName p argv) flag = findOption hash p flag :=
      fun flag => findOption_congr hash (by rw [hopts]) flag
    simp only [Parse] at hP
    split at hP
    · exact absurd hP (by simp)
    · rename_i q E hs
      simp only [Option.some.injEq, Prod.mk.injEq] at hP
      obtain ⟨rfl, rfl⟩ := hP
      have hrun := (scan_iff_run hash p argv _ _).1 hs
      obtain ⟨j, t, m, hij, ht, hft, hjm, hml, hlists, hcase⟩ :=
        hrun.args_plain_fail hpl E rfl
      refine ⟨m, hml, ?_, ?_⟩
      · intro k o ho
        obtain ⟨o', ho', hargs⟩ := hlists k o (by rw [hopts]; exact ho)
        exact ⟨o', ho', by rw [hargs, hres]⟩
      · rcases hcase with ⟨hfind, hm⟩ | ⟨hd, o', hfind, ho', hlt, hE, hm⟩
        · subst hm
          rw [hfo] at hfind
          exact Or.inr (Or.inl ⟨t, hij, ht, hft, hfind, (findOption_inr hfind).1⟩)
        · rw [hfo] at hfind
          exact Or.inr (Or.inr ⟨j, t, hd, o', hij, ht, hft, hfind, ho', hlt, hE, hm⟩)
    · rename_i q hs
      simp only [Option.some.injEq, Prod.mk.injEq] at hP
      obtain ⟨rfl, rfl⟩ := hP
      have hrun := (scan_iff_run hash p argv _ _).1 hs
      refine ⟨argv.length, le_refl _, ?_, Or.inl ⟨rfl, ?_⟩⟩
      · intro k o ho
        obtain ⟨o', ho', hargs⟩ := hrun.args_plain hpl rfl k o (by rw [hopts]; exact ho)
        exact ⟨o', ho', by rw [hargs, hres, List.take_length]⟩
      · obtain ⟨k, o, hk, hreq, hempty, _, htext⟩ := requiredLoop_ne_nil _ he
        exact ⟨o, List.getElem?_mem hk, hreq, hempty, htext⟩
  · intro j t hj ht hflag hfirst hunk
    have hfind : findOption hash (setProgramName p argv) (flagName t)
        = Sum.inr ("Unknown option - ".toList ++ flagName t) :=
      findOption_unknown hash _ _ (by rw [Ext.setProgramName_options]; exact hunk)
    have hjlt : j < argv.length := (List.getElem?_eq_some.1 ht).1
    have hreach := Reach.first_flag hash argv p j hj (by omega) hfirst
    have hres := hreach.parse_halt (Halt.unknown ht hflag hfind)
    rw [hres] at hP
    simp only [Option.some.injEq, Prod.mk.injEq] at hP
    exact ⟨hP.2.symm, by rw [← hP.1, Ext.setProgramName_options]⟩

set_option maxRecDepth 100000 in
/-- C14 at the vector of the counterexample: the parse fails at the unknown flag
at index 3, and `input` holds the run `a` of the tokens before it. -/
theorem C14_failed_parse_keeps_stored_witness :
    Parse sumHash exampleRegistry partialArgv
      = some (partialParsed, "Unknown option - unknown".toList) ∧
    "Unknown option - unknown".toList ≠ [] ∧
    (∃ m : Nat, m ≤ partialArgv.length ∧
        (∀ (k : Nat) (o : Opt), exampleRegistry.m_Options[k]? = some o →
          ∃ o', partialParsed.m_Options[k]? = some o' ∧
            o'.m_Args = o.m_Args
              ++ runsFor (resolvesTo sumHash exampleRegistry k) ((partialArgv.take m).drop 1)) ∧
        ((m = partialArgv.length ∧
            ∃ o ∈ partialParsed.m_Options, o.m_isRequired = true ∧ o.m_Args = [] ∧
              "Unknown option - unknown".toList
                = "Required option - ".toList ++ o.m_Name ++ " is missing".toList) ∨
         (∃ t : Str, 1 ≤ m ∧ partialArgv[m]? = some t ∧ isFlag t = true ∧
            findOption sumHash exampleRegistry (flagName t)
              = Sum.inr "Unknown option - unknown".toList ∧
            "Unknown option - unknown".toList = "Unknown option - ".toList ++ flagName t) ∨
         (∃ (j : Nat) (t : Str) (hd : handle) (o' : Opt), 1 ≤ j ∧ partialArgv[j]? = some t ∧
            isFlag t = true ∧ findOption sumHash exampleRegistry (flagName t) = Sum.inl hd ∧
            partialParsed.m_Options[hd.m_Value.toNat]? = some o' ∧
            o'.m_Args.length < o'.m_minArgs ∧
            "Unknown option - unknown".toList
              = "Option - ".toList ++ flagName t ++ " requires at least ".toList
                ++ (Nat.repr o'.m_minArgs).toList ++ " arguments".toList ∧
            m = j + 1 + ((partialArgv.drop (j + 1)).takeWhile notFlag).length))) ∧
    runsFor (resolvesTo sumHash exampleRegistry 1) ((partialArgv.take 3).drop 1)
      = ["a".toList] :=
  ⟨by decide, by decide,
   (C14_failed_parse_keeps_stored sumHash exampleRegistry partialArgv partialParsed
      "Unknown option - unknown".toList (by decide) (by decide)).2.1 (by decide) (by decide),
   by decide⟩

/-- C15: after `clearArgs` every argument list is empty and `hasOption` is
false for every valid handle, while the number and order of the options, the
key, name, description, required flag and `minArgs` of each option, the groups
and the program name are unchanged. -/
theorem C15_clearArgs_frame (p : parser) :
    (∀ o ∈ (clearArgs p).m_Options, o.m_Args = []) ∧
    (∀ h : handle, 0 ≤ h.m_Value → h.m_Value.toNat < p.m_Options.length →
      hasOption (clearArgs p) h = some false ∧ getOptionArgCount (clearArgs p) h = some 0) ∧
    (clearArgs p).m_Options.length = p.m_Options.length ∧
    (∀ (k : Nat) (o : Opt), p.m_Options[k]? = some o →
      ∃ o', (clearArgs p).m_Options[k]? = some o' ∧ o'.m_Key = o.m_Key ∧
        o'.m_Name = o.m_Name ∧ o'.m_Description = o.m_Description ∧
        o'.m_isRequired = o.m_isRequired ∧ o'.m_minArgs = o.m_minArgs) ∧
    (clearArgs p).m_Groups = p.m_Groups ∧
    (clearArgs p).m_programName = p.m_programName := by
  refine ⟨?_, ?_, by simp [clearArgs], ?_, rfl, rfl⟩
  · intro o ho
    simp only [clearArgs, List.mem_map] at ho
    obtain ⟨o0, _, rfl⟩ := ho
    rfl
  · intro h h0 hlt
    have hget : p.m_Options[h.m_Value.toNat]? = some p.m_Options[h.m_Value.toNat] :=
      List.getElem?_eq_getElem hlt
    simp [hasOption, getOptionArgCount, clearArgs, Int.not_lt.2 h0, hget]
  · intro k o ho
    exact ⟨{ o with m_Args := [] }, by simp [clearArgs, ho], rfl, rfl, rfl, rfl, rfl⟩

/-- C16: on a registry with `n` options and `g` groups, `addOption` returns the
handle `n`, keeps the `n` options as they are and appends one with the given
flag, description and required flag, `minArgs` converted to `size_t`, and no
arguments; a group handle in `0 .. g - 1` gets handle `n` appended to that
group's list, all other groups staying as they are, and any other group handle
changes no group.  The next call returns `n + 1`, and every earlier index
denotes the option it denoted before. -/
theorem C16_addOption_frame (hash : Str → Nat) (p : parser) (flag description : Str)
    (required : Bool) (minArgs : Int) (group : group_handle) :
    (addOption hash p flag description required minArgs group).2
      = ⟨(p.m_Options.length : Int)⟩ ∧
    (addOption hash p flag description required minArgs group).1.m_Options
      = p.m_Options ++ [{ m_Key := hash flag, m_Name := flag, m_Description := description,
                          m_isRequired := required, m_minArgs := toSizeT minArgs,
                          m_Args := [] }] ∧
    (0 ≤ group.m_Value ∧ group.m_Value < (p.m_Groups.length : Int) →
      (addOption hash p flag description required minArgs group).1.m_Groups.length
        = p.m_Groups.length ∧
      ∀ (gi : Nat) (grp : groups), p.m_Groups[gi]? = some grp →
        (addOption hash p flag description required minArgs group).1.m_Groups[gi]?
          = some (if group.m_Value.toNat = gi
              then { grp with m_Options := grp.m_Options ++ [⟨(p.m_Options.length : Int)⟩] }
              else grp)) ∧
    (¬ (0 ≤ group.m_Value ∧ group.m_Value < (p.m_Groups.length : Int)) →
      (addOption hash p flag description required minArgs group).1.m_Groups = p.m_Groups) ∧
    (addOption hash p flag description required minArgs group).1.m_programName
      = p.m_programName ∧
    (∀ (k : Nat) (o : Opt), p.m_Options[k]? = some o →
      (addOption hash p flag description required minArgs group).1.m_Options[k]? = some o) ∧
    (∀ (flag2 description2 : Str) (required2 : Bool) (minArgs2 : Int) (group2 : group_handle),
      (addOption hash (addOption hash p flag description required minArgs group).1
          flag2 description2 required2 minArgs2 group2).2
        = ⟨(p.m_Options.length : Int) + 1⟩) := by
  have hopts := addOption_options hash p flag description required minArgs group
  refine ⟨addOption_handle _ _ _ _ _ _ _, hopts, ?_, addOption_groups_invalid _ _ _ _ _ _ _,
    addOption_programName _ _ _ _ _ _ _, ?_, ?_⟩
  · intro hv
    rw [addOption_groups_valid hash p flag description required minArgs group hv]
    refine ⟨List.length_modify _ _ _, ?_⟩
    intro gi grp hgrp
    rw [List.getElem?_modify, hgrp]
    by_cases hg : group.m_Value.toNat = gi <;> simp [hg]
  · intro k o ho
    rw [hopts, List.getElem?_append_left (List.getElem?_eq_some.1 ho).1]
    exact ho
  · intro flag2 description2 required2 minArgs2 group2
    rw [addOption_handle, hopts]
    simp

/-- C19, evaluated: against the registry that declares `input`, required,
`minArgs = 1`, the vector `["prog","--input","-"]` does not parse with the empty
error: `isFlag` takes the lone dash for a flag, so no argument is collected for
`input`, `Parse` returns the insufficient-arguments error, and
`getOptionArgAs<string>(input, 0)` afterwards returns the missing-argument
error, not `-`. -/
theorem C19_lone_dash_argument :
    isFlag "-".toList = true ∧
    (Parse sumHash inputRegistry dashArgv).map
        (fun r => (r.1.m_Options.map Opt.m_Args, r.2,
          (getOptionArgAs_string r.1 ⟨0⟩ 0).map Prod.snd))
      = some ([[]], "Option - input requires at least 1 arguments".toList,
          some (Sum.inr "Option - input does not have argument 0".toList)) := by
  decide

/-- C20, as stated, fails: the command line `p --v ` followed by one NUL
character is tokenized into three non-empty tokens, but the C string of the
third is empty; it follows the flag `--v` (declared, `minArgs = 0`), is consumed
as an argument, and `parseArgument` reads the first character of an empty
token. -/
theorem C20_reads_in_bounds_counterexample :
    tokenize nulLine = some ["p".toList, "--v".toList, [Char.ofNat 0]] ∧
    (["p".toList, "--v".toList, [Char.ofNat 0]].map c_str)
      = ["p".toList, "--v".toList, []] ∧
    isFlag [] = false ∧
    parseArgument [] 2 ["p".toList, "--v".toList, []] = none ∧
    ParseString sumHash flagRegistry nulLine = none := by
  decide

/-- C20, amended: every token that the string tokenizer produces is non-empty,
and the tokenizer returns for every string.  For every registry `Parse(s)`
returns for every command line `s` that holds no NUL character, and
`Parse(argc, argv)` returns for every vector without an empty token at index 1
or later; a returned result means that every first-character and last-character
read was on a non-empty token and every index read of `argv` was below `argc`.
An empty token is not a flag, and `parseArgument` on it reads outside the
token. -/
theorem C20_reads_in_bounds (hash : Str → Nat) (p : parser) :
    (∀ s : Str, tokenize s = some (tokensSpec s) ∧ ∀ t ∈ tokensSpec s, t ≠ []) ∧
    (∀ s : Str, Char.ofNat 0 ∉ s → ∃ p' e, ParseString hash p s = some (p', e)) ∧
    (∀ argv : List Str, (∀ (i : Nat) (u : Str), 1 ≤ i → argv[i]? = some u → u ≠ []) →
      ∃ p' e, Parse hash p argv = some (p', e)) ∧
    (isFlag [] = false ∧ ∀ (i : Nat) (argv : List Str), parseArgument [] i argv = none) := by
  refine ⟨fun s => ⟨tokenize_eq s, fun t ht => (tokensSpec_token s t ht).1⟩, ?_,
    fun argv hne => Parse_total hash p hne, rfl, fun i argv => rfl⟩
  intro s hnul
  have hmap : (tokensSpec s).map c_str = tokensSpec s := by
    conv_rhs => rw [← List.map_id (tokensSpec s)]
    apply List.map_congr_left
    intro t ht
    exact c_str_eq_self t (fun hc => hnul (mem_of_mem_tokensSpec s t _ ht hc))
  have hne : NonEmptyFrom1 (tokensSpec s) := by
    intro i u _ hu
    exact (tokensSpec_token s u (List.getElem?_mem hu)).1
  obtain ⟨p', e, hP⟩ := Parse_total hash p hne
  exact ⟨p', e, by simp [ParseString, tokenize_eq, hmap, hP]⟩


set_option maxRecDepth 100000 in
/-- C18, as stated, fails: the entry of the example's option `input`
(required, `minArgs = 1`, a description of three lines) has the first line
`    -input, --input <args>    Input file path`, without suffix; the suffixes
` (required) (min 1 args)` stand at the end of the second continuation line. -/
theorem C18_help_entry_suffixes_counterexample :
    exampleRegistry.m_Options[1]? = some exampleInput ∧
    printOption exampleInput "    ".toList
      = some ("    -input, --input <args>    Input file path\n".toList
          ++ "                              Specify a valid file or use - for stdin\n".toList
          ++ ("                              ".toList
              ++ "Default is stdin if omitted (required) (min 1 args)\n".toList)) ∧
    "    -input, --input <args>    Input file path".toList
      ≠ optText exampleInput "    ".toList
          ++ "Input file path (required) (min 1 args)".toList := by
  decide

/-- C18, amended: the left column of an entry has the fixed width, and the
entry is the lines of the description followed by the suffixes: the suffixes
` (required)` and ` (min N args)` extend the last line of the description.  The
first line of the entry is the left column followed by the first line of the
description; the suffixes follow on that line exactly when the description
holds no newline, and otherwise stand at the end of the last continuation
line. -/
theorem C18_help_entry_suffixes (opt : Opt) (pfx : Str) :
    (optText opt pfx).length = 30 ∧
    printOption opt pfx
      = some (renderLines (optText opt pfx) true (linesOf (opt.m_Description ++ suffixText opt))) ∧
    linesOf (opt.m_Description ++ suffixText opt)
      = (linesOf opt.m_Description).dropLast
          ++ [(linesOf opt.m_Description).getLast?.getD [] ++ suffixText opt] ∧
    ('\n' ∉ opt.m_Description →
      printOption opt pfx
        = some (optText opt pfx ++ opt.m_Description ++ suffixText opt ++ ['\n'])) ∧
    ('\n' ∈ opt.m_Description →
      ∃ rest, printOption opt pfx
        = some (optText opt pfx ++ opt.m_Description.takeWhile (fun c => c != '\n')
            ++ '\n' :: rest)) := by
  have hp : printOption opt pfx
      = some (renderLines (optText opt pfx) true (linesOf (opt.m_Description ++ suffixText opt))) := by
    rw [printOption_eq, entrySpec, descText_eq]
  have hsuf : ∀ c ∈ suffixText opt, (c == '\n') = false := by
    intro c hc
    simp only [beq_eq_false_iff_ne, ne_eq]
    intro he
    exact newline_not_mem_suffixText opt (he ▸ hc)
  refine ⟨optText_length opt pfx, hp, splitOnP_append_no_sep _ _ hsuf _, ?_, ?_⟩
  · intro hno
    have hall : '\n' ∉ opt.m_Description ++ suffixText opt := by
      intro h
      rcases List.mem_append.1 h with h1 | h1
      · exact hno h1
      · exact newline_not_mem_suffixText opt h1
    rw [hp, linesOf_no_newline _ hall]
    simp [renderLines, List.append_assoc]
  · intro hin
    rw [hp, linesOf_eq]
    have hpred : (fun x : Char => !(x == '\n')) = (fun c => c != '\n') := rfl
    rw [hpred, takeWhile_append_of_mem _ _ hin]
    refine ⟨renderLines (optText opt pfx) false
      (match List.dropWhile (fun c => c != '\n') (opt.m_Description ++ suffixText opt) with
       | [] => []
       | _ :: r => linesOf r), ?_⟩
    simp [renderLines, List.append_assoc]

/-- C17: for every registry built from the empty one by `addGroup`,
`addOption`, `Parse` and `clearArgs` calls, with the record of which valid group
each option was registered with, the help text is the usage line and the line
`Options:`, then for each group in registration order its heading (a blank line,
the name with a colon, the description indented by two spaces) and the entries
of the options registered with it, in registration order, then the entries of
the options registered with no valid group, in registration order, under the
heading `Ungrouped Options`, which is written exactly when there is such an
option.  The heading of every group stands in the text directly before the
entries of its options.  Every option index stands in the index list of exactly
one of these sections, once, so every declared option gets exactly one entry. -/
theorem C17_help_lists_every_option (hash : Str → Nat) (p : parser) (a : List (Option Nat))
    (h : BuiltWith hash p a) :
    a.length = p.m_Options.length ∧
    (∀ gi : Nat, some gi ∈ a → gi < p.m_Groups.length) ∧
    printHelp p
      = some ("Usage: ".toList ++ p.m_programName
          ++ " [options] [positional arguments]\nOptions:\n".toList
          ++ groupsSpec p a p.m_Groups 0 ++ ungroupedSpec p a) ∧
    (∀ (gi : Nat) (group : groups), p.m_Groups[gi]? = some group →
      ∃ pre post : Str,
        printHelp p
          = some (pre
              ++ ("\n".toList ++ group.m_Name ++ ":\n  ".toList ++ group.m_Description
                  ++ "\n".toList)
              ++ entriesAt p "    ".toList (idxFrom (some gi) a 0) ++ post)) ∧
    (∀ (x : Option Nat) (k : Nat), k ∈ idxFrom x a 0 ↔ a[k]? = some x) ∧
    (∀ x : Option Nat, (idxFrom x a 0).Pairwise (fun k l => k < l)) ∧
    (none ∉ a → ungroupedSpec p a = []) ∧
    (none ∈ a →
      ungroupedSpec p a
        = "\nUngrouped Options:\n".toList ++ entriesAt p "  ".toList (idxFrom none a 0)) := by
  have hok := h.groupsOk
  have hhelp := printHelp_eq hok
  refine ⟨hok.1, hok.2.1, hhelp, ?_, fun x k => mem_idxFrom_zero x a k,
    fun x => (idxFrom_pairwise x a 0).1, ?_, ?_⟩
  · intro gi group hgi
    obtain ⟨pre, post, hsplit⟩ := groupsSpec_split p a p.m_Groups 0 gi group hgi
    refine ⟨"Usage: ".toList ++ p.m_programName
        ++ " [options] [positional arguments]\nOptions:\n".toList ++ pre,
      post ++ ungroupedSpec p a, ?_⟩
    rw [hhelp, helpSpec, hsplit, Nat.zero_add]
    simp [headingSpec, List.append_assoc]
  · intro hno
    simp [ungroupedSpec, idxFrom_eq_nil none a 0 hno]
  · intro hin
    obtain ⟨k, hk⟩ := List.mem_iff_getElem?.1 hin
    have hmem := (mem_idxFrom_zero none a k).2 hk
    have hne : idxFrom none a 0 ≠ [] := List.ne_nil_of_mem hmem
    simp [ungroupedSpec, hne]

set_option maxRecDepth 1000000 in
/-- C17 at the example: the registry of `Example` after its parse, with `h` and
`input` registered in group 0, `output` and `v` in group 1 and `scale` in no
group; the help text is the text that `Example` writes. -/
theorem C17_help_lists_every_option_witness :
    printHelp exampleParsed = some exampleHelp ∧
    exampleRecord.length = exampleParsed.m_Options.length ∧
    (∀ gi : Nat, some gi ∈ exampleRecord → gi < exampleParsed.m_Groups.length) ∧
    printHelp exampleParsed
      = some ("Usage: ".toList ++ exampleParsed.m_programName
          ++ " [options] [positional arguments]\nOptions:\n".toList
          ++ groupsSpec exampleParsed exampleRecord exampleParsed.m_Groups 0
          ++ ungroupedSpec exampleParsed exampleRecord) ∧
    (∀ (gi : Nat) (group : groups), exampleParsed.m_Groups[gi]? = some group →
      ∃ pre post : Str,
        printHelp exampleParsed
          = some (pre
              ++ ("\n".toList ++ group.m_Name ++ ":\n  ".toList ++ group.m_Description
                  ++ "\n".toList)
              ++ entriesAt exampleParsed "    ".toList (idxFrom (some gi) exampleRecord 0)
              ++ post)) ∧
    (∀ (x : Option Nat) (k : Nat), k ∈ idxFrom x exampleRecord 0 ↔ exampleRecord[k]? = some x) ∧
    (∀ x : Option Nat, (idxFrom x exampleRecord 0).Pairwise (fun k l => k < l)) ∧
    (none ∉ exampleRecord → ungroupedSpec exampleParsed exampleRecord = []) ∧
    (none ∈ exampleRecord →
      ungroupedSpec exampleParsed exampleRecord
        = "\nUngrouped Options:\n".toList
            ++ entriesAt exampleParsed "  ".toList (idxFrom none exampleRecord 0)) :=
  ⟨by decide,
   C17_help_lists_every_option sumHash exampleParsed exampleRecord
    (BuiltWith.parse exampleRegistry_builtWith
      (by decide : Parse sumHash exampleRegistry exampleArgv = some (exampleParsed, [])))⟩

/-- C13: `convertValue<int64_t>`, and with it `getOptionArgAs<int64_t>` on a
collected argument `s` at index `i` of an option, succeeds with the value `n`
exactly when `s`, apart from optional leading white space, is an optionally
signed run of one or more decimal digits that denotes `n`, with `n` in the range
of `int64_t`; in every other case it returns
`Failed to convert '<s>' to integer at argument <i> of -<flag>`.  The decimal
rendering of every `int64_t` value converts back to the value, and `2.5` gives
the conversion error. -/
theorem C13_int64_conversion (s flag : Str) (i : Nat) :
    (∀ n : Int, convertValue_int64 s flag i = Sum.inl n ↔ IsInt64Text s n) ∧
    ((∀ n : Int, ¬ IsInt64Text s n) →
      convertValue_int64 s flag i
        = Sum.inr ("Failed to convert '".toList ++ s ++ "' to integer at argument ".toList
            ++ (Nat.repr i).toList ++ " of -".toList ++ flag)) ∧
    (∀ n : Int, -(2 : Int) ^ 63 ≤ n → n < (2 : Int) ^ 63 →
      convertValue_int64 (renderInt n) flag i = Sum.inl n) ∧
    convertValue_int64 "2.5".toList flag i
      = Sum.inr ("Failed to convert '2.5' to integer at argument ".toList
          ++ (Nat.repr i).toList ++ " of -".toList ++ flag) ∧
    (∀ (p : parser) (h : handle) (opt : Opt), 0 ≤ h.m_Value →
      p.m_Options[h.m_Value.toNat]? = some opt → opt.m_Args[i]? = some s →
      getOptionArgAs_int64 p h i = some (p, convertValue_int64 s opt.m_Name i)) := by
  refine ⟨fun n => ⟨fun h => extractInt64_ok (convertValue_int64_inl h),
    fun h => convertValue_int64_of_text h flag i⟩, ?_, ?_, rfl, ?_⟩
  · intro hno
    cases hc : convertValue_int64 s flag i with
    | inl n => exact absurd (extractInt64_ok (convertValue_int64_inl hc)) (hno n)
    | inr e =>
      simp only [convertValue_int64] at hc
      split at hc
      · rw [← Sum.inr.inj hc]; rfl
      · cases hc
  · intro n hlo hhi
    exact convertValue_int64_of_text (isInt64Text_renderInt n hlo hhi) flag i
  · intro p h opt h0 hopt harg
    have hlt : i < opt.m_Args.length := (List.getElem?_eq_some.1 harg).1
    simp [getOptionArgAs_int64, getOptionArgAs, Int.not_lt.2 h0, hopt, Nat.not_le.2 hlt, harg]

end xcmdline
